import Mathlib

/-!
# Verification of the mustache-codegen template compiler

A shallow embedding of the template parser, partial resolver, code-generator
bookkeeping and runtime support library of the mustache-codegen repository,
together with theorems settling the specification claims.

Strings are modelled as `List Char`; Go byte indices become `Nat` indices into
the character list, and Go slicing `s[a:b]` becomes `substr s a b`.
Fallible Go functions returning `(T, error)` become `Except`-valued functions.
Loops are modelled by structural recursion, and the two loops of the parser
whose progress argument is numeric (the per-line loop and the forward scan for
a matching close tag) take an explicit fuel argument; the canonical fuel is
derived from the input length and is proved sufficient.
-/

set_option maxHeartbeats 1000000 in
theorem mustacheCodegenPlaceholder : True := trivial

namespace Mustache

/-- Strings of the modelled program: lists of characters. -/
abbrev Str := List Char

/-- Go slicing `s[a:b]`. -/
def substr (s : Str) (a b : Nat) : Str := (s.take b).drop a

/-- Go's `unicode.IsSpace`: the Unicode White_Space property. -/
def isSpaceChar (c : Char) : Bool :=
  let n := c.toNat
  (0x9 ≤ n && n ≤ 0xD) || n == 0x20 || n == 0x85 || n == 0xA0 ||
  n == 0x1680 || (0x2000 ≤ n && n ≤ 0x200A) || n == 0x2028 || n == 0x2029 ||
  n == 0x202F || n == 0x205F || n == 0x3000

/-- `isSpace` from the source: all characters of `s` are whitespace
(`!strings.ContainsFunc(s, isNonSpace)`). -/
def isSpace (s : Str) : Bool := s.all isSpaceChar

/-- Go's `strings.Index`: index of the first occurrence of `pat` in `s`,
`none` when absent (`-1` in Go). -/
def strIndex (s pat : Str) : Option Nat :=
  if pat.isPrefixOf s then some 0
  else
    match s with
    | [] => none
    | _ :: t => (strIndex t pat).map (· + 1)

/-- `nextIndex` from the source: like `strings.Index` with a start offset. -/
def nextIndex (s : Str) (start : Nat) (pat : Str) : Option Nat :=
  (strIndex (s.drop start) pat).map (· + start)

/-- Go's `strings.IndexFunc`. -/
def indexFunc (s : Str) (f : Char → Bool) : Option Nat := s.findIdx? f

/-- `nextIndexFunc` from the source. -/
def nextIndexFunc (s : Str) (start : Nat) (f : Char → Bool) : Option Nat :=
  ((s.drop start).findIdx? f).map (· + start)

/-- `indexNextLine` from the source: index one past the first line of `s`. -/
def indexNextLine : Str → Nat
  | [] => 0
  | c :: t => if c = '\n' then 1 else 1 + indexNextLine t

/-- Character admitted into a line's indentation by `lineIndentation`:
`unicode.Is(unicode.Zs, c) || c == '\t'`. -/
def isIndentChar (c : Char) : Bool :=
  let n := c.toNat
  n == 0x20 || n == 0xA0 || n == 0x1680 || (0x2000 ≤ n && n ≤ 0x200A) ||
  n == 0x202F || n == 0x205F || n == 0x3000 || c == '\t'

/-- `lineIndentation` from the source: longest whitespace-only prefix of the line. -/
def lineIndentation (line : Str) : Str := line.takeWhile isIndentChar

/-- Go's `strings.TrimSpace`. -/
def trimSpace (s : Str) : Str :=
  ((s.dropWhile isSpaceChar).reverse.dropWhile isSpaceChar).reverse

/-! ## The tag model -/

/-- `tagType` from the source. -/
inductive TagType where
  | literal
  | variableTag
  | rawVariable
  | sectionTag
  | invertedSection
  | partialTag
  | blockTag
  | parentTag
  | indentPoint
  deriving DecidableEq, Repr

/-- `tag` from the source: a node of the parsed template tree. -/
structure Tag where
  tt : TagType
  s : Str
  indent : Str
  body : List Tag
  deriving Repr

/-- Construct a tag with the Go zero values for omitted fields. -/
def tagOf (tt : TagType) (s : Str := []) (indent : Str := []) (body : List Tag := []) :
    Tag := ⟨tt, s, indent, body⟩

/-- `tagsEqual` from the source: deep structural equality of tags. -/
def tagsEqual : Tag → Tag → Bool
  | ⟨tt1, s1, i1, b1⟩, ⟨tt2, s2, i2, b2⟩ =>
    tt1 == tt2 && s1 == s2 && i1 == i2 && tagListEqual b1 b2
where
  /-- `slices.EqualFunc(t1.body, t2.body, tagsEqual)`. -/
  tagListEqual : List Tag → List Tag → Bool
  | [], [] => true
  | t1 :: r1, t2 :: r2 => tagsEqual t1 t2 && tagListEqual r1 r2
  | _, _ => false

/-! ## The lexer (`cutTag` and friends) -/

/-- The parse-time failure conditions of the source, by error site. -/
inductive ParseErr where
  /-- `cutTag`: "unclosed tag". -/
  | unclosedTag
  /-- `cutTag`: "unclosed comment". -/
  | unclosedComment
  /-- `cutTag`: a set-delimiter tag that does not end with `=`. -/
  | setDelimNoFinalEquals
  /-- `parse`: "empty tag". -/
  | emptyTag
  /-- `parse`: "extra words in ... tag". -/
  | extraWords (word : Str)
  /-- `parse`: closing tag without an open scope. -/
  | closeWithoutOpening (name : Str)
  /-- `parse`: closing tag name does not match the open scope. -/
  | mismatchedClose (name want : Str)
  /-- `splitSetDelimiterTag`: "set delimiter tag empty". -/
  | setDelimEmpty
  /-- `splitSetDelimiterTag`: "set delimiter tag missing an end delimiter". -/
  | setDelimMissingEnd
  /-- `splitSetDelimiterTag`: "set delimiter tag has more than two delimiters". -/
  | setDelimTooMany
  /-- `parse`: open scopes remain at end of input ("unclosed <name>"). -/
  | unclosedAtEof (name : Str)
  /-- `elementEnd`: "unclosed <name>". -/
  | unclosedElement (name : Str)
  /-- Fuel exhaustion marker of the embedding's fueled loops; proved unreachable
  for the canonical fuel. -/
  | outOfFuel
  deriving DecidableEq, Repr

/-- Result of `cutTag`: sigil byte (`none` for a plain interpolation),
trimmed key, index one past the close delimiter. -/
structure CutTag where
  special : Option Char
  key : Str
  tagEnd : Nat
  deriving DecidableEq, Repr

/-- The inner loop of `cutTag`: starting from suffix `rest = s.drop i`,
find the least index at which `ed` occurs, failing on a newline unless the tag
is a comment, and failing when the end of input is reached first. -/
def scanTagEnd (ed : Str) (isComment : Bool) : Str → Nat → Except ParseErr Nat
  | rest, i =>
    if ed.length ≤ rest.length then
      if rest.headD ' ' = '\n' ∧ isComment = false then .error .unclosedTag
      else if ed.isPrefixOf rest then .ok i
      else
        match rest with
        | [] => .error .unclosedTag
        | _ :: t => scanTagEnd ed isComment t (i + 1)
    else .error (if isComment then .unclosedComment else .unclosedTag)

/-- The sigil characters recognized by `cutTag` (`` `#^!<>$/&` ``). -/
def specialChars : Str := ['#', '^', '!', '<', '>', '$', '/', '&']

/-- `cutTag` from the source: parse the tag starting at index `tagStart`,
assuming the open delimiter occurs there. -/
def cutTag (s : Str) (tagStart : Nat) (sd ed : Str) : Except ParseErr CutTag :=
  let tagInnerStart := tagStart + sd.length
  let isComment := ['!'].isPrefixOf (s.drop tagInnerStart)
  match scanTagEnd ed isComment (s.drop tagInnerStart) tagInnerStart with
  | .error e => .error e
  | .ok tagInnerEnd =>
    let tagEnd := tagInnerEnd + ed.length
    if (sd = ['{', '{'] ∧ ed = ['}', '}']) ∧ (s.drop tagInnerStart).headD ' ' = '{' ∧
        ['}'].isPrefixOf (s.drop tagEnd) then
      .ok ⟨some '&', trimSpace (substr s (tagInnerStart + 1) tagInnerEnd), tagEnd + 1⟩
    else
      let inner := substr s tagInnerStart tagInnerEnd
      if ['='].isPrefixOf inner then
        if ['='].isPrefixOf inner.tail.reverse then
          .ok ⟨some '=', trimSpace inner.tail.reverse.tail.reverse, tagEnd⟩
        else .error .setDelimNoFinalEquals
      else if 1 < inner.length ∧ inner.headD ' ' ∈ specialChars then
        .ok ⟨some (inner.headD ' '), trimSpace inner.tail, tagEnd⟩
      else
        .ok ⟨none, trimSpace inner, tagEnd⟩

/-- `splitSetDelimiterTag` from the source. -/
def splitSetDelimiterTag (s : Str) : Except ParseErr (Str × Str) :=
  match indexFunc s isSpaceChar with
  | none => .error .setDelimMissingEnd
  | some i =>
    if i = 0 then .error .setDelimEmpty
    else
      match nextIndexFunc s i (fun c => !isSpaceChar c) with
      | none => .error .setDelimMissingEnd
      | some j =>
        match nextIndexFunc s j isSpaceChar with
        | some _ => .error .setDelimTooMany
        | none => .ok (s.take i, s.drop j)

/-- Loop body count of `elementEnd`, fueled. State: scan position `i` and open
nesting `level` of same-named tags, with the current delimiter pair. -/
def elementEndAux (s : Str) (name : Str) :
    Nat → Nat → Nat → Str → Str → Except ParseErr Nat
  | 0, _, _, _, _ => .error .outOfFuel
  | fuel + 1, i, level, sd, ed =>
    if level = 0 then .ok i
    else
      match nextIndex s i sd with
      | none => .error (.unclosedElement name)
      | some tagStart =>
        match cutTag s tagStart sd ed with
        | .error _ => .error (.unclosedElement name)
        | .ok ct =>
          if ct.special = some '#' ∨ ct.special = some '^' ∨ ct.special = some '$' ∨
              ct.special = some '<' then
            elementEndAux s name fuel ct.tagEnd
              (if ct.key = name then level + 1 else level) sd ed
          else if ct.special = some '/' then
            elementEndAux s name fuel ct.tagEnd
              (if ct.key = name then level - 1 else level) sd ed
          else if ct.special = some '=' then
            match splitSetDelimiterTag ct.key with
            | .error e => .error e
            | .ok (sd', ed') => elementEndAux s name fuel ct.tagEnd level sd' ed'
          else
            elementEndAux s name fuel ct.tagEnd level sd ed

/-- `elementEnd` from the source: index one past the matching close tag of the
scope named `name` whose open tag ends at `tagEnd`. -/
def elementEnd (name : Str) (s : Str) (tagEnd : Nat) (sd ed : Str) :
    Except ParseErr Nat :=
  elementEndAux s name (s.length + 2) tagEnd 1 sd ed

end Mustache

namespace Mustache

/-! ## The structural parser (`parse`) -/

/-- A scope frame of the parser. `start` is the opening tag, `children` the
children accumulated so far for that scope (the Go code appends in place via
the `slice` pointer; the completed tag is materialized when the scope closes).
The zero value is the bottom frame created for the top-level `result` slice. -/
structure Frame where
  start : Tag := tagOf .literal
  lineno : Nat := 0
  standalone : Bool := false
  children : List Tag := []
  deriving Repr

/-- The mutable state of `parse`: the scope stack (innermost scope first),
the active delimiters, and the current line number. -/
structure PState where
  stack : List Frame
  sd : Str
  ed : Str
  lineno : Nat
  deriving Repr

/-- Append a tag to the current (innermost) scope's children. -/
def pushTag (st : PState) (t : Tag) : PState :=
  match st.stack with
  | [] => st
  | f :: rest => { st with stack := { f with children := f.children ++ [t] } :: rest }

/-- `appendLiteral` from the source: append a literal tag unless empty. -/
def appendLiteral (st : PState) (txt : Str) : PState :=
  if txt = [] then st else pushTag st (tagOf .literal txt)

/-- `newScope` from the source: open a scope for tag `t`. -/
def newScope (st : PState) (t : Tag) : PState :=
  { st with stack :=
      { start := t, lineno := st.lineno, standalone := false, children := [] } :: st.stack }

/-- Record the standalone flag on the innermost scope (used for `Parent`). -/
def setTopStandalone (st : PState) (b : Bool) : PState :=
  match st.stack with
  | [] => st
  | f :: rest => { st with stack := { f with standalone := b } :: rest }

/-- Close the innermost scope: materialize its tag and append it to the
enclosing scope's children. -/
def closeScope (st : PState) : PState :=
  match st.stack with
  | f :: g :: rest =>
    { st with stack :=
        { g with children := g.children ++ [{ f.start with body := f.children }] } :: rest }
  | _ => st

/-- `dedent` from the source, over the frames listed outermost-first:
strip each enclosing block scope's indentation prefix, stopping at the first
frame whose prefix is not present. -/
def dedentFrames : List Frame → Str → Str
  | [], s => s
  | f :: rest, s =>
    if f.start.tt = .blockTag then
      if f.start.indent.isPrefixOf s then dedentFrames rest (s.drop f.start.indent.length)
      else s
    else dedentFrames rest s

/-- `dedent` applied to the parser state (the Go loop ranges over the stack
from the outermost frame up). -/
def dedent (st : PState) (s : Str) : Str := dedentFrames st.stack.reverse s

/-- The outcome of processing one tag in the per-line tag loop. -/
structure TagStep where
  st : PState
  eol : Nat
  tagEnd : Nat
  prevEnd : Nat
  ignore : Bool
  deriving Repr

/-- The tag-content validation of `parse`: non-comment, non-delimiter-change
tags must have a nonempty key with no embedded whitespace. -/
def checkKey (ct : CutTag) : Except ParseErr Unit :=
  if ct.special ≠ some '!' ∧ ct.special ≠ some '=' then
    if ct.key = [] then .error .emptyTag
    else
      match indexFunc ct.key isSpaceChar with
      | some i => .error (.extraWords (ct.key.take i))
      | none => .ok ()
  else .ok ()

/-- The trailing text consulted by the standalone test: for standalone-pair
tags (`Parent` open tags and block-parameter tags) the text after the matching
close tag located by `elementEnd`, otherwise the rest of the tag's own line. -/
def computeTrailing (s : Str) (sd ed : Str) (ct : CutTag) (eol : Nat)
    (isPairTag : Bool) : Except ParseErr Str :=
  if isPairTag then
    match elementEnd ct.key s ct.tagEnd sd ed with
    | .error e => .error e
    | .ok i => .ok (substr s i (i + indexNextLine (s.drop i)))
  else .ok (substr s ct.tagEnd eol)

/-- The sigil switch of `parse`: apply the tag's effect to the parser state.
Returns the updated state together with the possibly updated
`ignoreRestOfLine` flag (a close tag of a `Parent` scope replaces it by the
standalone flag recorded when that scope was opened). -/
def applySpecial (st : PState) (ct : CutTag) (indent : Str)
    (isStandalone ignore1 : Bool) : Except ParseErr (PState × Bool) :=
  if ct.special = some '#' then .ok (newScope st (tagOf .sectionTag ct.key), ignore1)
  else if ct.special = some '^' then .ok (newScope st (tagOf .invertedSection ct.key), ignore1)
  else if ct.special = some '!' then .ok (st, ignore1)
  else if ct.special = some '>' then
    .ok (pushTag st (tagOf .partialTag ct.key indent), ignore1)
  else if ct.special = some '$' then
    let st1 := newScope st (tagOf .blockTag ct.key indent)
    .ok (if !ignore1 then pushTag st1 (tagOf .indentPoint) else st1, ignore1)
  else if ct.special = some '<' then
    .ok (setTopStandalone
      (newScope st (tagOf .parentTag ct.key indent)) isStandalone, ignore1)
  else if ct.special = some '/' then
    match st.stack with
    | f :: _ :: _ =>
      let ignore2 := if f.start.tt == .parentTag then f.standalone else ignore1
      if ct.key ≠ f.start.s then .error (.mismatchedClose ct.key f.start.s)
      else .ok (closeScope st, ignore2)
    | _ => .error (.closeWithoutOpening ct.key)
  else if ct.special = some '=' then
    match splitSetDelimiterTag ct.key with
    | .error e => .error e
    | .ok (sd', ed') => .ok ({ st with sd := sd', ed := ed' }, ignore1)
  else if ct.special = some '&' then .ok (pushTag st (tagOf .rawVariable ct.key), ignore1)
  else .ok (pushTag st (tagOf .variableTag ct.key), ignore1)

/-- The body of the per-line tag loop of `parse`: process the tag starting at
`tagStart` (where the open delimiter occurs), given the line end `eol0` and the
end `prevEnd` of the previous tag on the line. -/
def processTag (s : Str) (st0 : PState) (eol0 prevEnd tagStart : Nat) :
    Except ParseErr TagStep := do
  let ct ← cutTag s tagStart st0.sd st0.ed
  let n := (substr s tagStart ct.tagEnd).count '\n'
  let eol := if 0 < n then ct.tagEnd + indexNextLine (s.drop ct.tagEnd) else eol0
  checkKey ct
  let leadingText := substr s prevEnd tagStart
  let top := st0.stack.headD {}
  let isParameter : Bool := ct.special == some '$' && top.start.tt != .parentTag
  let isPairTag : Bool := ct.special == some '<' || isParameter
  let trailingText ← computeTrailing s st0.sd st0.ed ct eol isPairTag
  let isStandalone : Bool := prevEnd == 0 && ct.special != none && ct.special != some '&' &&
      isSpace leadingText && isSpace trailingText
  let ignore0 : Bool := isStandalone && !isPairTag
  let isArgument : Bool := ct.special == some '$' && top.start.tt == .parentTag
  let argClear : Bool := (isArgument || (isParameter && isStandalone)) &&
      isSpace (substr s ct.tagEnd eol)
  let indent : Str :=
    if argClear then lineIndentation (dedentFrames st0.stack.reverse (s.drop eol))
    else if isStandalone then leadingText
    else []
  let ignore1 : Bool := ignore0 || argClear
  let blockCloseAtStart : Bool := tagStart == 0 && ct.special == some '/' &&
      top.start.tt == .blockTag && ((st0.stack.drop 1).headD {}).start.tt == .parentTag
  let st := { st0 with lineno := st0.lineno + n }
  let st :=
    if !isStandalone then
      let st1 := if prevEnd == 0 && !blockCloseAtStart then
          pushTag st (tagOf .indentPoint) else st
      appendLiteral st1 leadingText
    else st
  let (st2, ignore) ← applySpecial st ct indent isStandalone ignore1
  if ignore then pure ⟨st2, eol, ct.tagEnd, eol, true⟩
  else pure ⟨st2, eol, ct.tagEnd, ct.tagEnd, false⟩

/-- The per-line tag loop of `parse` (`for tagStart >= 0`), fueled.
Returns the state, the (possibly comment-extended) line end, and the final
`prevEnd` at loop exit. -/
def parseTagsLoop (s : Str) :
    Nat → PState → Nat → Nat → Nat → Except ParseErr (PState × Nat × Nat)
  | 0, _, _, _, _ => .error .outOfFuel
  | fuel + 1, st, eol, prevEnd, tagStart => do
    let step ← processTag s st eol prevEnd tagStart
    if step.ignore then pure (step.st, step.eol, step.prevEnd)
    else
      match nextIndex (s.take step.eol) step.tagEnd step.st.sd with
      | none => pure (step.st, step.eol, step.prevEnd)
      | some ts2 => parseTagsLoop s fuel step.st step.eol step.prevEnd ts2

/-- One iteration of the outer per-line loop of `parse`, on input `s` that has
already been dedented. Returns the new state and the number of characters of
`s` consumed. -/
def parseLine (st : PState) (s : Str) : Except ParseErr (PState × Nat) :=
  let eol := indexNextLine s
  match strIndex (s.take eol) st.sd with
  | none =>
    .ok (appendLiteral (pushTag st (tagOf .indentPoint)) (substr s 0 eol), eol)
  | some tagStart => do
    let (st', eol2, prevEnd) ← parseTagsLoop s (s.length + 2) st eol 0 tagStart
    .ok (appendLiteral st' (substr s prevEnd eol2), eol2)

/-- The outer loop of `parse` (`for len(s) > 0`), fueled, with the end-of-input
scope check. -/
def parseLines : Nat → PState → Str → Except ParseErr (List Tag)
  | 0, _, _ => .error .outOfFuel
  | fuel + 1, st, s =>
    if s = [] then
      match st.stack with
      | [base] => .ok base.children
      | f :: _ :: _ => .error (.unclosedAtEof f.start.s)
      | [] => .error .outOfFuel
    else do
      let sDed := dedent st s
      let (st', consumed) ← parseLine st sDed
      parseLines fuel { st' with lineno := st'.lineno + 1 } (sDed.drop consumed)

/-- The initial parser state: one bottom frame, default delimiters, line 1. -/
def initState : PState :=
  { stack := [{}], sd := ['{', '{'], ed := ['}', '}'], lineno := 1 }

/-- `parse` from the source, with the canonical fuel `s.length + 1` for the
per-line loop (sufficiency is proved below). -/
def parse (s : Str) : Except ParseErr (List Tag) :=
  parseLines (s.length + 1) initState s

/-- Convenience: view a Lean string literal as a modelled string. -/
def ofString (s : String) : Str := s.data

end Mustache

namespace Mustache

/-! ## Basic facts about the string utilities -/

theorem substr_eq_drop_take (s : Str) (a b : Nat) :
    substr s a b = (s.drop a).take (b - a) := by
  simp [substr, List.drop_take]

/-! ## Lemmas about the lexer scan -/

theorem scanTagEnd_bounds {ed : Str} {ic : Bool} :
    ∀ {rest : Str} {i j : Nat}, scanTagEnd ed ic rest i = .ok j →
      i ≤ j ∧ j - i + ed.length ≤ rest.length ∧ ed.isPrefixOf (rest.drop (j - i)) := by
  intro rest
  induction rest with
  | nil =>
    intro i j h
    rw [scanTagEnd] at h
    split_ifs at h with h1 h2 h3 <;> try cases h
    have hed : ed = [] := List.eq_nil_of_length_eq_zero (by simpa using h1)
    simp [hed, List.isPrefixOf]
  | cons c t ih =>
    intro i j h
    rw [scanTagEnd] at h
    split_ifs at h with h1 h2 h3 <;> try cases h
    · exact ⟨le_rfl, by simpa using h1, by simpa using h3⟩
    · obtain ⟨hij, hlen, hpre⟩ := ih h
      refine ⟨by omega, ?_, ?_⟩
      · simp only [List.length_cons]
        omega
      · have hj : j - i = (j - (i + 1)) + 1 := by omega
        rw [hj, List.drop_succ_cons]
        exact hpre

theorem scanTagEnd_no_newline {ed : Str} :
    ∀ {rest : Str} {i j : Nat}, scanTagEnd ed false rest i = .ok j →
      '\n' ∉ rest.take (j - i) := by
  intro rest
  induction rest with
  | nil =>
    intro i j h
    simp
  | cons c t ih =>
    intro i j h
    rw [scanTagEnd] at h
    split_ifs at h with h1 h2 h3 <;> try cases h
    · simp
    · have hij := (scanTagEnd_bounds h).1
      have hc : c ≠ '\n' := by
        intro hc
        exact h2 ⟨by simp [hc], rfl⟩
      have hj : j - i = (j - (i + 1)) + 1 := by omega
      rw [hj, List.take_succ_cons]
      intro hmem
      rcases List.mem_cons.mp hmem with h' | h'
      · exact hc h'.symm
      · exact ih h h'

theorem scanTagEnd_comment_ok {ed : Str} :
    ∀ {rest : Str} {k : Nat} (i : Nat), ed.isPrefixOf (rest.drop k) →
      k + ed.length ≤ rest.length → ∃ j, scanTagEnd ed true rest i = .ok j := by
  intro rest
  induction rest with
  | nil =>
    intro k i hpre hlen
    have hed : ed = [] := by
      have h0 : List.length ed = 0 := by
        simp only [List.length_nil] at hlen
        omega
      exact List.eq_nil_of_length_eq_zero h0
    exact ⟨i, by rw [scanTagEnd]; simp [hed, List.isPrefixOf]⟩
  | cons c t ih =>
    intro k i hpre hlen
    rw [scanTagEnd]
    have hguard : ed.length ≤ (c :: t).length := by
      simp only [List.length_cons] at hlen ⊢
      omega
    rw [if_pos hguard]
    have hnotnl : ¬((c :: t).headD ' ' = '\n' ∧ true = false) := by simp
    rw [if_neg hnotnl]
    by_cases hp : ed.isPrefixOf (c :: t)
    · exact ⟨i, by rw [if_pos hp]⟩
    · rw [if_neg hp]
      match k, hpre with
      | 0, hpre => exact absurd hpre hp
      | k + 1, hpre =>
        have hpre' : ed.isPrefixOf (t.drop k) := by simpa using hpre
        have hlen' : k + ed.length ≤ t.length := by
          simp only [List.length_cons] at hlen
          omega
        exact ih (i + 1) hpre' hlen'

theorem cutTag_ok_scan {s : Str} {ts : Nat} {sd ed : Str} {ct : CutTag}
    (h : cutTag s ts sd ed = .ok ct) :
    ∃ j, scanTagEnd ed (['!'].isPrefixOf (s.drop (ts + sd.length)))
        (s.drop (ts + sd.length)) (ts + sd.length) = .ok j ∧
      (ct.tagEnd = j + ed.length ∨
        (ct.tagEnd = j + ed.length + 1 ∧ ed = ['}', '}'] ∧
          ['}'].isPrefixOf (s.drop (j + ed.length)))) := by
  simp only [cutTag] at h
  cases hscan : scanTagEnd ed (['!'].isPrefixOf (s.drop (ts + sd.length)))
      (s.drop (ts + sd.length)) (ts + sd.length) with
  | error e =>
    rw [hscan] at h
    cases h
  | ok j =>
    rw [hscan] at h
    dsimp only at h
    refine ⟨j, rfl, ?_⟩
    split_ifs at h with h1 h2 h3 h4 <;> cases h
    · obtain ⟨⟨hsd, hed⟩, hhead, hpre⟩ := h1
      subst hed
      exact Or.inr ⟨rfl, rfl, hpre⟩
    all_goals exact Or.inl rfl

theorem cutTag_tagEnd_bounds {s : Str} {ts : Nat} {sd ed : Str} {ct : CutTag}
    (hed : ed ≠ []) (h : cutTag s ts sd ed = .ok ct) :
    ts + sd.length + ed.length ≤ ct.tagEnd ∧ ct.tagEnd ≤ s.length := by
  obtain ⟨j, hscan, hte⟩ := cutTag_ok_scan h
  obtain ⟨hij, hlen, -⟩ := scanTagEnd_bounds hscan
  have hedlen : 0 < ed.length := List.length_pos.mpr hed
  have htis : ts + sd.length ≤ s.length := by
    by_contra hgt
    push_neg at hgt
    have : (s.drop (ts + sd.length)).length = 0 := by
      simp [List.length_drop]
      omega
    omega
  have hdroplen : (s.drop (ts + sd.length)).length = s.length - (ts + sd.length) := by
    simp [List.length_drop]
  rcases hte with hte | ⟨hte, hpre⟩
  · omega
  · have hne : s.drop (j + ed.length) ≠ [] := by
      intro hnil
      rw [hnil] at hpre
      simp [List.isPrefixOf] at hpre
    have : j + ed.length < s.length := by
      by_contra hgt
      push_neg at hgt
      exact hne (List.drop_eq_nil_of_le hgt)
    omega

theorem cutTag_ok_of_scan {s : Str} {ts : Nat} {sd ed : Str} {j : Nat}
    (hscan : scanTagEnd ed (['!'].isPrefixOf (s.drop (ts + sd.length)))
      (s.drop (ts + sd.length)) (ts + sd.length) = .ok j)
    (hne : ¬ (['='] : Str).isPrefixOf (substr s (ts + sd.length) j) = true ∨
      (['='] : Str).isPrefixOf (substr s (ts + sd.length) j).tail.reverse = true) :
    ∃ ct, cutTag s ts sd ed = .ok ct := by
  simp only [cutTag]
  rw [hscan]
  dsimp only
  split_ifs with h1 h2 h3 h4
  · exact ⟨_, rfl⟩
  · exact ⟨_, rfl⟩
  · rcases hne with hne | hne
    · exact absurd h2 hne
    · exact absurd hne h3
  · exact ⟨_, rfl⟩
  · exact ⟨_, rfl⟩

/-- **C8.** A tag whose inner content contains a line break before the close
delimiter is found is rejected by the lexer `cutTag` unless the tag is a
comment (first conjunct, stated contrapositively: if `cutTag` succeeds on a
non-comment tag, no newline occurs in the scanned inner content before the
close delimiter); comment tags may span multiple source lines and are
accepted (second conjunct). -/
theorem c8_cutTag_newline_law :
    (∀ (s : Str) (tagStart : Nat) (sd ed : Str) (ct : CutTag),
        cutTag s tagStart sd ed = .ok ct →
        ['!'].isPrefixOf (s.drop (tagStart + sd.length)) = false →
        '\n' ∉ substr s (tagStart + sd.length) (ct.tagEnd - ed.length)) ∧
    (∀ mid : Str, '\n' ∈ mid →
        ∃ ct, cutTag (['{', '{', '!'] ++ mid ++ ['}', '}']) 0 ['{', '{'] ['}', '}'] = .ok ct) := by
  constructor
  · intro s tagStart sd ed ct h hc
    obtain ⟨j, hscan, hte⟩ := cutTag_ok_scan h
    rw [hc] at hscan
    obtain ⟨hij, hlen, hpre⟩ := scanTagEnd_bounds hscan
    have nonl := scanTagEnd_no_newline hscan
    rw [substr_eq_drop_take]
    rcases hte with hte | ⟨hte, hed, -⟩
    · have harith : ct.tagEnd - ed.length - (tagStart + sd.length) =
          j - (tagStart + sd.length) := by omega
      rw [harith]
      exact nonl
    · have harith : ct.tagEnd - ed.length - (tagStart + sd.length) =
          (j - (tagStart + sd.length)) + 1 := by omega
      rw [harith, List.take_add]
      subst hed
      have hbrace : ((s.drop (tagStart + sd.length)).drop (j - (tagStart + sd.length))).take 1 =
          ['}'] := by
        obtain ⟨t, ht⟩ := List.isPrefixOf_iff_prefix.mp hpre
        rw [← ht]
        rfl
      rw [hbrace]
      intro hmem
      rcases List.mem_append.mp hmem with h' | h'
      · exact nonl h'
      · simp at h'
  · intro mid hnl
    have hdropeq : ((['{', '{', '!'] ++ mid ++ ['}', '}'] : Str)).drop
        (0 + (['{', '{'] : Str).length) = '!' :: (mid ++ ['}', '}']) := by simp
    have hicomment : (['!'] : Str).isPrefixOf
        ((['{', '{', '!'] ++ mid ++ ['}', '}']).drop (0 + (['{', '{'] : Str).length)) = true := by
      rw [hdropeq]
      simp [List.isPrefixOf]
    have hpre : (['}', '}'] : Str).isPrefixOf
        ((('!' :: (mid ++ ['}', '}'])) : Str).drop (mid.length + 1)) := by
      have hd : (('!' :: (mid ++ ['}', '}'])) : Str).drop (mid.length + 1) = ['}', '}'] := by
        simp
      rw [hd]
      simp [List.isPrefixOf]
    have hlen : (mid.length + 1) + (['}', '}'] : Str).length ≤
        (('!' :: (mid ++ ['}', '}'])) : Str).length := by
      simp
    obtain ⟨j, hscan⟩ :=
      @scanTagEnd_comment_ok ['}', '}'] ('!' :: (mid ++ ['}', '}'])) (mid.length + 1)
        (0 + (['{', '{'] : Str).length) hpre hlen
    have hscan' : scanTagEnd ['}', '}']
        ((['!'] : Str).isPrefixOf
          ((['{', '{', '!'] ++ mid ++ ['}', '}']).drop (0 + (['{', '{'] : Str).length)))
        ((['{', '{', '!'] ++ mid ++ ['}', '}']).drop (0 + (['{', '{'] : Str).length))
        (0 + (['{', '{'] : Str).length) = .ok j := by
      rw [hicomment, hdropeq]
      exact hscan
    have hj3 : 0 + (['{', '{'] : Str).length + 1 ≤ j := by
      obtain ⟨hij, hlen2, hpre2⟩ := scanTagEnd_bounds hscan'
      rcases Nat.lt_or_ge j (0 + (['{', '{'] : Str).length + 1) with hlt | hge
      · exfalso
        have hj2 : j = 0 + (['{', '{'] : Str).length := by
          simp only [List.length_cons, List.length_nil] at hij hlt ⊢
          omega
        rw [hj2] at hpre2
        rw [hdropeq] at hpre2
        simp [List.isPrefixOf] at hpre2
      · exact hge
    apply cutTag_ok_of_scan hscan'
    left
    rw [substr_eq_drop_take, hdropeq]
    have harith : j - (0 + (['{', '{'] : Str).length) = (j - (0 + (['{', '{'] : Str).length + 1)) + 1 := by
      simp only [List.length_cons, List.length_nil] at hj3 ⊢
      omega
    rw [harith, List.take_succ_cons]
    simp [List.isPrefixOf]

deriving instance DecidableEq for Except

/-- Witness for C8: the first conjunct applied to the concrete non-comment tag
`{{ab}}`, the second to a comment whose content spans two lines. -/
theorem c8_cutTag_newline_law_witness :
    '\n' ∉ substr (ofString "\x7b\x7bab\x7d\x7dx") 2 4 ∧
    ∃ ct, cutTag (['{', '{', '!'] ++ ['a', '\n', 'b'] ++ ['}', '}']) 0 ['{', '{'] ['}', '}'] =
      .ok ct := by
  constructor
  · have h := c8_cutTag_newline_law.1 (ofString "\x7b\x7bab\x7d\x7dx") 0 ['{', '{'] ['}', '}']
      ⟨none, ['a', 'b'], 6⟩ (by decide) (by decide)
    simpa using h
  · exact c8_cutTag_newline_law.2 ['a', '\n', 'b'] (by decide)

/-! ## Structural equality of tags -/

/-- Induction over the nested tag tree: to prove `P` for every tag it
suffices to prove it for a tag whose body members all satisfy `P`. -/
theorem tag_induction {P : Tag → Prop}
    (h : ∀ tt s ind body, (∀ t ∈ body, P t) → P ⟨tt, s, ind, body⟩) : ∀ t, P t := by
  have key : ∀ (n : Nat) (t : Tag), sizeOf t ≤ n → P t := by
    intro n
    induction n with
    | zero =>
      intro t ht
      cases t with
      | mk tt s ind body =>
        simp [Tag.mk.sizeOf_spec] at ht
    | succ n ih =>
      intro t ht
      cases t with
      | mk tt s ind body =>
        apply h
        intro t' ht'
        apply ih
        have h1 : sizeOf t' < sizeOf body := List.sizeOf_lt_of_mem ht'
        have h2 : sizeOf (Tag.mk tt s ind body) =
            1 + sizeOf tt + sizeOf s + sizeOf ind + sizeOf body := by
          simp [Tag.mk.sizeOf_spec]
        omega
  exact fun t => key (sizeOf t) t le_rfl

theorem tagListEqual_iff_of
    {b1 : List Tag} (ih : ∀ t ∈ b1, ∀ u, tagsEqual t u = true ↔ t = u) :
    ∀ b2, tagsEqual.tagListEqual b1 b2 = true ↔ b1 = b2 := by
  induction b1 with
  | nil =>
    intro b2
    cases b2 with
    | nil => simp [tagsEqual.tagListEqual]
    | cons t2 r2 => simp [tagsEqual.tagListEqual]
  | cons t1 r1 ihr =>
    intro b2
    cases b2 with
    | nil => simp [tagsEqual.tagListEqual]
    | cons t2 r2 =>
      have ih1 := ih t1 (List.mem_cons_self t1 r1)
      have ihr' := ihr (fun t ht u => ih t (List.mem_cons_of_mem t1 ht) u) r2
      simp [tagsEqual.tagListEqual, ih1, ihr']

/-- `tagsEqual` from the source decides structural equality of tags. -/
theorem tagsEqual_iff (t1 : Tag) : ∀ t2, tagsEqual t1 t2 = true ↔ t1 = t2 := by
  induction t1 using tag_induction with
  | h tt s ind body ih =>
    intro t2
    cases t2 with
    | mk tt2 s2 ind2 body2 =>
      have hb := tagListEqual_iff_of ih body2
      simp [tagsEqual, hb, Tag.mk.injEq, and_assoc]

instance : DecidableEq Tag := fun t1 t2 => decidable_of_iff _ (tagsEqual_iff t1 t2)

deriving instance DecidableEq for Frame
deriving instance DecidableEq for PState
deriving instance DecidableEq for TagStep

/-- Unfold one iteration of the outer per-line loop on a nonempty input,
given the computed outcome of the line. Used to evaluate `parse` on concrete
templates one line at a time. -/
theorem parseLines_step (fuel : Nat) (st stNew : PState) (s rest : Str)
    (stMid : PState) (consumed : Nat)
    (hne : s ≠ [])
    (hline : parseLine st (dedent st s) = .ok (stMid, consumed))
    (hnew : { stMid with lineno := stMid.lineno + 1 } = stNew)
    (hrest : (dedent st s).drop consumed = rest) :
    parseLines (fuel + 1) st s = parseLines fuel stNew rest := by
  rw [parseLines]
  rw [if_neg hne]
  show (parseLine st (dedent st s)) >>= _ = _
  rw [hline]
  show parseLines fuel { stMid with lineno := stMid.lineno + 1 } ((dedent st s).drop consumed) = _
  rw [hnew, hrest]

/-! ## C1: standalone absorption -/

/-- Parser state after the first line of the C1 counterexample template
(line number not yet advanced). -/
def c1StateMid : PState :=
  ⟨[⟨⟨.parentTag, ['p'], [], []⟩, 1, false, [⟨.literal, [' ', ' ', '\n'], [], []⟩]⟩,
    ⟨⟨.literal, [], [], []⟩, 0, false, [⟨.indentPoint, [], [], []⟩, ⟨.literal, [' ', ' '], [], []⟩]⟩],
   ['{', '{'], ['}', '}'], 1⟩

/-- Parser state entering the second line of the C1 counterexample template. -/
def c1State1 : PState :=
  ⟨[⟨⟨.parentTag, ['p'], [], []⟩, 1, false, [⟨.literal, [' ', ' ', '\n'], [], []⟩]⟩,
    ⟨⟨.literal, [], [], []⟩, 0, false, [⟨.indentPoint, [], [], []⟩, ⟨.literal, [' ', ' '], [], []⟩]⟩],
   ['{', '{'], ['}', '}'], 2⟩

/-- The parse tree of the C1 counterexample template. -/
def c1Tree : List Tag :=
  [⟨.indentPoint, [], [], []⟩, ⟨.literal, [' ', ' '], [], []⟩,
   ⟨.parentTag, ['p'], [],
     [⟨.literal, [' ', ' ', '\n'], [], []⟩, ⟨.indentPoint, [], [], []⟩]⟩,
   ⟨.literal, ['X'], [], []⟩]

/-- Parser state after the second line of the C1 counterexample template
(line number not yet advanced). -/
def c1StateMid2 : PState :=
  ⟨[⟨⟨.literal, [], [], []⟩, 0, false, c1Tree⟩], ['{', '{'], ['}', '}'], 2⟩

/-- Parser state entering the (empty) rest of the C1 counterexample template. -/
def c1State2 : PState :=
  ⟨[⟨⟨.literal, [], [], []⟩, 0, false, c1Tree⟩], ['{', '{'], ['}', '}'], 3⟩

set_option maxHeartbeats 4000000 in
/-- **Counterexample to C1 as stated.** The template consists of the line
`"  \x7b\x7b<p\x7d\x7d  \n"` — exactly one tag, with the parent sigil, and only whitespace
around it on its line — followed by `"\x7b\x7b/p\x7d\x7dX"`. Because a `Parent` open tag is
a standalone-pair tag, the parser consults the text after the matching close
tag (here the non-whitespace `X`), judges the tag not standalone, and emits the
line's leading whitespace `"  "` (as a top-level literal) and its trailing
whitespace-plus-terminator `"  \n"` (as a literal inside the parent's body):
the line is not absorbed, contradicting the claim. -/
theorem c1_standalone_absorption_counterexample :
    parse (ofString "  \x7b\x7b<p\x7d\x7d  \n\x7b\x7b/p\x7d\x7dX") = .ok c1Tree ∧
      Tag.mk .literal [' ', ' '] [] [] ∈ c1Tree ∧
      isSpace [' ', ' '] = true := by
  refine ⟨?_, by decide, by decide⟩
  have h0 : parse (ofString "  \x7b\x7b<p\x7d\x7d  \n\x7b\x7b/p\x7d\x7dX") =
      parseLines 19 initState (ofString "  \x7b\x7b<p\x7d\x7d  \n\x7b\x7b/p\x7d\x7dX") := rfl
  have h1 : parseLines 19 initState (ofString "  \x7b\x7b<p\x7d\x7d  \n\x7b\x7b/p\x7d\x7dX") =
      parseLines 18 c1State1 (ofString "\x7b\x7b/p\x7d\x7dX") :=
    parseLines_step 18 initState c1State1 _ (ofString "\x7b\x7b/p\x7d\x7dX") c1StateMid 11
      (by decide) (by decide) (by decide) (by decide)
  have h2 : parseLines 18 c1State1 (ofString "\x7b\x7b/p\x7d\x7dX") = parseLines 17 c1State2 [] :=
    parseLines_step 17 c1State1 c1State2 _ [] c1StateMid2 7
      (by decide) (by decide) (by decide) (by decide)
  have h3 : parseLines 17 c1State2 [] = .ok c1Tree := by decide
  rw [h0, h1, h2, h3]

/-! ## C9: termination of the parser loops -/

theorem bindE_ok {α β : Type} (a : α) (f : α → Except ParseErr β) :
    ((Except.ok a : Except ParseErr α) >>= f) = f a := rfl

theorem bindE_error {α β : Type} (e : ParseErr) (f : α → Except ParseErr β) :
    ((Except.error e : Except ParseErr α) >>= f) = .error e := rfl

theorem isPrefixOf_length_le {l p : Str} (h : p.isPrefixOf l = true) :
    p.length ≤ l.length :=
  (List.isPrefixOf_iff_prefix.mp h).length_le

theorem indexNextLine_le (s : Str) : indexNextLine s ≤ s.length := by
  induction s with
  | nil => simp [indexNextLine]
  | cons c t ih =>
    rw [indexNextLine]
    split_ifs
    · simp
    · simp only [List.length_cons]
      omega

theorem indexNextLine_pos {s : Str} (h : s ≠ []) : 1 ≤ indexNextLine s := by
  cases s with
  | nil => exact absurd rfl h
  | cons c t =>
    rw [indexNextLine]
    split_ifs <;> omega

theorem strIndex_some : ∀ {s pat : Str} {k : Nat}, strIndex s pat = some k →
    k ≤ s.length ∧ pat.isPrefixOf (s.drop k) = true := by
  intro s
  induction s with
  | nil =>
    intro pat k h
    rw [strIndex] at h
    split_ifs at h with h1
    all_goals try cases h
    exact ⟨Nat.zero_le _, by simpa using h1⟩
  | cons c t ih =>
    intro pat k h
    rw [strIndex] at h
    split_ifs at h with h1
    · cases h
      exact ⟨Nat.zero_le _, by simpa using h1⟩
    · cases hrec : strIndex t pat with
      | none => rw [hrec] at h; cases h
      | some k' =>
        rw [hrec] at h
        simp only [Option.map_some'] at h
        cases h
        obtain ⟨hk, hp⟩ := ih hrec
        exact ⟨by simpa using Nat.succ_le_succ hk, by simpa using hp⟩

theorem nextIndex_some {s : Str} {start : Nat} {pat : Str} {t : Nat}
    (hpat : pat ≠ []) (h : nextIndex s start pat = some t) :
    start ≤ t ∧ t + pat.length ≤ s.length ∧ pat.isPrefixOf (s.drop t) = true := by
  unfold nextIndex at h
  cases hs : strIndex (s.drop start) pat with
  | none => rw [hs] at h; cases h
  | some k =>
    rw [hs] at h
    simp only [Option.map_some'] at h
    cases h
    obtain ⟨hk, hp⟩ := strIndex_some hs
    rw [List.drop_drop] at hp
    rw [Nat.add_comm start k] at hp
    refine ⟨by omega, ?_, hp⟩
    have hple := isPrefixOf_length_le hp
    have hpat1 : 1 ≤ pat.length := List.length_pos.mpr hpat
    have hdl : (s.drop (k + start)).length = s.length - (k + start) := by simp
    omega

theorem findIdx?_some_lt {l : Str} {p : Char → Bool} {i : Nat}
    (h : l.findIdx? p = some i) : i < l.length :=
  (List.findIdx?_eq_some_iff_findIdx_eq.mp h).1

theorem nextIndexFunc_some {s : Str} {start : Nat} {p : Char → Bool} {j : Nat}
    (h : nextIndexFunc s start p = some j) : start ≤ j ∧ j < s.length := by
  unfold nextIndexFunc at h
  cases hf : (s.drop start).findIdx? p with
  | none => rw [hf] at h; cases h
  | some k =>
    rw [hf] at h
    simp only [Option.map_some'] at h
    cases h
    have hk := findIdx?_some_lt hf
    have hdl : (s.drop start).length = s.length - start := by simp
    omega

/-- A successful set-delimiter split yields two nonempty delimiters. -/
theorem splitSetDelimiterTag_ok {s a b : Str}
    (h : splitSetDelimiterTag s = .ok (a, b)) : a ≠ [] ∧ b ≠ [] := by
  unfold splitSetDelimiterTag at h
  cases hf : indexFunc s isSpaceChar with
  | none => rw [hf] at h; cases h
  | some i =>
    rw [hf] at h
    dsimp only at h
    split_ifs at h with hi
    cases hg : nextIndexFunc s i (fun c => !isSpaceChar c) with
    | none => rw [hg] at h; cases h
    | some j =>
      rw [hg] at h
      dsimp only at h
      cases hk : nextIndexFunc s j isSpaceChar with
      | some k => rw [hk] at h; cases h
      | none =>
        rw [hk] at h
        cases h
        have hilen : i < s.length := findIdx?_some_lt hf
        have hj := nextIndexFunc_some hg
        constructor
        · intro hnil
          rcases List.take_eq_nil_iff.mp hnil with h' | h'
          · exact hi h'
          · rw [h'] at hilen
            simp at hilen
        · intro hnil
          have := List.drop_eq_nil_iff_le.mp hnil
          omega

/-- `splitSetDelimiterTag` never reports fuel exhaustion. -/
theorem splitSetDelimiterTag_ne_outOfFuel (s : Str) :
    splitSetDelimiterTag s ≠ .error .outOfFuel := by
  unfold splitSetDelimiterTag
  split
  · simp
  · split_ifs
    · simp
    · split
      · simp
      · split <;> simp

/-- Fuel sufficiency for the `elementEnd` scan: with nonempty delimiters the
scan position strictly advances, so fuel `s.length + 2 - i` suffices. -/
theorem elementEndAux_fuel {s name : Str} :
    ∀ (fuel : Nat) {i level : Nat} {sd ed : Str}, sd ≠ [] → ed ≠ [] →
      i ≤ s.length → s.length + 2 ≤ fuel + i →
      elementEndAux s name fuel i level sd ed ≠ .error .outOfFuel := by
  intro fuel
  induction fuel with
  | zero =>
    intro i level sd ed hsd hed hi hf
    omega
  | succ fuel ih =>
    intro i level sd ed hsd hed hi hf
    rw [elementEndAux]
    split_ifs with hlev
    · intro h
      cases h
    · cases hni : nextIndex s i sd with
      | none =>
        dsimp only
        intro h
        cases h
      | some tagStart =>
        dsimp only
        cases hct : cutTag s tagStart sd ed with
        | error e =>
          dsimp only
          intro h
          cases h
        | ok ct =>
          dsimp only
          obtain ⟨hits, hts, -⟩ := nextIndex_some hsd hni
          obtain ⟨hlo, hhi⟩ := cutTag_tagEnd_bounds hed hct
          have hsd1 : 1 ≤ sd.length := List.length_pos.mpr hsd
          have hed1 : 1 ≤ ed.length := List.length_pos.mpr hed
          split_ifs with hc1 hc2 hc3
          all_goals try exact ih hsd hed hhi (by omega)
          cases hsp : splitSetDelimiterTag ct.key with
          | error e =>
            intro h
            have he : e = ParseErr.outOfFuel := by
              by_contra hne
              exact hne (by injection h)
            rw [he] at hsp
            exact splitSetDelimiterTag_ne_outOfFuel ct.key hsp
          | ok p =>
            obtain ⟨sd', ed'⟩ := p
            dsimp only
            obtain ⟨hsd', hed'⟩ := splitSetDelimiterTag_ok hsp
            exact ih hsd' hed' hhi (by omega)

theorem exceptBind_ok_elim {α β : Type} {x : Except ParseErr α}
    {f : α → Except ParseErr β} {b : β}
    (h : (x >>= f) = .ok b) : ∃ a, x = .ok a ∧ f a = .ok b := by
  cases x with
  | ok a => exact ⟨a, rfl, h⟩
  | error e => exact absurd h (by simp [Bind.bind, Except.bind])

theorem exceptBind_error_elim {α β : Type} {x : Except ParseErr α}
    {f : α → Except ParseErr β} {e : ParseErr}
    (h : (x >>= f) = .error e) : x = .error e ∨ ∃ a, x = .ok a ∧ f a = .error e := by
  cases x with
  | ok a => exact Or.inr ⟨a, rfl, h⟩
  | error e' =>
    left
    have hred : (Except.error e' : Except ParseErr α) >>= f =
        (.error e' : Except ParseErr β) := rfl
    rw [hred] at h
    cases h
    rfl

/-! State-operation preservation facts. -/

theorem pushTag_sd (st : PState) (t : Tag) : (pushTag st t).sd = st.sd := by
  unfold pushTag
  cases st.stack <;> rfl

theorem pushTag_ed (st : PState) (t : Tag) : (pushTag st t).ed = st.ed := by
  unfold pushTag
  cases st.stack <;> rfl

theorem pushTag_stack_ne {st : PState} (t : Tag) (h : st.stack ≠ []) :
    (pushTag st t).stack ≠ [] := by
  unfold pushTag
  cases hs : st.stack with
  | nil => simpa [hs] using h
  | cons f rest => simp

theorem appendLiteral_sd (st : PState) (txt : Str) : (appendLiteral st txt).sd = st.sd := by
  unfold appendLiteral
  split_ifs <;> simp [pushTag_sd]

theorem appendLiteral_ed (st : PState) (txt : Str) : (appendLiteral st txt).ed = st.ed := by
  unfold appendLiteral
  split_ifs <;> simp [pushTag_ed]

theorem appendLiteral_stack_ne {st : PState} (txt : Str) (h : st.stack ≠ []) :
    (appendLiteral st txt).stack ≠ [] := by
  unfold appendLiteral
  split_ifs
  · exact h
  · exact pushTag_stack_ne _ h

theorem newScope_sd (st : PState) (t : Tag) : (newScope st t).sd = st.sd := rfl

theorem newScope_ed (st : PState) (t : Tag) : (newScope st t).ed = st.ed := rfl

theorem newScope_stack_ne (st : PState) (t : Tag) : (newScope st t).stack ≠ [] := by
  simp [newScope]

theorem setTopStandalone_sd (st : PState) (b : Bool) :
    (setTopStandalone st b).sd = st.sd := by
  unfold setTopStandalone
  cases st.stack <;> rfl

theorem setTopStandalone_ed (st : PState) (b : Bool) :
    (setTopStandalone st b).ed = st.ed := by
  unfold setTopStandalone
  cases st.stack <;> rfl

theorem setTopStandalone_stack_ne {st : PState} (b : Bool) (h : st.stack ≠ []) :
    (setTopStandalone st b).stack ≠ [] := by
  unfold setTopStandalone
  cases hs : st.stack with
  | nil => simpa [hs] using h
  | cons f rest => simp

theorem closeScope_sd (st : PState) : (closeScope st).sd = st.sd := by
  unfold closeScope
  cases hs : st.stack with
  | nil => rfl
  | cons f rest => cases rest <;> rfl

theorem closeScope_ed (st : PState) : (closeScope st).ed = st.ed := by
  unfold closeScope
  cases hs : st.stack with
  | nil => rfl
  | cons f rest => cases rest <;> rfl

theorem closeScope_stack_ne {st : PState} (h : st.stack ≠ []) :
    (closeScope st).stack ≠ [] := by
  unfold closeScope
  cases hs : st.stack with
  | nil => simpa [hs] using h
  | cons f rest =>
    cases rest with
    | nil => simpa [hs] using h
    | cons g rest2 => simp

theorem post_of_ops {st st2 : PState}
    (hsd : st2.sd = st.sd) (hed : st2.ed = st.ed)
    (hst : st.stack ≠ [] → st2.stack ≠ []) :
    (st.sd ≠ [] → st.ed ≠ [] → st2.sd ≠ [] ∧ st2.ed ≠ []) ∧
    (st.stack ≠ [] → st2.stack ≠ []) :=
  ⟨fun a b => ⟨hsd ▸ a, hed ▸ b⟩, hst⟩

set_option maxHeartbeats 1600000 in
/-- `applySpecial` preserves nonempty delimiters (new delimiters produced by a
set-delimiter tag are nonempty) and a nonempty scope stack. -/
theorem applySpecial_post {st : PState} {ct : CutTag} {indent : Str}
    {isa ig1 : Bool} {st2 : PState} {ig : Bool}
    (h : applySpecial st ct indent isa ig1 = .ok (st2, ig)) :
    (st.sd ≠ [] → st.ed ≠ [] → st2.sd ≠ [] ∧ st2.ed ≠ []) ∧
    (st.stack ≠ [] → st2.stack ≠ []) := by
  unfold applySpecial at h
  split_ifs at h
  · cases h
    exact post_of_ops (newScope_sd _ _) (newScope_ed _ _) (fun _ => newScope_stack_ne _ _)
  · cases h
    exact post_of_ops (newScope_sd _ _) (newScope_ed _ _) (fun _ => newScope_stack_ne _ _)
  · cases h
    exact post_of_ops rfl rfl id
  · cases h
    exact post_of_ops (pushTag_sd _ _) (pushTag_ed _ _) (fun hne => pushTag_stack_ne _ hne)
  · cases h
    exact post_of_ops (by rw [pushTag_sd, newScope_sd]) (by rw [pushTag_ed, newScope_ed])
      (fun _ => pushTag_stack_ne _ (newScope_stack_ne _ _))
  · cases h
    exact post_of_ops (newScope_sd _ _) (newScope_ed _ _) (fun _ => newScope_stack_ne _ _)
  · cases h
    exact post_of_ops (by rw [setTopStandalone_sd, newScope_sd])
      (by rw [setTopStandalone_ed, newScope_ed])
      (fun _ => setTopStandalone_stack_ne _ (newScope_stack_ne _ _))
  · split at h
    · dsimp only at h
      split_ifs at h
      all_goals try cases h
      all_goals exact post_of_ops (closeScope_sd _) (closeScope_ed _) (fun hne => closeScope_stack_ne hne)
    · cases h
  · cases hsp : splitSetDelimiterTag ct.key with
    | error e => rw [hsp] at h; cases h
    | ok p =>
      obtain ⟨sd1, ed1⟩ := p
      rw [hsp] at h
      cases h
      obtain ⟨hsd1, hed1⟩ := splitSetDelimiterTag_ok hsp
      exact ⟨fun _ _ => ⟨hsd1, hed1⟩, id⟩
  · cases h
    exact post_of_ops (pushTag_sd _ _) (pushTag_ed _ _) (fun hne => pushTag_stack_ne _ hne)
  · cases h
    exact post_of_ops (pushTag_sd _ _) (pushTag_ed _ _) (fun hne => pushTag_stack_ne _ hne)

theorem preState_sd (st : PState) (b c : Bool) (lead : Str) :
    (if b then appendLiteral (if c then pushTag st (tagOf .indentPoint) else st) lead
     else st).sd = st.sd := by
  split_ifs <;> simp [appendLiteral_sd, pushTag_sd]

theorem preState_ed (st : PState) (b c : Bool) (lead : Str) :
    (if b then appendLiteral (if c then pushTag st (tagOf .indentPoint) else st) lead
     else st).ed = st.ed := by
  split_ifs <;> simp [appendLiteral_ed, pushTag_ed]

theorem preState_stack_ne {st : PState} (b c : Bool) (lead : Str) (h : st.stack ≠ []) :
    (if b then appendLiteral (if c then pushTag st (tagOf .indentPoint) else st) lead
     else st).stack ≠ [] := by
  split_ifs
  · exact appendLiteral_stack_ne _ (pushTag_stack_ne _ h)
  · exact appendLiteral_stack_ne _ h
  · exact h

set_option maxHeartbeats 1600000 in
/-- Postconditions of a successful `processTag`: the tag end advances past the
delimiters and stays in bounds, the line end stays in bounds, and the state
keeps nonempty delimiters and a nonempty scope stack. -/
theorem processTag_post {s : Str} {st0 : PState} {eol0 prevEnd tagStart : Nat} {step : TagStep}
    (hsd : st0.sd ≠ []) (hed : st0.ed ≠ [])
    (h : processTag s st0 eol0 prevEnd tagStart = .ok step) :
    tagStart + st0.sd.length + st0.ed.length ≤ step.tagEnd ∧
    step.tagEnd ≤ s.length ∧
    (eol0 ≤ s.length → step.eol ≤ s.length) ∧
    (1 ≤ eol0 → 1 ≤ step.eol) ∧
    step.st.sd ≠ [] ∧ step.st.ed ≠ [] ∧
    (st0.stack ≠ [] → step.st.stack ≠ []) ∧
    (step.prevEnd = step.eol ∨ step.prevEnd = step.tagEnd) := by
  simp only [processTag] at h
  obtain ⟨ct, hct, h⟩ := exceptBind_ok_elim h
  obtain ⟨-, hck, h⟩ := exceptBind_ok_elim h
  obtain ⟨trail, htr, h⟩ := exceptBind_ok_elim h
  obtain ⟨⟨st2, ig⟩, hap, h⟩ := exceptBind_ok_elim h
  dsimp only at h
  obtain ⟨hlo, hhi⟩ := cutTag_tagEnd_bounds hed hct
  have hsd1 : 1 ≤ st0.sd.length := List.length_pos.mpr hsd
  have hed1 : 1 ≤ st0.ed.length := List.length_pos.mpr hed
  have happ := applySpecial_post hap
  rw [preState_sd, preState_ed] at happ
  have hsdeq : ({ st0 with lineno := st0.lineno +
      (substr s tagStart ct.tagEnd).count '\n' } : PState).sd = st0.sd := rfl
  have hedeq : ({ st0 with lineno := st0.lineno +
      (substr s tagStart ct.tagEnd).count '\n' } : PState).ed = st0.ed := rfl
  split_ifs at h with hig <;> cases h <;>
    refine ⟨by dsimp only; omega, by dsimp only; exact hhi, ?_, ?_,
      (happ.1 (by rw [hsdeq]; exact hsd) (by rw [hedeq]; exact hed)).1,
      (happ.1 (by rw [hsdeq]; exact hsd) (by rw [hedeq]; exact hed)).2,
      fun hne => happ.2 (preState_stack_ne _ _ _ hne),
      by first | exact Or.inl rfl | exact Or.inr rfl⟩
  all_goals
    dsimp only
    intro hh
    have h1 := indexNextLine_le (s.drop ct.tagEnd)
    have h2 : (s.drop ct.tagEnd).length = s.length - ct.tagEnd := by simp
    first
    | (split_ifs <;> omega)
    | omega

theorem scanTagEnd_err {ed : Str} {ic : Bool} :
    ∀ {rest : Str} {i : Nat} {e : ParseErr}, scanTagEnd ed ic rest i = .error e →
      e = .unclosedTag ∨ e = .unclosedComment := by
  intro rest
  induction rest with
  | nil =>
    intro i e h
    rw [scanTagEnd] at h
    split_ifs at h <;> try cases h
    all_goals first | exact Or.inl rfl | exact Or.inr rfl
  | cons c t ih =>
    intro i e h
    rw [scanTagEnd] at h
    split_ifs at h <;> try cases h
    all_goals first | exact Or.inl rfl | exact Or.inr rfl | exact ih h

theorem cutTag_ne_outOfFuel (s : Str) (ts : Nat) (sd ed : Str) :
    cutTag s ts sd ed ≠ .error .outOfFuel := by
  intro h
  simp only [cutTag] at h
  cases hscan : scanTagEnd ed (['!'].isPrefixOf (s.drop (ts + sd.length)))
      (s.drop (ts + sd.length)) (ts + sd.length) with
  | error e =>
    rw [hscan] at h
    dsimp only at h
    cases h
    rcases scanTagEnd_err hscan with h' | h' <;> cases h'
  | ok j =>
    rw [hscan] at h
    dsimp only at h
    split_ifs at h <;> cases h

theorem checkKey_ne_outOfFuel (ct : CutTag) : checkKey ct ≠ .error .outOfFuel := by
  intro h
  unfold checkKey at h
  split_ifs at h <;> try cases h
  split at h <;> cases h

theorem computeTrailing_ne_outOfFuel {s : Str} {sd ed : Str} {ct : CutTag}
    {eol : Nat} {pair : Bool} (hsd : sd ≠ []) (hed : ed ≠ [])
    (hte : ct.tagEnd ≤ s.length) :
    computeTrailing s sd ed ct eol pair ≠ .error .outOfFuel := by
  intro h
  unfold computeTrailing at h
  by_cases hpair : pair = true
  · rw [if_pos hpair] at h
    cases hee : elementEnd ct.key s ct.tagEnd sd ed with
    | error e =>
      rw [hee] at h
      cases h
      exact elementEndAux_fuel (s.length + 2) hsd hed hte (by omega) hee
    | ok i =>
      rw [hee] at h
      cases h
  · rw [if_neg hpair] at h
    cases h

set_option maxHeartbeats 1600000 in
theorem applySpecial_ne_outOfFuel (st : PState) (ct : CutTag) (indent : Str)
    (isa ig1 : Bool) : applySpecial st ct indent isa ig1 ≠ .error .outOfFuel := by
  intro h
  unfold applySpecial at h
  split_ifs at h <;> try cases h
  · split at h
    · dsimp only at h
      split_ifs at h <;> cases h
    · cases h
  · cases hsp : splitSetDelimiterTag ct.key with
    | error e =>
      rw [hsp] at h
      cases h
      exact splitSetDelimiterTag_ne_outOfFuel ct.key hsp
    | ok p =>
      obtain ⟨sd1, ed1⟩ := p
      rw [hsp] at h
      cases h

set_option maxHeartbeats 800000 in
/-- `processTag` never reports fuel exhaustion when the delimiters are
nonempty: the forward scan for a matching close tag is given sufficient fuel. -/
theorem processTag_ne_outOfFuel {s : Str} {st0 : PState} {eol0 prevEnd tagStart : Nat}
    (hsd : st0.sd ≠ []) (hed : st0.ed ≠ []) :
    processTag s st0 eol0 prevEnd tagStart ≠ .error .outOfFuel := by
  intro h
  simp only [processTag] at h
  rcases exceptBind_error_elim h with h' | ⟨ct, hct, h⟩
  · exact cutTag_ne_outOfFuel _ _ _ _ h'
  rcases exceptBind_error_elim h with h' | ⟨-, hck, h⟩
  · exact checkKey_ne_outOfFuel _ h'
  rcases exceptBind_error_elim h with h' | ⟨trail, htr, h⟩
  · obtain ⟨-, hhi⟩ := cutTag_tagEnd_bounds hed hct
    exact computeTrailing_ne_outOfFuel hsd hed hhi h'
  rcases exceptBind_error_elim h with h' | ⟨⟨st2, ig⟩, hap, h⟩
  · exact applySpecial_ne_outOfFuel _ _ _ _ _ h'
  dsimp only at h
  split_ifs at h <;> cases h

theorem dedentFrames_length_le : ∀ (fr : List Frame) (s : Str),
    (dedentFrames fr s).length ≤ s.length := by
  intro fr
  induction fr with
  | nil => intro s; simp [dedentFrames]
  | cons f rest ih =>
    intro s
    rw [dedentFrames]
    split_ifs with h1 h2
    · calc (dedentFrames rest (s.drop f.start.indent.length)).length
          ≤ (s.drop f.start.indent.length).length := ih _
        _ ≤ s.length := by simp
    · exact le_rfl
    · exact ih s

set_option maxHeartbeats 800000 in
/-- Postconditions of a successful per-line tag loop run: delimiters stay
nonempty, the stack stays nonempty, and the returned line end stays in
bounds and positive. -/
theorem parseTagsLoop_post {s : Str} : ∀ {fuel : Nat} {st : PState}
    {eol prevEnd tagStart : Nat} {res : PState × Nat × Nat},
    st.sd ≠ [] → st.ed ≠ [] → eol ≤ s.length → 1 ≤ eol →
    parseTagsLoop s fuel st eol prevEnd tagStart = .ok res →
    res.1.sd ≠ [] ∧ res.1.ed ≠ [] ∧ (st.stack ≠ [] → res.1.stack ≠ []) ∧
    res.2.1 ≤ s.length ∧ 1 ≤ res.2.1 := by
  intro fuel
  induction fuel with
  | zero =>
    intro st eol prevEnd tagStart res hsd hed heol heol1 h
    cases h
  | succ fuel ih =>
    intro st eol prevEnd tagStart res hsd hed heol heol1 h
    rw [parseTagsLoop] at h
    obtain ⟨step, hpt, h⟩ := exceptBind_ok_elim h
    obtain ⟨hlo, hhi, hc, hd, hsd', hed', hstk', -⟩ := processTag_post hsd hed hpt
    split_ifs at h with hig
    · cases h
      exact ⟨hsd', hed', hstk', hc heol, hd heol1⟩
    · cases hni : nextIndex (s.take step.eol) step.tagEnd step.st.sd with
      | none =>
        rw [hni] at h
        cases h
        exact ⟨hsd', hed', hstk', hc heol, hd heol1⟩
      | some ts2 =>
        rw [hni] at h
        have := ih hsd' hed' (hc heol) (hd heol1) h
        exact ⟨this.1, this.2.1, fun hne => this.2.2.1 (hstk' hne), this.2.2.2⟩

set_option maxHeartbeats 800000 in
/-- Fuel sufficiency for the per-line tag loop: the tag start strictly
advances, so fuel `s.length + 2 - tagStart` suffices. -/
theorem parseTagsLoop_ne_outOfFuel {s : Str} : ∀ (fuel : Nat) {st : PState}
    {eol prevEnd tagStart : Nat},
    st.sd ≠ [] → st.ed ≠ [] → eol ≤ s.length → 1 ≤ eol → tagStart ≤ s.length →
    s.length + 2 ≤ fuel + tagStart →
    parseTagsLoop s fuel st eol prevEnd tagStart ≠ .error .outOfFuel := by
  intro fuel
  induction fuel with
  | zero =>
    intro st eol prevEnd tagStart hsd hed heol heol1 hts hf
    omega
  | succ fuel ih =>
    intro st eol prevEnd tagStart hsd hed heol heol1 hts hf
    rw [parseTagsLoop]
    intro h
    rcases exceptBind_error_elim h with h' | ⟨step, hpt, h'⟩
    · exact processTag_ne_outOfFuel hsd hed h'
    obtain ⟨hlo, hhi, hc, hd, hsd', hed', hstk', -⟩ := processTag_post hsd hed hpt
    have hsd1 : 1 ≤ st.sd.length := List.length_pos.mpr hsd
    have hed1 : 1 ≤ st.ed.length := List.length_pos.mpr hed
    split_ifs at h' with hig
    · cases h'
    · cases hni : nextIndex (s.take step.eol) step.tagEnd step.st.sd with
      | none =>
        rw [hni] at h'
        cases h'
      | some ts2 =>
        rw [hni] at h'
        obtain ⟨hge, hlen2, -⟩ := nextIndex_some hsd' hni
        have htake : (s.take step.eol).length ≤ s.length := by simp
        have hsd1' : 1 ≤ step.st.sd.length := List.length_pos.mpr hsd'
        exact ih hsd' hed' (hc heol) (hd heol1) (by omega) (by omega) h'

theorem pushTag_stack_eq {st : PState} {f : Frame} {rest : List Frame}
    (h : st.stack = f :: rest) (t : Tag) :
    (pushTag st t).stack = { f with children := f.children ++ [t] } :: rest := by
  unfold pushTag
  rw [h]

theorem strIndex_nil_of_ne {pat : Str} (hp : pat ≠ []) : strIndex [] pat = none := by
  rw [strIndex.eq_def]
  split_ifs with h
  · exfalso
    apply hp
    have := List.isPrefixOf_iff_prefix.mp h
    simpa using List.prefix_nil.mp this
  · rfl

/-- Postconditions of a successful `parseLine`. -/
theorem parseLine_post {st : PState} {s : Str} {res : PState × Nat}
    (hsd : st.sd ≠ []) (hed : st.ed ≠ []) (hstk : st.stack ≠ [])
    (h : parseLine st s = .ok res) :
    res.1.sd ≠ [] ∧ res.1.ed ≠ [] ∧ res.1.stack ≠ [] ∧ res.2 ≤ s.length ∧
    (s ≠ [] → 1 ≤ res.2) := by
  simp only [parseLine] at h
  cases hfind : strIndex (s.take (indexNextLine s)) st.sd with
  | none =>
    rw [hfind] at h
    cases h
    refine ⟨by simpa [appendLiteral_sd, pushTag_sd] using hsd,
      by simpa [appendLiteral_ed, pushTag_ed] using hed,
      appendLiteral_stack_ne _ (pushTag_stack_ne _ hstk),
      indexNextLine_le s, fun hne => indexNextLine_pos hne⟩
  | some tagStart =>
    rw [hfind] at h
    dsimp only at h
    obtain ⟨⟨st2, eol2, prevEnd2⟩, hloop, h⟩ := exceptBind_ok_elim h
    cases h
    have hs0 : s ≠ [] := by
      intro hnil
      subst hnil
      rw [List.take_nil] at hfind
      rw [strIndex_nil_of_ne hsd] at hfind
      cases hfind
    obtain ⟨hsd', hed', hstk', heol2, heol21⟩ :=
      parseTagsLoop_post hsd hed (indexNextLine_le s) (indexNextLine_pos hs0) hloop
    exact ⟨by simpa [appendLiteral_sd] using hsd',
      by simpa [appendLiteral_ed] using hed',
      appendLiteral_stack_ne _ (hstk' hstk), heol2, fun _ => heol21⟩

/-- `parseLine` never reports fuel exhaustion. -/
theorem parseLine_ne_outOfFuel {st : PState} {s : Str}
    (hsd : st.sd ≠ []) (hed : st.ed ≠ []) :
    parseLine st s ≠ .error .outOfFuel := by
  simp only [parseLine]
  cases hfind : strIndex (s.take (indexNextLine s)) st.sd with
  | none =>
    intro h
    cases h
  | some tagStart =>
    dsimp only
    intro h
    have hs0 : s ≠ [] := by
      intro hnil
      subst hnil
      rw [List.take_nil] at hfind
      rw [strIndex_nil_of_ne hsd] at hfind
      cases hfind
    rcases exceptBind_error_elim h with h' | ⟨⟨st2, eol2, prevEnd2⟩, hloop, h'⟩
    · obtain ⟨hts, hpre⟩ := strIndex_some hfind
      have htake : (s.take (indexNextLine s)).length ≤ s.length := by simp
      exact parseTagsLoop_ne_outOfFuel (s.length + 2) hsd hed (indexNextLine_le s)
        (indexNextLine_pos hs0) (by omega) (by omega) h'
    · cases h'

/-- Fuel sufficiency for the outer per-line loop: each iteration consumes at
least one character of the remaining input, so fuel `s.length + 1` suffices. -/
theorem parseLines_ne_outOfFuel : ∀ (fuel : Nat) {st : PState} {s : Str},
    st.sd ≠ [] → st.ed ≠ [] → st.stack ≠ [] → s.length + 1 ≤ fuel →
    parseLines fuel st s ≠ .error .outOfFuel := by
  intro fuel
  induction fuel with
  | zero =>
    intro st s hsd hed hstk hf
    omega
  | succ fuel ih =>
    intro st s hsd hed hstk hf
    rw [parseLines]
    split_ifs with hs
    · cases hstack : st.stack with
      | nil => exact absurd hstack hstk
      | cons base rest =>
        cases rest with
        | nil =>
          intro h
          cases h
        | cons g rest2 =>
          intro h
          cases h
    · intro h
      rcases exceptBind_error_elim h with h' | ⟨⟨st2, consumed⟩, hline, h'⟩
      · exact parseLine_ne_outOfFuel hsd hed h'
      · obtain ⟨hsd', hed', hstk', hcons, hcons1⟩ := parseLine_post hsd hed hstk hline
        dsimp only at h'
        have hdlen := dedentFrames_length_le st.stack.reverse s
        have hslen : 1 ≤ s.length := by
          cases s with
          | nil => exact absurd rfl hs
          | cons c t => simp
        by_cases hded : dedent st s = []
        · rw [hded, List.drop_nil] at h'
          refine ih ?_ ?_ ?_ ?_ h'
          · exact hsd'
          · exact hed'
          · exact hstk'
          · simp only [List.length_nil]
            omega
        · have h1 : 1 ≤ consumed := hcons1 hded
          have h2 : ((dedent st s).drop consumed).length =
              (dedent st s).length - consumed := by simp
          have h3 : (dedent st s).length ≤ s.length := hdlen
          refine ih ?_ ?_ ?_ ?_ h'
          · exact hsd'
          · exact hed'
          · exact hstk'
          · omega

/-- **C9.** `parse` terminates on every finite input string, returning either
a tree or an error: the per-line loop strictly consumes input on each
iteration and the forward scan for a matching close tag (`elementEnd`)
strictly advances or errors, so the canonical fuel derived from the input
length (with which `parse` invokes the fueled loops) is never exhausted. -/
theorem c9_parse_terminates (s : Str) : parse s ≠ .error .outOfFuel := by
  apply parseLines_ne_outOfFuel (s.length + 1)
  · intro h
    cases h
  · intro h
    cases h
  · intro h
    cases h
  · exact le_rfl

/-! ## C10: tag-free passthrough -/

/-- The tree `parse` builds for tag-free input: one `indentPoint` marker and
one literal per line. -/
def noTagLines (s : Str) : List Tag :=
  if h : s = [] then []
  else
    ⟨.indentPoint, [], [], []⟩ :: ⟨.literal, s.take (indexNextLine s), [], []⟩ ::
      noTagLines (s.drop (indexNextLine s))
termination_by s.length
decreasing_by
  have h1 : 1 ≤ indexNextLine s := indexNextLine_pos h
  have h2 : (s.drop (indexNextLine s)).length = s.length - indexNextLine s := by simp
  have h3 : 1 ≤ s.length := by
    cases s with
    | nil => exact absurd rfl h
    | cons c t => simp
  omega

/-- The concatenated text of the literal tags of a flat tag list. -/
def flatLiteralText (ts : List Tag) : Str :=
  (ts.map (fun t => if t.tt = .literal then t.s else [])).flatten

theorem strIndex_none {s pat : Str} (h : strIndex s pat = none) :
    ∀ k, pat.isPrefixOf (s.drop k) = false := by
  induction s with
  | nil =>
    intro k
    rw [strIndex.eq_def] at h
    dsimp only at h
    split_ifs at h with h1
    rw [List.drop_nil]
    simp only [Bool.not_eq_true] at h1
    exact h1
  | cons c t ih =>
    intro k
    rw [strIndex.eq_def] at h
    dsimp only at h
    split_ifs at h with h1
    cases k with
    | zero =>
      rw [List.drop_zero]
      simp only [Bool.not_eq_true] at h1
      exact h1
    | succ k =>
      rw [List.drop_succ_cons]
      refine ih ?_ k
      cases hrec : strIndex t pat with
      | none => rfl
      | some j =>
        rw [hrec] at h
        cases h

theorem strIndex_take_none {s pat : Str} (n : Nat)
    (h : ∀ k, pat.isPrefixOf (s.drop k) = false) :
    strIndex (s.take n) pat = none := by
  cases hfind : strIndex (s.take n) pat with
  | none => rfl
  | some k =>
    exfalso
    obtain ⟨-, hpre⟩ := strIndex_some hfind
    have hsub : ((s.take n).drop k) <+: s.drop k := by
      rw [List.drop_take]
      exact List.take_prefix _ _
    have : pat <+: s.drop k :=
      List.IsPrefix.trans (List.isPrefixOf_iff_prefix.mp hpre) hsub
    rw [← List.isPrefixOf_iff_prefix] at this
    rw [h k] at this
    cases this

theorem dedent_single_frame {st : PState} {f : Frame} (hstk : st.stack = [f])
    (hb : f.start.tt ≠ .blockTag) (s : Str) : dedent st s = s := by
  unfold dedent
  rw [hstk]
  simp only [List.reverse_cons, List.reverse_nil, List.nil_append]
  rw [dedentFrames]
  rw [if_neg hb]
  rfl

set_option maxHeartbeats 800000 in
/-- On input containing no occurrence of the open delimiter, `parse`'s
per-line loop appends one `indentPoint` and one literal per line. -/
theorem parseLines_noTags : ∀ (fuel : Nat) (st : PState) (s : Str) (f : Frame),
    s.length + 1 ≤ fuel →
    st.stack = [f] → f.start.tt ≠ .blockTag → st.sd ≠ [] →
    (∀ k, st.sd.isPrefixOf (s.drop k) = false) →
    parseLines fuel st s = .ok (f.children ++ noTagLines s) := by
  intro fuel
  induction fuel with
  | zero =>
    intro st s f hf hstk hb hsd hocc
    omega
  | succ fuel ih =>
    intro st s f hf hstk hb hsd hocc
    rw [parseLines]
    split_ifs with hs
    · subst hs
      rw [hstk]
      rw [noTagLines]
      simp
    · have hded : dedent st s = s := dedent_single_frame hstk hb s
      have hfind : strIndex (s.take (indexNextLine s)) st.sd = none :=
        strIndex_take_none _ hocc
      have hline : parseLine st s =
          .ok (appendLiteral (pushTag st (tagOf .indentPoint))
            (substr s 0 (indexNextLine s)), indexNextLine s) := by
        simp only [parseLine, hfind]
      show (parseLine st (dedent st s)) >>= _ = _
      rw [hded, hline, bindE_ok]
      have hps : (pushTag st (tagOf .indentPoint)).stack =
          [{ f with children := f.children ++ [tagOf .indentPoint] }] :=
        pushTag_stack_eq hstk _
      have hlinene : s.take (indexNextLine s) ≠ [] := by
        intro hnil
        rcases List.take_eq_nil_iff.mp hnil with h' | h'
        · have := indexNextLine_pos hs
          omega
        · exact hs h'
      have hsubstr : substr s 0 (indexNextLine s) = s.take (indexNextLine s) := rfl
      have hal : (appendLiteral (pushTag st (tagOf .indentPoint))
          (substr s 0 (indexNextLine s))).stack =
          [{ f with children := (f.children ++ [tagOf .indentPoint]) ++
              [tagOf .literal (s.take (indexNextLine s))] }] := by
        rw [hsubstr]
        unfold appendLiteral
        rw [if_neg hlinene]
        exact pushTag_stack_eq hps _
      have hnewsd : (appendLiteral (pushTag st (tagOf .indentPoint))
          (substr s 0 (indexNextLine s))).sd = st.sd := by
        rw [appendLiteral_sd, pushTag_sd]
      have hrec := ih { appendLiteral (pushTag st (tagOf .indentPoint))
            (substr s 0 (indexNextLine s)) with
          lineno := (appendLiteral (pushTag st (tagOf .indentPoint))
            (substr s 0 (indexNextLine s))).lineno + 1 }
        (s.drop (indexNextLine s))
        { f with children := (f.children ++ [tagOf .indentPoint]) ++
            [tagOf .literal (s.take (indexNextLine s))] }
        (by
          have h1 : 1 ≤ indexNextLine s := indexNextLine_pos hs
          have h2 : (s.drop (indexNextLine s)).length =
              s.length - indexNextLine s := by simp
          have h3 := indexNextLine_le s
          have h4 : 1 ≤ s.length := by
            cases s with
            | nil => exact absurd rfl hs
            | cons c t => simp
          omega)
        (by simpa using hal)
        (by simpa using hb)
        (by simpa using hnewsd ▸ hsd)
        (by
          intro k
          rw [List.drop_drop]
          have := hocc (indexNextLine s + k)
          simpa [hnewsd] using this)
      dsimp only
      rw [hrec]
      congr 1
      dsimp only
      conv_rhs => rw [noTagLines]
      simp only [dif_neg hs]
      simp [List.append_assoc, tagOf]

theorem noTagLines_kinds : ∀ (n : Nat) (s : Str), s.length ≤ n →
    ∀ t ∈ noTagLines s, t.tt = .literal ∨ t.tt = .indentPoint := by
  intro n
  induction n with
  | zero =>
    intro s hlen t ht
    have hs : s = [] := List.eq_nil_of_length_eq_zero (by omega)
    subst hs
    rw [noTagLines] at ht
    simp at ht
  | succ n ih =>
    intro s hlen t ht
    by_cases hs : s = []
    · subst hs
      rw [noTagLines] at ht
      simp at ht
    · rw [noTagLines, dif_neg hs] at ht
      rcases List.mem_cons.mp ht with rfl | ht
      · exact Or.inr rfl
      rcases List.mem_cons.mp ht with rfl | ht
      · exact Or.inl rfl
      · have h1 : 1 ≤ indexNextLine s := indexNextLine_pos hs
        have h2 : (s.drop (indexNextLine s)).length = s.length - indexNextLine s := by simp
        have h4 : 1 ≤ s.length := by
          cases s with
          | nil => exact absurd rfl hs
          | cons c t2 => simp
        exact ih (s.drop (indexNextLine s)) (by omega) t ht

theorem noTagLines_text : ∀ (n : Nat) (s : Str), s.length ≤ n →
    flatLiteralText (noTagLines s) = s := by
  intro n
  induction n with
  | zero =>
    intro s hlen
    have hs : s = [] := List.eq_nil_of_length_eq_zero (by omega)
    subst hs
    rw [noTagLines]
    simp [flatLiteralText]
  | succ n ih =>
    intro s hlen
    by_cases hs : s = []
    · subst hs
      rw [noTagLines]
      simp [flatLiteralText]
    · rw [noTagLines, dif_neg hs]
      have h1 : 1 ≤ indexNextLine s := indexNextLine_pos hs
      have h2 : (s.drop (indexNextLine s)).length = s.length - indexNextLine s := by simp
      have h4 : 1 ≤ s.length := by
        cases s with
        | nil => exact absurd rfl hs
        | cons c t2 => simp
      have hrec := ih (s.drop (indexNextLine s)) (by omega)
      simp only [flatLiteralText, List.map_cons, List.flatten_cons] at hrec ⊢
      simp only [hrec]
      simp [List.take_append_drop]

/-- **C10.** On a source string containing no occurrence of the open
delimiter `{{`, `parse` succeeds, the resulting tree consists only of
`literal` and `indentPoint` tags (one `indentPoint` opening each line, as
recorded by `noTagLines`), and the concatenation of the literal texts is the
source string itself. -/
theorem c10_tagfree_passthrough (s : Str) (h : strIndex s ['{', '{'] = none) :
    parse s = .ok (noTagLines s) ∧
    (∀ t ∈ noTagLines s, t.tt = .literal ∨ t.tt = .indentPoint) ∧
    flatLiteralText (noTagLines s) = s := by
  refine ⟨?_, fun t ht => noTagLines_kinds s.length s le_rfl t ht,
    noTagLines_text s.length s le_rfl⟩
  have hmain := parseLines_noTags (s.length + 1) initState s
    ⟨tagOf .literal, 0, false, []⟩ le_rfl rfl (by decide) (by decide)
    (fun k => strIndex_none h k)
  show parseLines (s.length + 1) initState s = _
  rw [hmain]
  simp

/-- Witness for C10 at the concrete two-line template `"ab\ncd"`. -/
theorem c10_tagfree_passthrough_witness :
    parse (ofString "ab\ncd") = .ok (noTagLines (ofString "ab\ncd")) ∧
    (∀ t ∈ noTagLines (ofString "ab\ncd"), t.tt = .literal ∨ t.tt = .indentPoint) ∧
    flatLiteralText (noTagLines (ofString "ab\ncd")) = ofString "ab\ncd" :=
  c10_tagfree_passthrough (ofString "ab\ncd") (by decide)

/-- All literal texts stored in a tag (including nested bodies). -/
def tagLiterals : Tag → List Str
  | ⟨tt, s, _, body⟩ => (if tt = .literal then [s] else []) ++ listLiterals body
where
  /-- All literal texts in a list of tags. -/
  listLiterals : List Tag → List Str
  | [] => []
  | t :: ts => tagLiterals t ++ listLiterals ts

/-- All literal texts stored anywhere in the parser state. -/
def stateLiterals (st : PState) : List Str :=
  (st.stack.map (fun f => tagLiterals.listLiterals f.children)).flatten

theorem listLiterals_append (l1 l2 : List Tag) :
    tagLiterals.listLiterals (l1 ++ l2) =
      tagLiterals.listLiterals l1 ++ tagLiterals.listLiterals l2 := by
  induction l1 with
  | nil => simp [tagLiterals.listLiterals]
  | cons t ts ih => simp [tagLiterals.listLiterals, ih]

theorem stateLiterals_newScope (st : PState) (t : Tag) :
    stateLiterals (newScope st t) = stateLiterals st := by
  simp [stateLiterals, newScope, tagLiterals.listLiterals]

theorem stateLiterals_setTopStandalone (st : PState) (b : Bool) :
    stateLiterals (setTopStandalone st b) = stateLiterals st := by
  unfold setTopStandalone
  cases hs : st.stack with
  | nil => rfl
  | cons f rest => simp [stateLiterals, hs]

theorem stateLiterals_pushTag (st : PState) (t : Tag) :
    stateLiterals (pushTag st t) =
      match st.stack with
      | [] => stateLiterals st
      | f :: rest => (tagLiterals.listLiterals f.children ++ tagLiterals t) ++
          (rest.map (fun g => tagLiterals.listLiterals g.children)).flatten := by
  unfold pushTag
  cases hs : st.stack with
  | nil => rfl
  | cons f rest =>
    simp [stateLiterals, hs, listLiterals_append, tagLiterals.listLiterals]

/-- Pushing a non-literal leaf tag adds no literal text. -/
theorem stateLiterals_pushTag_nonlit (st : PState) (t : Tag)
    (ht : tagLiterals t = []) :
    stateLiterals (pushTag st t) = stateLiterals st := by
  rw [stateLiterals_pushTag]
  cases hs : st.stack with
  | nil => rfl
  | cons f rest => simp [stateLiterals, hs, ht]

theorem tagLiterals_leaf_nonlit (tt : TagType) (s ind : Str) (h : tt ≠ .literal) :
    tagLiterals (tagOf tt s ind) = [] := by
  simp [tagLiterals, tagOf, tagLiterals.listLiterals, h]

theorem substr_self_nil (s : Str) (a : Nat) : substr s a a = [] := by
  rw [substr_eq_drop_take]
  simp

theorem parseLine_standalone_section {st : PState} {s key : Str} {tagStart te : Nat}
    (hfind : strIndex (s.take (indexNextLine s)) st.sd = some tagStart)
    (hcut : cutTag s tagStart st.sd st.ed = .ok ⟨some '#', key, te⟩)
    (hnl : (substr s tagStart te).count '\n' = 0)
    (hck : checkKey ⟨some '#', key, te⟩ = .ok ())
    (hlead : isSpace (substr s 0 tagStart) = true)
    (htrail : isSpace (substr s te (indexNextLine s)) = true) :
    parseLine st s = .ok (newScope st (tagOf .sectionTag key), indexNextLine s) := by
  have hpt : processTag s st (indexNextLine s) 0 tagStart =
      .ok ⟨newScope st (tagOf .sectionTag key), indexNextLine s, te, indexNextLine s, true⟩ := by
    simp only [processTag, hcut, bindE_ok, hnl, hck]
    simp only [computeTrailing, applySpecial]
    simp [hlead, htrail, bindE_ok]
    rfl
  have hfuel : s.length + 2 = (s.length + 1) + 1 := rfl
  simp only [parseLine, hfind, hfuel, parseTagsLoop, hpt, bindE_ok]
  simp [substr_self_nil, appendLiteral]

theorem stateLiterals_pushTag_mono {st : PState} {x : Str} (t : Tag)
    (h : x ∈ stateLiterals st) : x ∈ stateLiterals (pushTag st t) := by
  rw [stateLiterals_pushTag]
  cases hs : st.stack with
  | nil => exact h
  | cons f rest =>
    rw [stateLiterals, hs] at h
    simp only [List.map_cons, List.flatten_cons, List.mem_append] at h
    rcases h with h | h
    · exact List.mem_append.mpr (Or.inl (List.mem_append.mpr (Or.inl h)))
    · exact List.mem_append.mpr (Or.inr h)

theorem stateLiterals_appendLiteral_mono {st : PState} {x : Str} (txt : Str)
    (h : x ∈ stateLiterals st) : x ∈ stateLiterals (appendLiteral st txt) := by
  unfold appendLiteral
  split
  · exact h
  · exact stateLiterals_pushTag_mono _ h

theorem stateLiterals_appendLiteral_mem (st : PState) (txt : Str)
    (hne : txt ≠ []) (hs : st.stack ≠ []) :
    txt ∈ stateLiterals (appendLiteral st txt) := by
  unfold appendLiteral
  rw [if_neg hne, stateLiterals_pushTag]
  cases hst : st.stack with
  | nil => exact absurd hst hs
  | cons f rest => simp [tagLiterals, tagOf, tagLiterals.listLiterals]

theorem parseLine_standalone_inverted {st : PState} {s key : Str} {tagStart te : Nat}
    (hfind : strIndex (s.take (indexNextLine s)) st.sd = some tagStart)
    (hcut : cutTag s tagStart st.sd st.ed = .ok ⟨some '^', key, te⟩)
    (hnl : (substr s tagStart te).count '\n' = 0)
    (hck : checkKey ⟨some '^', key, te⟩ = .ok ())
    (hlead : isSpace (substr s 0 tagStart) = true)
    (htrail : isSpace (substr s te (indexNextLine s)) = true) :
    parseLine st s = .ok (newScope st (tagOf .invertedSection key), indexNextLine s) := by
  have hpt : processTag s st (indexNextLine s) 0 tagStart =
      .ok ⟨newScope st (tagOf .invertedSection key), indexNextLine s, te, indexNextLine s, true⟩ := by
    simp only [processTag, hcut, bindE_ok, hnl, hck]
    simp only [computeTrailing, applySpecial]
    simp [hlead, htrail, bindE_ok]
    rfl
  have hfuel : s.length + 2 = (s.length + 1) + 1 := rfl
  simp only [parseLine, hfind, hfuel, parseTagsLoop, hpt, bindE_ok]
  simp [substr_self_nil, appendLiteral]

theorem parseLine_standalone_comment {st : PState} {s key : Str} {tagStart te : Nat}
    (hfind : strIndex (s.take (indexNextLine s)) st.sd = some tagStart)
    (hcut : cutTag s tagStart st.sd st.ed = .ok ⟨some '!', key, te⟩)
    (hnl : (substr s tagStart te).count '\n' = 0)
    (hlead : isSpace (substr s 0 tagStart) = true)
    (htrail : isSpace (substr s te (indexNextLine s)) = true) :
    parseLine st s = .ok (st, indexNextLine s) := by
  have hck : checkKey ⟨some '!', key, te⟩ = .ok () := by simp [checkKey]
  have hpt : processTag s st (indexNextLine s) 0 tagStart =
      .ok ⟨st, indexNextLine s, te, indexNextLine s, true⟩ := by
    simp only [processTag, hcut, bindE_ok, hnl, hck]
    simp only [computeTrailing, applySpecial]
    simp [hlead, htrail, bindE_ok]
    rfl
  have hfuel : s.length + 2 = (s.length + 1) + 1 := rfl
  simp only [parseLine, hfind, hfuel, parseTagsLoop, hpt, bindE_ok]
  simp [substr_self_nil, appendLiteral]

theorem parseLine_standalone_partial {st : PState} {s key : Str} {tagStart te : Nat}
    (hfind : strIndex (s.take (indexNextLine s)) st.sd = some tagStart)
    (hcut : cutTag s tagStart st.sd st.ed = .ok ⟨some '>', key, te⟩)
    (hnl : (substr s tagStart te).count '\n' = 0)
    (hck : checkKey ⟨some '>', key, te⟩ = .ok ())
    (hlead : isSpace (substr s 0 tagStart) = true)
    (htrail : isSpace (substr s te (indexNextLine s)) = true) :
    parseLine st s =
      .ok (pushTag st (tagOf .partialTag key (substr s 0 tagStart)), indexNextLine s) := by
  have hpt : processTag s st (indexNextLine s) 0 tagStart =
      .ok ⟨pushTag st (tagOf .partialTag key (substr s 0 tagStart)),
        indexNextLine s, te, indexNextLine s, true⟩ := by
    simp only [processTag, hcut, bindE_ok, hnl, hck]
    simp only [computeTrailing, applySpecial]
    simp [hlead, htrail, bindE_ok]
    rfl
  have hfuel : s.length + 2 = (s.length + 1) + 1 := rfl
  simp only [parseLine, hfind, hfuel, parseTagsLoop, hpt, bindE_ok]
  simp [substr_self_nil, appendLiteral]

theorem parseLine_standalone_delims {st : PState} {s key sd2 ed2 : Str} {tagStart te : Nat}
    (hfind : strIndex (s.take (indexNextLine s)) st.sd = some tagStart)
    (hcut : cutTag s tagStart st.sd st.ed = .ok ⟨some '=', key, te⟩)
    (hnl : (substr s tagStart te).count '\n' = 0)
    (hsp : splitSetDelimiterTag key = .ok (sd2, ed2))
    (hlead : isSpace (substr s 0 tagStart) = true)
    (htrail : isSpace (substr s te (indexNextLine s)) = true) :
    parseLine st s = .ok ({ st with sd := sd2, ed := ed2 }, indexNextLine s) := by
  have hck : checkKey ⟨some '=', key, te⟩ = .ok () := by simp [checkKey]
  have hpt : processTag s st (indexNextLine s) 0 tagStart =
      .ok ⟨{ st with sd := sd2, ed := ed2 }, indexNextLine s, te, indexNextLine s, true⟩ := by
    simp only [processTag, hcut, bindE_ok, hnl, hck]
    simp only [computeTrailing, applySpecial]
    simp [hlead, htrail, hsp, bindE_ok]
    rfl
  have hfuel : s.length + 2 = (s.length + 1) + 1 := rfl
  simp only [parseLine, hfind, hfuel, parseTagsLoop, hpt, bindE_ok]
  simp [substr_self_nil, appendLiteral]

theorem parseLine_argument_block {st : PState} {s key : Str} {tagStart te : Nat}
    (hfind : strIndex (s.take (indexNextLine s)) st.sd = some tagStart)
    (hcut : cutTag s tagStart st.sd st.ed = .ok ⟨some '$', key, te⟩)
    (hnl : (substr s tagStart te).count '\n' = 0)
    (hck : checkKey ⟨some '$', key, te⟩ = .ok ())
    (htop : ((st.stack.headD {}).start.tt == TagType.parentTag) = true)
    (hlead : isSpace (substr s 0 tagStart) = true)
    (htrail : isSpace (substr s te (indexNextLine s)) = true) :
    parseLine st s =
      .ok (newScope st (tagOf .blockTag key
        (lineIndentation (dedentFrames st.stack.reverse (s.drop (indexNextLine s))))),
        indexNextLine s) := by
  have hpt : processTag s st (indexNextLine s) 0 tagStart =
      .ok ⟨newScope st (tagOf .blockTag key
          (lineIndentation (dedentFrames st.stack.reverse (s.drop (indexNextLine s))))),
        indexNextLine s, te, indexNextLine s, true⟩ := by
    cases hst : st.stack with
    | nil =>
      rw [hst] at htop
      exact absurd htop (by decide)
    | cons f rest =>
      rw [hst] at htop
      simp only [List.headD_cons] at htop
      have htop2 : f.start.tt = TagType.parentTag := by simpa using htop
      simp only [processTag, hcut, bindE_ok, hnl, hck]
      simp only [computeTrailing, applySpecial]
      simp [hst, hlead, htrail, htop2, bindE_ok]
      rw [hst.symm]
  have hfuel : s.length + 2 = (s.length + 1) + 1 := rfl
  simp only [parseLine, hfind, hfuel, parseTagsLoop, hpt, bindE_ok]
  simp [substr_self_nil, appendLiteral]

theorem parseLine_standalone_parameter {st : PState} {s key : Str} {tagStart te i : Nat}
    (hfind : strIndex (s.take (indexNextLine s)) st.sd = some tagStart)
    (hcut : cutTag s tagStart st.sd st.ed = .ok ⟨some '$', key, te⟩)
    (hnl : (substr s tagStart te).count '\n' = 0)
    (hck : checkKey ⟨some '$', key, te⟩ = .ok ())
    (htop : ((st.stack.headD {}).start.tt == TagType.parentTag) = false)
    (helem : elementEnd key s te st.sd st.ed = .ok i)
    (hclean : isSpace (substr s i (i + indexNextLine (s.drop i))) = true)
    (hlead : isSpace (substr s 0 tagStart) = true)
    (hown : isSpace (substr s te (indexNextLine s)) = true) :
    parseLine st s = .ok (newScope st (tagOf .blockTag key
      (lineIndentation (dedentFrames st.stack.reverse (s.drop (indexNextLine s))))),
      indexNextLine s) := by
  have hpt : processTag s st (indexNextLine s) 0 tagStart =
      .ok ⟨newScope st (tagOf .blockTag key
          (lineIndentation (dedentFrames st.stack.reverse (s.drop (indexNextLine s))))),
        indexNextLine s, te, indexNextLine s, true⟩ := by
    cases hst : st.stack with
    | nil =>
      rw [hst] at htop
      simp only [processTag, hcut, bindE_ok, hnl, hck]
      simp only [computeTrailing, applySpecial]
      simp [hst, helem, hclean, hlead, hown, tagOf, bindE_ok]
      rw [hst.symm]
      rfl
    | cons f rest =>
      rw [hst] at htop
      simp only [List.headD_cons] at htop
      have htop2 : f.start.tt ≠ TagType.parentTag := by simpa using htop
      simp only [processTag, hcut, bindE_ok, hnl, hck]
      simp only [computeTrailing, applySpecial]
      simp [hst, helem, hclean, hlead, hown, htop2, bindE_ok]
      rw [hst.symm]
      rfl
  have hfuel : s.length + 2 = (s.length + 1) + 1 := rfl
  simp only [parseLine, hfind, hfuel, parseTagsLoop, hpt, bindE_ok]
  simp [substr_self_nil, appendLiteral]

theorem parseLine_standalone_parent {st : PState} {s key : Str} {tagStart te i : Nat}
    (hfind : strIndex (s.take (indexNextLine s)) st.sd = some tagStart)
    (hcut : cutTag s tagStart st.sd st.ed = .ok ⟨some '<', key, te⟩)
    (hnl : (substr s tagStart te).count '\n' = 0)
    (hck : checkKey ⟨some '<', key, te⟩ = .ok ())
    (helem : elementEnd key s te st.sd st.ed = .ok i)
    (hclean : isSpace (substr s i (i + indexNextLine (s.drop i))) = true)
    (hlead : isSpace (substr s 0 tagStart) = true)
    (hone : nextIndex (s.take (indexNextLine s)) te st.sd = none) :
    parseLine st s = .ok (appendLiteral
      (setTopStandalone (newScope st (tagOf .parentTag key (substr s 0 tagStart))) true)
      (substr s te (indexNextLine s)), indexNextLine s) := by
  have hpt : processTag s st (indexNextLine s) 0 tagStart =
      .ok ⟨setTopStandalone (newScope st (tagOf .parentTag key (substr s 0 tagStart))) true,
        indexNextLine s, te, te, false⟩ := by
    simp only [processTag, hcut, bindE_ok, hnl, hck]
    simp only [computeTrailing, applySpecial]
    simp [helem, hclean, hlead, bindE_ok]
    rfl
  have hfuel : s.length + 2 = (s.length + 1) + 1 := rfl
  simp only [parseLine, hfind, hfuel, parseTagsLoop, hpt, bindE_ok]
  simp only [setTopStandalone_sd, newScope_sd, hone]
  simp [bindE_ok]

theorem parseLine_interpolation {st : PState} {s key : Str} {tagStart te : Nat}
    (hfind : strIndex (s.take (indexNextLine s)) st.sd = some tagStart)
    (hcut : cutTag s tagStart st.sd st.ed = .ok ⟨none, key, te⟩)
    (hnl : (substr s tagStart te).count '\n' = 0)
    (hck : checkKey ⟨none, key, te⟩ = .ok ())
    (hone : nextIndex (s.take (indexNextLine s)) te st.sd = none) :
    parseLine st s = .ok (appendLiteral
      (pushTag (appendLiteral (pushTag st (tagOf .indentPoint)) (substr s 0 tagStart))
        (tagOf .variableTag key))
      (substr s te (indexNextLine s)), indexNextLine s) := by
  have hpt : processTag s st (indexNextLine s) 0 tagStart =
      .ok ⟨pushTag (appendLiteral (pushTag st (tagOf .indentPoint)) (substr s 0 tagStart))
          (tagOf .variableTag key),
        indexNextLine s, te, te, false⟩ := by
    simp only [processTag, hcut, bindE_ok, hnl, hck]
    simp only [computeTrailing, applySpecial]
    simp [bindE_ok]
  have hfuel : s.length + 2 = (s.length + 1) + 1 := rfl
  simp only [parseLine, hfind, hfuel, parseTagsLoop, hpt, bindE_ok]
  simp only [pushTag_sd, appendLiteral_sd, hone]
  simp [bindE_ok]

theorem parseLine_raw_interpolation {st : PState} {s key : Str} {tagStart te : Nat}
    (hfind : strIndex (s.take (indexNextLine s)) st.sd = some tagStart)
    (hcut : cutTag s tagStart st.sd st.ed = .ok ⟨some '&', key, te⟩)
    (hnl : (substr s tagStart te).count '\n' = 0)
    (hck : checkKey ⟨some '&', key, te⟩ = .ok ())
    (hone : nextIndex (s.take (indexNextLine s)) te st.sd = none) :
    parseLine st s = .ok (appendLiteral
      (pushTag (appendLiteral (pushTag st (tagOf .indentPoint)) (substr s 0 tagStart))
        (tagOf .rawVariable key))
      (substr s te (indexNextLine s)), indexNextLine s) := by
  have hpt : processTag s st (indexNextLine s) 0 tagStart =
      .ok ⟨pushTag (appendLiteral (pushTag st (tagOf .indentPoint)) (substr s 0 tagStart))
          (tagOf .rawVariable key),
        indexNextLine s, te, te, false⟩ := by
    simp only [processTag, hcut, bindE_ok, hnl, hck]
    simp only [computeTrailing, applySpecial]
    simp [bindE_ok]
  have hfuel : s.length + 2 = (s.length + 1) + 1 := rfl
  simp only [parseLine, hfind, hfuel, parseTagsLoop, hpt, bindE_ok]
  simp only [pushTag_sd, appendLiteral_sd, hone]
  simp [bindE_ok]

theorem stateLiterals_parent_line (st : PState) (t : Tag) (txt : Str) :
    stateLiterals (appendLiteral (setTopStandalone (newScope st t) true) txt) =
      (if txt = [] then [] else [txt]) ++ stateLiterals st := by
  by_cases h : txt = []
  · simp [h, appendLiteral, stateLiterals_setTopStandalone, stateLiterals_newScope]
  · simp [h, appendLiteral, newScope, setTopStandalone, pushTag, stateLiterals,
      tagLiterals, tagOf, tagLiterals.listLiterals]

theorem stateLiterals_delims (st : PState) (sd2 ed2 : Str) :
    stateLiterals { st with sd := sd2, ed := ed2 } = stateLiterals st := rfl

/-- C1 (amended): standalone-line absorption, per sigil.  For a line whose
open delimiter is found at `tagStart`, whose tag cuts on that line with the
given sigil and passes the key check, and whose leading and trailing text is
whitespace: a Section, Inverted Section, Comment, Partial or Set Delimiters
tag absorbs the whole line, leaving the stored literals unchanged; a
block-parameter tag directly inside a Parent scope (an argument) likewise,
taking its indentation from the following line; a block-parameter tag not
inside a Parent scope absorbs the line exactly when the text after its
matching close tag (located by `elementEnd`) is also whitespace on that line;
a Parent open tag suppresses its leading whitespace when the close side is
clean, but the remainder of its own line (trailing whitespace and line
terminator) is still emitted as a literal into the new Parent scope; an
interpolation (escaped or raw) never absorbs its line: its nonempty leading
and trailing text are both emitted as literals. -/
theorem c1_standalone_absorption :
    (∀ (st : PState) (s key : Str) (tagStart te : Nat),
      strIndex (s.take (indexNextLine s)) st.sd = some tagStart →
      cutTag s tagStart st.sd st.ed = .ok ⟨some '#', key, te⟩ →
      (substr s tagStart te).count '\n' = 0 →
      checkKey ⟨some '#', key, te⟩ = .ok () →
      isSpace (substr s 0 tagStart) = true →
      isSpace (substr s te (indexNextLine s)) = true →
      ∃ st', parseLine st s = .ok (st', indexNextLine s) ∧
        stateLiterals st' = stateLiterals st) ∧
    (∀ (st : PState) (s key : Str) (tagStart te : Nat),
      strIndex (s.take (indexNextLine s)) st.sd = some tagStart →
      cutTag s tagStart st.sd st.ed = .ok ⟨some '^', key, te⟩ →
      (substr s tagStart te).count '\n' = 0 →
      checkKey ⟨some '^', key, te⟩ = .ok () →
      isSpace (substr s 0 tagStart) = true →
      isSpace (substr s te (indexNextLine s)) = true →
      ∃ st', parseLine st s = .ok (st', indexNextLine s) ∧
        stateLiterals st' = stateLiterals st) ∧
    (∀ (st : PState) (s key : Str) (tagStart te : Nat),
      strIndex (s.take (indexNextLine s)) st.sd = some tagStart →
      cutTag s tagStart st.sd st.ed = .ok ⟨some '!', key, te⟩ →
      (substr s tagStart te).count '\n' = 0 →
      isSpace (substr s 0 tagStart) = true →
      isSpace (substr s te (indexNextLine s)) = true →
      ∃ st', parseLine st s = .ok (st', indexNextLine s) ∧
        stateLiterals st' = stateLiterals st) ∧
    (∀ (st : PState) (s key : Str) (tagStart te : Nat),
      strIndex (s.take (indexNextLine s)) st.sd = some tagStart →
      cutTag s tagStart st.sd st.ed = .ok ⟨some '>', key, te⟩ →
      (substr s tagStart te).count '\n' = 0 →
      checkKey ⟨some '>', key, te⟩ = .ok () →
      isSpace (substr s 0 tagStart) = true →
      isSpace (substr s te (indexNextLine s)) = true →
      ∃ st', parseLine st s = .ok (st', indexNextLine s) ∧
        stateLiterals st' = stateLiterals st) ∧
    (∀ (st : PState) (s key sd2 ed2 : Str) (tagStart te : Nat),
      strIndex (s.take (indexNextLine s)) st.sd = some tagStart →
      cutTag s tagStart st.sd st.ed = .ok ⟨some '=', key, te⟩ →
      (substr s tagStart te).count '\n' = 0 →
      splitSetDelimiterTag key = .ok (sd2, ed2) →
      isSpace (substr s 0 tagStart) = true →
      isSpace (substr s te (indexNextLine s)) = true →
      ∃ st', parseLine st s = .ok (st', indexNextLine s) ∧
        stateLiterals st' = stateLiterals st) ∧
    (∀ (st : PState) (s key : Str) (tagStart te : Nat),
      strIndex (s.take (indexNextLine s)) st.sd = some tagStart →
      cutTag s tagStart st.sd st.ed = .ok ⟨some '$', key, te⟩ →
      (substr s tagStart te).count '\n' = 0 →
      checkKey ⟨some '$', key, te⟩ = .ok () →
      ((st.stack.headD {}).start.tt == TagType.parentTag) = true →
      isSpace (substr s 0 tagStart) = true →
      isSpace (substr s te (indexNextLine s)) = true →
      ∃ st', parseLine st s = .ok (st', indexNextLine s) ∧
        stateLiterals st' = stateLiterals st) ∧
    (∀ (st : PState) (s key : Str) (tagStart te i : Nat),
      strIndex (s.take (indexNextLine s)) st.sd = some tagStart →
      cutTag s tagStart st.sd st.ed = .ok ⟨some '$', key, te⟩ →
      (substr s tagStart te).count '\n' = 0 →
      checkKey ⟨some '$', key, te⟩ = .ok () →
      ((st.stack.headD {}).start.tt == TagType.parentTag) = false →
      elementEnd key s te st.sd st.ed = .ok i →
      isSpace (substr s i (i + indexNextLine (s.drop i))) = true →
      isSpace (substr s 0 tagStart) = true →
      isSpace (substr s te (indexNextLine s)) = true →
      ∃ st', parseLine st s = .ok (st', indexNextLine s) ∧
        stateLiterals st' = stateLiterals st) ∧
    (∀ (st : PState) (s key : Str) (tagStart te i : Nat),
      strIndex (s.take (indexNextLine s)) st.sd = some tagStart →
      cutTag s tagStart st.sd st.ed = .ok ⟨some '<', key, te⟩ →
      (substr s tagStart te).count '\n' = 0 →
      checkKey ⟨some '<', key, te⟩ = .ok () →
      elementEnd key s te st.sd st.ed = .ok i →
      isSpace (substr s i (i + indexNextLine (s.drop i))) = true →
      isSpace (substr s 0 tagStart) = true →
      nextIndex (s.take (indexNextLine s)) te st.sd = none →
      ∃ st', parseLine st s = .ok (st', indexNextLine s) ∧
        stateLiterals st' =
          (if substr s te (indexNextLine s) = [] then []
            else [substr s te (indexNextLine s)]) ++ stateLiterals st) ∧
    (∀ (st : PState) (s key : Str) (tagStart te : Nat),
      st.stack ≠ [] →
      strIndex (s.take (indexNextLine s)) st.sd = some tagStart →
      cutTag s tagStart st.sd st.ed = .ok ⟨none, key, te⟩ →
      (substr s tagStart te).count '\n' = 0 →
      checkKey ⟨none, key, te⟩ = .ok () →
      nextIndex (s.take (indexNextLine s)) te st.sd = none →
      ∃ st', parseLine st s = .ok (st', indexNextLine s) ∧
        (substr s 0 tagStart ≠ [] → substr s 0 tagStart ∈ stateLiterals st') ∧
        (substr s te (indexNextLine s) ≠ [] →
          substr s te (indexNextLine s) ∈ stateLiterals st')) ∧
    (∀ (st : PState) (s key : Str) (tagStart te : Nat),
      st.stack ≠ [] →
      strIndex (s.take (indexNextLine s)) st.sd = some tagStart →
      cutTag s tagStart st.sd st.ed = .ok ⟨some '&', key, te⟩ →
      (substr s tagStart te).count '\n' = 0 →
      checkKey ⟨some '&', key, te⟩ = .ok () →
      nextIndex (s.take (indexNextLine s)) te st.sd = none →
      ∃ st', parseLine st s = .ok (st', indexNextLine s) ∧
        (substr s 0 tagStart ≠ [] → substr s 0 tagStart ∈ stateLiterals st') ∧
        (substr s te (indexNextLine s) ≠ [] →
          substr s te (indexNextLine s) ∈ stateLiterals st')) := by
  refine ⟨?_, ?_, ?_, ?_, ?_, ?_, ?_, ?_, ?_, ?_⟩
  · intro st s key tagStart te hfind hcut hnl hck hlead htrail
    exact ⟨_, parseLine_standalone_section hfind hcut hnl hck hlead htrail,
      stateLiterals_newScope st _⟩
  · intro st s key tagStart te hfind hcut hnl hck hlead htrail
    exact ⟨_, parseLine_standalone_inverted hfind hcut hnl hck hlead htrail,
      stateLiterals_newScope st _⟩
  · intro st s key tagStart te hfind hcut hnl hlead htrail
    exact ⟨_, parseLine_standalone_comment hfind hcut hnl hlead htrail, rfl⟩
  · intro st s key tagStart te hfind hcut hnl hck hlead htrail
    exact ⟨_, parseLine_standalone_partial hfind hcut hnl hck hlead htrail,
      stateLiterals_pushTag_nonlit st _ (tagLiterals_leaf_nonlit _ _ _ (by decide))⟩
  · intro st s key sd2 ed2 tagStart te hfind hcut hnl hsp hlead htrail
    exact ⟨_, parseLine_standalone_delims hfind hcut hnl hsp hlead htrail,
      stateLiterals_delims st sd2 ed2⟩
  · intro st s key tagStart te hfind hcut hnl hck htop hlead htrail
    exact ⟨_, parseLine_argument_block hfind hcut hnl hck htop hlead htrail,
      stateLiterals_newScope st _⟩
  · intro st s key tagStart te i hfind hcut hnl hck htop helem hclean hlead hown
    exact ⟨_, parseLine_standalone_parameter hfind hcut hnl hck htop helem hclean hlead hown,
      stateLiterals_newScope st _⟩
  · intro st s key tagStart te i hfind hcut hnl hck helem hclean hlead hone
    exact ⟨_, parseLine_standalone_parent hfind hcut hnl hck helem hclean hlead hone,
      stateLiterals_parent_line st _ _⟩
  · intro st s key tagStart te hstack hfind hcut hnl hck hone
    refine ⟨_, parseLine_interpolation hfind hcut hnl hck hone, ?_, ?_⟩
    · intro hne
      exact stateLiterals_appendLiteral_mono _ (stateLiterals_pushTag_mono _
        (stateLiterals_appendLiteral_mem _ _ hne (pushTag_stack_ne _ hstack)))
    · intro hne
      exact stateLiterals_appendLiteral_mem _ _ hne
        (pushTag_stack_ne _ (appendLiteral_stack_ne _ (pushTag_stack_ne _ hstack)))
  · intro st s key tagStart te hstack hfind hcut hnl hck hone
    refine ⟨_, parseLine_raw_interpolation hfind hcut hnl hck hone, ?_, ?_⟩
    · intro hne
      exact stateLiterals_appendLiteral_mono _ (stateLiterals_pushTag_mono _
        (stateLiterals_appendLiteral_mem _ _ hne (pushTag_stack_ne _ hstack)))
    · intro hne
      exact stateLiterals_appendLiteral_mem _ _ hne
        (pushTag_stack_ne _ (appendLiteral_stack_ne _ (pushTag_stack_ne _ hstack)))

theorem c1_standalone_absorption_wit :
    (∃ st', parseLine initState (ofString "  \x7b\x7b#sec\x7d\x7d  \n") =
        .ok (st', indexNextLine (ofString "  \x7b\x7b#sec\x7d\x7d  \n")) ∧
      stateLiterals st' = stateLiterals initState) ∧
    (∃ st', parseLine initState (ofString " \x7b\x7b<p\x7d\x7d \n\x7b\x7b/p\x7d\x7d \n") =
        .ok (st', indexNextLine (ofString " \x7b\x7b<p\x7d\x7d \n\x7b\x7b/p\x7d\x7d \n")) ∧
      stateLiterals st' =
        (if substr (ofString " \x7b\x7b<p\x7d\x7d \n\x7b\x7b/p\x7d\x7d \n") 7
            (indexNextLine (ofString " \x7b\x7b<p\x7d\x7d \n\x7b\x7b/p\x7d\x7d \n")) = [] then []
          else [substr (ofString " \x7b\x7b<p\x7d\x7d \n\x7b\x7b/p\x7d\x7d \n") 7
            (indexNextLine (ofString " \x7b\x7b<p\x7d\x7d \n\x7b\x7b/p\x7d\x7d \n"))]) ++ stateLiterals initState) ∧
    (∃ st', parseLine initState (ofString "a\x7b\x7bx\x7d\x7db\n") =
        .ok (st', indexNextLine (ofString "a\x7b\x7bx\x7d\x7db\n")) ∧
      (substr (ofString "a\x7b\x7bx\x7d\x7db\n") 0 1 ≠ [] →
        substr (ofString "a\x7b\x7bx\x7d\x7db\n") 0 1 ∈ stateLiterals st') ∧
      (substr (ofString "a\x7b\x7bx\x7d\x7db\n") 6 (indexNextLine (ofString "a\x7b\x7bx\x7d\x7db\n")) ≠ [] →
        substr (ofString "a\x7b\x7bx\x7d\x7db\n") 6 (indexNextLine (ofString "a\x7b\x7bx\x7d\x7db\n")) ∈
          stateLiterals st')) := by
  refine ⟨c1_standalone_absorption.1 initState (ofString "  \x7b\x7b#sec\x7d\x7d  \n") (ofString "sec")
      2 10 (by decide) (by decide) (by decide) (by decide) (by decide) (by decide),
    c1_standalone_absorption.2.2.2.2.2.2.2.1 initState (ofString " \x7b\x7b<p\x7d\x7d \n\x7b\x7b/p\x7d\x7d \n")
      (ofString "p") 1 7 15 (by decide) (by decide) (by decide) (by decide) (by decide)
      (by decide) (by decide) (by decide),
    c1_standalone_absorption.2.2.2.2.2.2.2.2.1 initState (ofString "a\x7b\x7bx\x7d\x7db\n")
      (ofString "x") 1 6 (by decide) (by decide) (by decide) (by decide) (by decide)
      (by decide)⟩

theorem parseLine_parent_dirty_close {st : PState} {s key : Str} {tagStart te i : Nat}
    (hfind : strIndex (s.take (indexNextLine s)) st.sd = some tagStart)
    (hcut : cutTag s tagStart st.sd st.ed = .ok ⟨some '<', key, te⟩)
    (hnl : (substr s tagStart te).count '\n' = 0)
    (hck : checkKey ⟨some '<', key, te⟩ = .ok ())
    (helem : elementEnd key s te st.sd st.ed = .ok i)
    (hclean : isSpace (substr s i (i + indexNextLine (s.drop i))) = false)
    (hone : nextIndex (s.take (indexNextLine s)) te st.sd = none) :
    parseLine st s = .ok (appendLiteral
      (setTopStandalone
        (newScope (appendLiteral (pushTag st (tagOf .indentPoint)) (substr s 0 tagStart))
          (tagOf .parentTag key [])) false)
      (substr s te (indexNextLine s)), indexNextLine s) := by
  have hpt : processTag s st (indexNextLine s) 0 tagStart =
      .ok ⟨setTopStandalone
          (newScope (appendLiteral (pushTag st (tagOf .indentPoint)) (substr s 0 tagStart))
            (tagOf .parentTag key [])) false,
        indexNextLine s, te, te, false⟩ := by
    simp only [processTag, hcut, bindE_ok, hnl, hck]
    simp only [computeTrailing, applySpecial]
    simp [helem, hclean, bindE_ok]
  have hfuel : s.length + 2 = (s.length + 1) + 1 := rfl
  simp only [parseLine, hfind, hfuel, parseTagsLoop, hpt, bindE_ok]
  simp only [setTopStandalone_sd, newScope_sd, appendLiteral_sd, pushTag_sd, hone]
  simp [bindE_ok]

theorem parseLine_close_parent_standalone {st : PState} {s key : Str} {te : Nat}
    {f g : Frame} {rest : List Frame}
    (hst : st.stack = f :: g :: rest)
    (htt : f.start.tt = TagType.parentTag)
    (hstd : f.standalone = true)
    (hkey : key = f.start.s)
    (hfind : strIndex (s.take (indexNextLine s)) st.sd = some 0)
    (hcut : cutTag s 0 st.sd st.ed = .ok ⟨some '/', key, te⟩)
    (hnl : (substr s 0 te).count '\n' = 0)
    (hck : checkKey ⟨some '/', key, te⟩ = .ok ())
    (htrail : isSpace (substr s te (indexNextLine s)) = false) :
    parseLine st s =
      .ok (closeScope (pushTag st (tagOf .indentPoint)), indexNextLine s) := by
  have hpt : processTag s st (indexNextLine s) 0 0 =
      .ok ⟨closeScope (pushTag st (tagOf .indentPoint)),
        indexNextLine s, te, indexNextLine s, true⟩ := by
    simp only [processTag, hcut, bindE_ok, hnl, hck]
    simp only [computeTrailing, applySpecial]
    simp [hst, htrail, pushTag, closeScope, htt, hstd, hkey, substr_self_nil,
      appendLiteral, bindE_ok]
    rfl
  have hfuel : s.length + 2 = (s.length + 1) + 1 := rfl
  simp only [parseLine, hfind, hfuel, parseTagsLoop, hpt, bindE_ok]
  simp [substr_self_nil, appendLiteral]

theorem parseLine_close_parent_not_standalone {st : PState} {s key : Str} {te : Nat}
    {f g : Frame} {rest : List Frame}
    (hst : st.stack = f :: g :: rest)
    (htt : f.start.tt = TagType.parentTag)
    (hstd : f.standalone = false)
    (hkey : key = f.start.s)
    (hfind : strIndex (s.take (indexNextLine s)) st.sd = some 0)
    (hcut : cutTag s 0 st.sd st.ed = .ok ⟨some '/', key, te⟩)
    (hnl : (substr s 0 te).count '\n' = 0)
    (hck : checkKey ⟨some '/', key, te⟩ = .ok ())
    (htrail : isSpace (substr s te (indexNextLine s)) = false)
    (hone : nextIndex (s.take (indexNextLine s)) te st.sd = none) :
    parseLine st s =
      .ok (appendLiteral (closeScope (pushTag st (tagOf .indentPoint)))
        (substr s te (indexNextLine s)), indexNextLine s) := by
  have hpt : processTag s st (indexNextLine s) 0 0 =
      .ok ⟨closeScope (pushTag st (tagOf .indentPoint)),
        indexNextLine s, te, te, false⟩ := by
    simp only [processTag, hcut, bindE_ok, hnl, hck]
    simp only [computeTrailing, applySpecial]
    simp [hst, htrail, pushTag, closeScope, htt, hstd, hkey, substr_self_nil,
      appendLiteral, bindE_ok]
    rfl
  have hfuel : s.length + 2 = (s.length + 1) + 1 := rfl
  simp only [parseLine, hfind, hfuel, parseTagsLoop, hpt, bindE_ok]
  have hsd : (closeScope (pushTag st (tagOf .indentPoint))).sd = st.sd := by
    rw [closeScope_sd, pushTag_sd]
  simp only [hsd, hone]
  simp [bindE_ok]

theorem parseLine_parameter_dirty_close {st : PState} {s key : Str} {tagStart te i : Nat}
    (hfind : strIndex (s.take (indexNextLine s)) st.sd = some tagStart)
    (hcut : cutTag s tagStart st.sd st.ed = .ok ⟨some '$', key, te⟩)
    (hnl : (substr s tagStart te).count '\n' = 0)
    (hck : checkKey ⟨some '$', key, te⟩ = .ok ())
    (htop : ((st.stack.headD {}).start.tt == TagType.parentTag) = false)
    (helem : elementEnd key s te st.sd st.ed = .ok i)
    (hclean : isSpace (substr s i (i + indexNextLine (s.drop i))) = false)
    (hone : nextIndex (s.take (indexNextLine s)) te st.sd = none) :
    parseLine st s = .ok (appendLiteral
      (pushTag (newScope (appendLiteral (pushTag st (tagOf .indentPoint)) (substr s 0 tagStart))
        (tagOf .blockTag key [])) (tagOf .indentPoint))
      (substr s te (indexNextLine s)), indexNextLine s) := by
  have hpt : processTag s st (indexNextLine s) 0 tagStart =
      .ok ⟨pushTag (newScope (appendLiteral (pushTag st (tagOf .indentPoint))
            (substr s 0 tagStart)) (tagOf .blockTag key [])) (tagOf .indentPoint),
        indexNextLine s, te, te, false⟩ := by
    cases hstk : st.stack with
    | nil =>
      simp only [processTag, hcut, bindE_ok, hnl, hck]
      simp only [computeTrailing, applySpecial]
      simp [hstk, helem, hclean, tagOf, bindE_ok]
      rw [hstk.symm]
      rfl
    | cons f frest =>
      rw [hstk] at htop
      simp only [List.headD_cons] at htop
      have htop2 : f.start.tt ≠ TagType.parentTag := by simpa using htop
      simp only [processTag, hcut, bindE_ok, hnl, hck]
      simp only [computeTrailing, applySpecial]
      simp [hstk, helem, hclean, htop2, bindE_ok]
      rw [hstk.symm]
      rfl
  have hfuel : s.length + 2 = (s.length + 1) + 1 := rfl
  simp only [parseLine, hfind, hfuel, parseTagsLoop, hpt, bindE_ok]
  simp only [pushTag_sd, newScope_sd, appendLiteral_sd, hone]
  simp [bindE_ok]

/-- The parse tree of the C5 counterexample template. -/
def c5Tree : List Tag :=
  [⟨.parentTag, ['p'], [],
    [⟨.literal, ['\n'], [], []⟩,
     ⟨.blockTag, ['b'], [], [⟨.indentPoint, [], [], []⟩, ⟨.literal, ['x'], [], []⟩]⟩,
     ⟨.literal, ['y', '\n'], [], []⟩]⟩]

/-- Parser state after line 1 of the C5 counterexample (line number pending). -/
def c5StateMid1 : PState :=
  ⟨[⟨⟨.parentTag, ['p'], [], []⟩, 1, true, [⟨.literal, ['\n'], [], []⟩]⟩,
    ⟨⟨.literal, [], [], []⟩, 0, false, []⟩], ['{', '{'], ['}', '}'], 1⟩

/-- Parser state entering line 2 of the C5 counterexample. -/
def c5State1 : PState :=
  ⟨[⟨⟨.parentTag, ['p'], [], []⟩, 1, true, [⟨.literal, ['\n'], [], []⟩]⟩,
    ⟨⟨.literal, [], [], []⟩, 0, false, []⟩], ['{', '{'], ['}', '}'], 2⟩

/-- Parser state after line 2 of the C5 counterexample (line number pending). -/
def c5StateMid2 : PState :=
  ⟨[⟨⟨.blockTag, ['b'], [], []⟩, 2, false, []⟩,
    ⟨⟨.parentTag, ['p'], [], []⟩, 1, true, [⟨.literal, ['\n'], [], []⟩]⟩,
    ⟨⟨.literal, [], [], []⟩, 0, false, []⟩], ['{', '{'], ['}', '}'], 2⟩

/-- Parser state entering line 3 of the C5 counterexample. -/
def c5State2 : PState :=
  ⟨[⟨⟨.blockTag, ['b'], [], []⟩, 2, false, []⟩,
    ⟨⟨.parentTag, ['p'], [], []⟩, 1, true, [⟨.literal, ['\n'], [], []⟩]⟩,
    ⟨⟨.literal, [], [], []⟩, 0, false, []⟩], ['{', '{'], ['}', '}'], 3⟩

/-- Parser state after line 3 of the C5 counterexample (line number pending). -/
def c5StateMid3 : PState :=
  ⟨[⟨⟨.parentTag, ['p'], [], []⟩, 1, true,
      [⟨.literal, ['\n'], [], []⟩,
       ⟨.blockTag, ['b'], [], [⟨.indentPoint, [], [], []⟩, ⟨.literal, ['x'], [], []⟩]⟩,
       ⟨.literal, ['y', '\n'], [], []⟩]⟩,
    ⟨⟨.literal, [], [], []⟩, 0, false, []⟩], ['{', '{'], ['}', '}'], 3⟩

/-- Parser state entering line 4 of the C5 counterexample. -/
def c5State3 : PState :=
  ⟨[⟨⟨.parentTag, ['p'], [], []⟩, 1, true,
      [⟨.literal, ['\n'], [], []⟩,
       ⟨.blockTag, ['b'], [], [⟨.indentPoint, [], [], []⟩, ⟨.literal, ['x'], [], []⟩]⟩,
       ⟨.literal, ['y', '\n'], [], []⟩]⟩,
    ⟨⟨.literal, [], [], []⟩, 0, false, []⟩], ['{', '{'], ['}', '}'], 4⟩

/-- Parser state after line 4 of the C5 counterexample (line number pending). -/
def c5StateMid4 : PState :=
  ⟨[⟨⟨.literal, [], [], []⟩, 0, false, c5Tree⟩], ['{', '{'], ['}', '}'], 4⟩

/-- Parser state entering the (empty) rest of the C5 counterexample. -/
def c5State4 : PState :=
  ⟨[⟨⟨.literal, [], [], []⟩, 0, false, c5Tree⟩], ['{', '{'], ['}', '}'], 5⟩

set_option maxHeartbeats 4000000 in
/-- **Counterexample to C5 as stated.** In the template
`"\x7b\x7b<p\x7d\x7d\n\x7b\x7b$b\x7d\x7d\nx\x7b\x7b/b\x7d\x7dy\n\x7b\x7b/p\x7d\x7d"`, the block-parameter tag `{{$b}}` sits
directly inside a `Parent` scope, and the text after its matching close tag
(located by `elementEnd` at index 21) is `"y\n"`, which is not whitespace. The
claim says such a tag consults that close-side whitespace, so its line would
not be treated as standalone; but the parser treats `$`-tags directly inside a
`Parent` scope as argument tags, consults only the tag's own line, and absorbs
the line: the resulting `Parent` body holds no literal from the `{{$b}}` line
(its terminator `"\n"` is gone), only the literals `"\n"`, `"x"` and `"y\n"`
from the other lines. -/
theorem c5_standalone_pair_counterexample :
    elementEnd (ofString "b") (ofString "\x7b\x7b<p\x7d\x7d\n\x7b\x7b$b\x7d\x7d\nx\x7b\x7b/b\x7d\x7dy\n\x7b\x7b/p\x7d\x7d") 13
        (ofString "\x7b\x7b") (ofString "\x7d\x7d") = .ok 21 ∧
      isSpace (substr (ofString "\x7b\x7b<p\x7d\x7d\n\x7b\x7b$b\x7d\x7d\nx\x7b\x7b/b\x7d\x7dy\n\x7b\x7b/p\x7d\x7d") 21
        (21 + indexNextLine ((ofString "\x7b\x7b<p\x7d\x7d\n\x7b\x7b$b\x7d\x7d\nx\x7b\x7b/b\x7d\x7dy\n\x7b\x7b/p\x7d\x7d").drop 21))) =
        false ∧
      parse (ofString "\x7b\x7b<p\x7d\x7d\n\x7b\x7b$b\x7d\x7d\nx\x7b\x7b/b\x7d\x7dy\n\x7b\x7b/p\x7d\x7d") = .ok c5Tree := by
  refine ⟨by decide, by decide, ?_⟩
  have h0 : parse (ofString "\x7b\x7b<p\x7d\x7d\n\x7b\x7b$b\x7d\x7d\nx\x7b\x7b/b\x7d\x7dy\n\x7b\x7b/p\x7d\x7d") =
      parseLines 30 initState (ofString "\x7b\x7b<p\x7d\x7d\n\x7b\x7b$b\x7d\x7d\nx\x7b\x7b/b\x7d\x7dy\n\x7b\x7b/p\x7d\x7d") := rfl
  have h1 : parseLines 30 initState (ofString "\x7b\x7b<p\x7d\x7d\n\x7b\x7b$b\x7d\x7d\nx\x7b\x7b/b\x7d\x7dy\n\x7b\x7b/p\x7d\x7d") =
      parseLines 29 c5State1 (ofString "\x7b\x7b$b\x7d\x7d\nx\x7b\x7b/b\x7d\x7dy\n\x7b\x7b/p\x7d\x7d") :=
    parseLines_step 29 initState c5State1 _ (ofString "\x7b\x7b$b\x7d\x7d\nx\x7b\x7b/b\x7d\x7dy\n\x7b\x7b/p\x7d\x7d")
      c5StateMid1 7 (by decide) (by decide) (by decide) (by decide)
  have h2 : parseLines 29 c5State1 (ofString "\x7b\x7b$b\x7d\x7d\nx\x7b\x7b/b\x7d\x7dy\n\x7b\x7b/p\x7d\x7d") =
      parseLines 28 c5State2 (ofString "x\x7b\x7b/b\x7d\x7dy\n\x7b\x7b/p\x7d\x7d") :=
    parseLines_step 28 c5State1 c5State2 _ (ofString "x\x7b\x7b/b\x7d\x7dy\n\x7b\x7b/p\x7d\x7d")
      c5StateMid2 7 (by decide) (by decide) (by decide) (by decide)
  have h3 : parseLines 28 c5State2 (ofString "x\x7b\x7b/b\x7d\x7dy\n\x7b\x7b/p\x7d\x7d") =
      parseLines 27 c5State3 (ofString "\x7b\x7b/p\x7d\x7d") :=
    parseLines_step 27 c5State2 c5State3 _ (ofString "\x7b\x7b/p\x7d\x7d")
      c5StateMid3 9 (by decide) (by decide) (by decide) (by decide)
  have h4 : parseLines 27 c5State3 (ofString "\x7b\x7b/p\x7d\x7d") = parseLines 26 c5State4 [] :=
    parseLines_step 26 c5State3 c5State4 _ [] c5StateMid4 6
      (by decide) (by decide) (by decide) (by decide)
  have h5 : parseLines 26 c5State4 [] = .ok c5Tree := by decide
  rw [h0, h1, h2, h3, h4, h5]

/-- C5 (amended): the standalone-pair mechanism. The pair test applies to
`Parent` open tags and to block-parameter (`$`) tags *not* directly inside a
`Parent` scope (those directly inside a `Parent` scope are argument tags and
consult their own line instead). For a pair tag, the standalone determination
consults the text after the matching close tag located by `elementEnd`
(which tracks nested same-named open/close tags and delimiter changes), not
the text after the open tag itself: with a clean close side the open tag is
standalone no matter what follows it on its own line, and with a dirty close
side it is not standalone even when its own line is clean. A `Parent` open
tag records this verdict in its scope frame, and the close tag of a `Parent`
scope replays it: the content after the close tag is absorbed exactly when
the recorded flag is set. -/
theorem c5_standalone_pair :
    (∀ (st : PState) (s key : Str) (tagStart te i : Nat),
      strIndex (s.take (indexNextLine s)) st.sd = some tagStart →
      cutTag s tagStart st.sd st.ed = .ok ⟨some '<', key, te⟩ →
      (substr s tagStart te).count '\n' = 0 →
      checkKey ⟨some '<', key, te⟩ = .ok () →
      elementEnd key s te st.sd st.ed = .ok i →
      isSpace (substr s i (i + indexNextLine (s.drop i))) = true →
      isSpace (substr s 0 tagStart) = true →
      nextIndex (s.take (indexNextLine s)) te st.sd = none →
      parseLine st s = .ok (appendLiteral
        (setTopStandalone (newScope st (tagOf .parentTag key (substr s 0 tagStart))) true)
        (substr s te (indexNextLine s)), indexNextLine s)) ∧
    (∀ (st : PState) (s key : Str) (tagStart te i : Nat),
      strIndex (s.take (indexNextLine s)) st.sd = some tagStart →
      cutTag s tagStart st.sd st.ed = .ok ⟨some '<', key, te⟩ →
      (substr s tagStart te).count '\n' = 0 →
      checkKey ⟨some '<', key, te⟩ = .ok () →
      elementEnd key s te st.sd st.ed = .ok i →
      isSpace (substr s i (i + indexNextLine (s.drop i))) = false →
      nextIndex (s.take (indexNextLine s)) te st.sd = none →
      parseLine st s = .ok (appendLiteral
        (setTopStandalone
          (newScope (appendLiteral (pushTag st (tagOf .indentPoint)) (substr s 0 tagStart))
            (tagOf .parentTag key [])) false)
        (substr s te (indexNextLine s)), indexNextLine s)) ∧
    (∀ (st : PState) (s key : Str) (te : Nat) (f g : Frame) (rest : List Frame),
      st.stack = f :: g :: rest →
      f.start.tt = TagType.parentTag →
      f.standalone = true →
      key = f.start.s →
      strIndex (s.take (indexNextLine s)) st.sd = some 0 →
      cutTag s 0 st.sd st.ed = .ok ⟨some '/', key, te⟩ →
      (substr s 0 te).count '\n' = 0 →
      checkKey ⟨some '/', key, te⟩ = .ok () →
      isSpace (substr s te (indexNextLine s)) = false →
      parseLine st s =
        .ok (closeScope (pushTag st (tagOf .indentPoint)), indexNextLine s)) ∧
    (∀ (st : PState) (s key : Str) (te : Nat) (f g : Frame) (rest : List Frame),
      st.stack = f :: g :: rest →
      f.start.tt = TagType.parentTag →
      f.standalone = false →
      key = f.start.s →
      strIndex (s.take (indexNextLine s)) st.sd = some 0 →
      cutTag s 0 st.sd st.ed = .ok ⟨some '/', key, te⟩ →
      (substr s 0 te).count '\n' = 0 →
      checkKey ⟨some '/', key, te⟩ = .ok () →
      isSpace (substr s te (indexNextLine s)) = false →
      nextIndex (s.take (indexNextLine s)) te st.sd = none →
      parseLine st s =
        .ok (appendLiteral (closeScope (pushTag st (tagOf .indentPoint)))
          (substr s te (indexNextLine s)), indexNextLine s)) ∧
    (∀ (st : PState) (s key : Str) (tagStart te i : Nat),
      strIndex (s.take (indexNextLine s)) st.sd = some tagStart →
      cutTag s tagStart st.sd st.ed = .ok ⟨some '$', key, te⟩ →
      (substr s tagStart te).count '\n' = 0 →
      checkKey ⟨some '$', key, te⟩ = .ok () →
      ((st.stack.headD {}).start.tt == TagType.parentTag) = false →
      elementEnd key s te st.sd st.ed = .ok i →
      isSpace (substr s i (i + indexNextLine (s.drop i))) = true →
      isSpace (substr s 0 tagStart) = true →
      isSpace (substr s te (indexNextLine s)) = true →
      parseLine st s = .ok (newScope st (tagOf .blockTag key
        (lineIndentation (dedentFrames st.stack.reverse (s.drop (indexNextLine s))))),
        indexNextLine s)) ∧
    (∀ (st : PState) (s key : Str) (tagStart te i : Nat),
      strIndex (s.take (indexNextLine s)) st.sd = some tagStart →
      cutTag s tagStart st.sd st.ed = .ok ⟨some '$', key, te⟩ →
      (substr s tagStart te).count '\n' = 0 →
      checkKey ⟨some '$', key, te⟩ = .ok () →
      ((st.stack.headD {}).start.tt == TagType.parentTag) = false →
      elementEnd key s te st.sd st.ed = .ok i →
      isSpace (substr s i (i + indexNextLine (s.drop i))) = false →
      nextIndex (s.take (indexNextLine s)) te st.sd = none →
      parseLine st s = .ok (appendLiteral
        (pushTag (newScope (appendLiteral (pushTag st (tagOf .indentPoint))
          (substr s 0 tagStart)) (tagOf .blockTag key [])) (tagOf .indentPoint))
        (substr s te (indexNextLine s)), indexNextLine s)) := by
  refine ⟨?_, ?_, ?_, ?_, ?_, ?_⟩
  · intro st s key tagStart te i hfind hcut hnl hck helem hclean hlead hone
    exact parseLine_standalone_parent hfind hcut hnl hck helem hclean hlead hone
  · intro st s key tagStart te i hfind hcut hnl hck helem hclean hone
    exact parseLine_parent_dirty_close hfind hcut hnl hck helem hclean hone
  · intro st s key te f g rest hst htt hstd hkey hfind hcut hnl hck htrail
    exact parseLine_close_parent_standalone hst htt hstd hkey hfind hcut hnl hck htrail
  · intro st s key te f g rest hst htt hstd hkey hfind hcut hnl hck htrail hone
    exact parseLine_close_parent_not_standalone hst htt hstd hkey hfind hcut hnl hck
      htrail hone
  · intro st s key tagStart te i hfind hcut hnl hck htop helem hclean hlead hown
    exact parseLine_standalone_parameter hfind hcut hnl hck htop helem hclean hlead hown
  · intro st s key tagStart te i hfind hcut hnl hck htop helem hclean hone
    exact parseLine_parameter_dirty_close hfind hcut hnl hck htop helem hclean hone

/-- A parser state whose innermost scope is a `Parent` frame recorded as
standalone, used to instantiate the close-side conjunct of C5. -/
def c5WitState : PState :=
  ⟨[⟨⟨.parentTag, ['p'], [], []⟩, 1, true, []⟩,
    ⟨⟨.literal, [], [], []⟩, 0, false, []⟩], ['{', '{'], ['}', '}'], 2⟩

theorem c5_standalone_pair_wit :
    parseLine initState (ofString " \x7b\x7b<p\x7d\x7d x\n\x7b\x7b/p\x7d\x7d \n") = .ok (appendLiteral
      (setTopStandalone (newScope initState (tagOf .parentTag (ofString "p")
          (substr (ofString " \x7b\x7b<p\x7d\x7d x\n\x7b\x7b/p\x7d\x7d \n") 0 1))) true)
      (substr (ofString " \x7b\x7b<p\x7d\x7d x\n\x7b\x7b/p\x7d\x7d \n") 7
        (indexNextLine (ofString " \x7b\x7b<p\x7d\x7d x\n\x7b\x7b/p\x7d\x7d \n"))),
      indexNextLine (ofString " \x7b\x7b<p\x7d\x7d x\n\x7b\x7b/p\x7d\x7d \n")) ∧
    parseLine c5WitState (ofString "\x7b\x7b/p\x7d\x7ddirt\n") =
      .ok (closeScope (pushTag c5WitState (tagOf .indentPoint)),
        indexNextLine (ofString "\x7b\x7b/p\x7d\x7ddirt\n")) :=
  ⟨c5_standalone_pair.1 initState (ofString " \x7b\x7b<p\x7d\x7d x\n\x7b\x7b/p\x7d\x7d \n") (ofString "p") 1 7 16
      (by decide) (by decide) (by decide) (by decide) (by decide) (by decide) (by decide)
      (by decide),
    c5_standalone_pair.2.2.1 c5WitState (ofString "\x7b\x7b/p\x7d\x7ddirt\n") (ofString "p") 6
      ⟨⟨.parentTag, ['p'], [], []⟩, 1, true, []⟩ ⟨⟨.literal, [], [], []⟩, 0, false, []⟩ []
      (by decide) (by decide) (by decide) (by decide) (by decide) (by decide) (by decide)
      (by decide) (by decide)⟩

/-- A scope token for the balanced-scope law: an open tag with sigil `#` or
`^`, or a close tag. -/
inductive Tok where
  | opn (sig : Char) (name : Str)
  | cls (name : Str)
  deriving DecidableEq, Repr

/-- The sigil character a token renders with. -/
def tokSigil : Tok → Char
  | .opn sig _ => sig
  | .cls _ => '/'

/-- The name a token carries. -/
def tokName : Tok → Str
  | .opn _ n => n
  | .cls n => n

/-- A well-formed scope-tag name: nonempty, with no close-delimiter brace,
no newline and no whitespace. -/
def goodName (name : Str) : Bool :=
  !name.isEmpty && name.all (fun c => c != '}' && c != '\n' && !isSpaceChar c)

/-- A well-formed token: a `#` or `^` open tag, or a close tag, with a
well-formed name. -/
def goodTok : Tok → Bool
  | .opn sig n => (sig == '#' || sig == '^') && goodName n
  | .cls n => goodName n

/-- Render a token as a standalone source line (default delimiters). -/
def renderTok (t : Tok) : Str :=
  '{' :: '{' :: tokSigil t :: tokName t ++ '}' :: '}' :: '\n' :: []

/-- Render a token stream as a template source. -/
def renderToks : List Tok → Str
  | [] => []
  | t :: ts => renderTok t ++ renderToks ts

/-- The spec's balanced-scope check over a token stream, with the stack of
currently open names: an open pushes, a close must match the innermost open,
and at the end the stack must be empty. (This definition follows the spec's
words; the theorems compare `parse` against it.) -/
def balancedAux : List Str → List Tok → Bool
  | [], [] => true
  | _ :: _, [] => false
  | ns, .opn _ n :: ts => balancedAux (n :: ns) ts
  | [], .cls _ :: _ => false
  | m :: ns, .cls n :: ts => if n = m then balancedAux ns ts else false

/-- Balanced token stream (empty open-scope stack at both ends). -/
def balanced (ts : List Tok) : Bool := balancedAux [] ts

/-- The parser stack shapes reachable while parsing a rendered token stream:
one frame per open scope (innermost first, a section or inverted-section
frame whose tag name is the open name), over a bottom frame that is neither
a block nor a parent scope. -/
def framesMatch : List Frame → List Str → Prop
  | [b], [] => b.start.tt ≠ .blockTag ∧ b.start.tt ≠ .parentTag
  | f :: fs, n :: ns => (f.start.tt = .sectionTag ∨ f.start.tt = .invertedSection) ∧
      f.start.s = n ∧ f.start.indent = [] ∧ framesMatch fs ns
  | _, _ => False

theorem strIndex_prefix_zero {s pat : Str} (h : pat.isPrefixOf s = true) :
    strIndex s pat = some 0 := by
  unfold strIndex
  rw [if_pos h]

theorem scanTagEnd_clean : ∀ (l : Str) (j : Nat) (rest : Str),
    (∀ c ∈ l, c ≠ '}' ∧ c ≠ '\n') →
    scanTagEnd ['}', '}'] false (l ++ '}' :: '}' :: rest) j = .ok (j + l.length) := by
  intro l
  induction l with
  | nil =>
    intro j rest _
    rw [scanTagEnd.eq_def]
    simp [List.isPrefixOf]
  | cons c t ih =>
    intro j rest h
    have hc := h c (by simp)
    rw [scanTagEnd.eq_def]
    dsimp only
    rw [List.cons_append]
    have hlen : (['}', '}'] : Str).length ≤ (c :: (t ++ '}' :: '}' :: rest)).length := by
      simp; omega
    rw [if_pos hlen]
    have hhead : (List.headD (c :: (t ++ '}' :: '}' :: rest)) ' ') = c := rfl
    rw [hhead]
    rw [if_neg (by simp [hc.2])]
    have hpre : (['}', '}'] : Str).isPrefixOf (c :: (t ++ '}' :: '}' :: rest)) = false := by
      simp [List.isPrefixOf, Ne.symm hc.1]
    rw [hpre]
    simp only [Bool.false_eq_true, if_false]
    rw [ih (j + 1) rest (fun x hx => h x (by simp [hx]))]
    simp
    omega

theorem indexNextLine_line : ∀ (l : Str), (∀ c ∈ l, c ≠ '\n') → ∀ rest,
    indexNextLine (l ++ '\n' :: rest) = l.length + 1 := by
  intro l
  induction l with
  | nil => intro _ rest; simp [indexNextLine]
  | cons c t ih =>
    intro h rest
    have hc := h c (by simp)
    simp only [List.cons_append, indexNextLine, if_neg hc]
    rw [show t.append ('\n' :: rest) = t ++ '\n' :: rest from rfl]
    rw [ih (fun x hx => h x (by simp [hx])) rest]
    simp
    omega

theorem trimSpace_id {l : Str} (h : ∀ c ∈ l, isSpaceChar c = false) :
    trimSpace l = l := by
  unfold trimSpace
  have h1 : l.dropWhile isSpaceChar = l := by
    cases l with
    | nil => rfl
    | cons c t => simp [List.dropWhile, h c (by simp)]
  rw [h1]
  cases hr : l.reverse with
  | nil =>
    have : l = [] := List.reverse_eq_nil_iff.mp hr
    simp [this]
  | cons c t =>
    have hc : c ∈ l := by
      have hmem : c ∈ l.reverse := by rw [hr]; simp
      simpa using hmem
    rw [List.dropWhile]
    simp only [h c hc, Bool.false_eq_true, if_false]
    rw [hr.symm]
    simp

theorem cutTag_tok_line {sig : Char} {name rest : Str}
    (hs : sig ∈ specialChars) (h1 : sig ≠ '!') (h2 : sig ≠ '=') (h3 : sig ≠ '{')
    (h4 : sig ≠ '}') (h5 : sig ≠ '\n')
    (hname : name ≠ [])
    (hch : ∀ c ∈ name, c ≠ '}' ∧ c ≠ '\n' ∧ isSpaceChar c = false) :
    cutTag ('{' :: '{' :: sig :: name ++ '}' :: '}' :: rest) 0 ['{', '{'] ['}', '}'] =
      .ok ⟨some sig, name, name.length + 5⟩ := by
  have hcom : (['!'] : Str).isPrefixOf (sig :: (name ++ '}' :: '}' :: rest)) = false := by
    simp [List.isPrefixOf, Ne.symm h1]
  have hscan : scanTagEnd ['}', '}'] false (sig :: (name ++ '}' :: '}' :: rest)) 2 =
      .ok (name.length + 3) := by
    have := scanTagEnd_clean (sig :: name) 2 rest (by
      intro c hc
      rcases List.mem_cons.mp hc with rfl | hm
      · exact ⟨h4, h5⟩
      · exact ⟨(hch c hm).1, (hch c hm).2.1⟩)
    simpa [Nat.add_comm] using this
  have hinner : substr ('{' :: '{' :: sig :: name ++ '}' :: '}' :: rest) 2
      (name.length + 3) = sig :: name := by
    rw [substr_eq_drop_take]
    have hd : ('{' :: '{' :: sig :: name ++ '}' :: '}' :: rest).drop 2 =
        sig :: (name ++ '}' :: '}' :: rest) := rfl
    rw [hd]
    have harith : name.length + 3 - 2 = name.length + 1 := by omega
    rw [harith, List.take_succ_cons, List.take_left]
  simp only [cutTag]
  rw [show (0 + (['{', '{'] : Str).length) = 2 from rfl]
  rw [show ('{' :: '{' :: sig :: name ++ '}' :: '}' :: rest).drop 2 =
    sig :: (name ++ '}' :: '}' :: rest) from rfl]
  rw [hcom, hscan]
  dsimp only
  rw [if_neg (by simp [List.headD, h3])]
  rw [hinner]
  rw [show (['='] : Str).isPrefixOf (sig :: name) = false by
    simp [List.isPrefixOf, Ne.symm h2]]
  simp only [Bool.false_eq_true, if_false]
  rw [if_pos (by
    constructor
    · have : 0 < name.length := List.length_pos.mpr hname
      simp
      omega
    · simpa [List.headD] using hs)]
  have htrim : trimSpace (sig :: name).tail = name := by
    rw [List.tail_cons]
    exact trimSpace_id (fun c hc => (hch c hc).2.2)
  rw [htrim]
  have harith2 : name.length + 3 + (['}', '}'] : Str).length = name.length + 5 := by
    simp
  rw [harith2]
  rfl

theorem parseLine_standalone_close {st : PState} {s key : Str} {tagStart te : Nat}
    {f g : Frame} {rest : List Frame}
    (hst : st.stack = f :: g :: rest)
    (htt : f.start.tt ≠ TagType.parentTag)
    (hkey : key = f.start.s)
    (hfind : strIndex (s.take (indexNextLine s)) st.sd = some tagStart)
    (hcut : cutTag s tagStart st.sd st.ed = .ok ⟨some '/', key, te⟩)
    (hnl : (substr s tagStart te).count '\n' = 0)
    (hck : checkKey ⟨some '/', key, te⟩ = .ok ())
    (hlead : isSpace (substr s 0 tagStart) = true)
    (htrail : isSpace (substr s te (indexNextLine s)) = true) :
    parseLine st s = .ok (closeScope st, indexNextLine s) := by
  have hpt : processTag s st (indexNextLine s) 0 tagStart =
      .ok ⟨closeScope st, indexNextLine s, te, indexNextLine s, true⟩ := by
    simp only [processTag, hcut, bindE_ok, hnl, hck]
    simp only [computeTrailing, applySpecial]
    simp [hst, hlead, htrail, htt, hkey, closeScope, bindE_ok]
    rfl
  have hfuel : s.length + 2 = (s.length + 1) + 1 := rfl
  simp only [parseLine, hfind, hfuel, parseTagsLoop, hpt, bindE_ok]
  simp [substr_self_nil, appendLiteral]

theorem parseLine_close_mismatch {st : PState} {s key : Str} {tagStart te : Nat}
    {f g : Frame} {rest : List Frame}
    (hst : st.stack = f :: g :: rest)
    (htt : f.start.tt ≠ TagType.parentTag)
    (hkey : key ≠ f.start.s)
    (hfind : strIndex (s.take (indexNextLine s)) st.sd = some tagStart)
    (hcut : cutTag s tagStart st.sd st.ed = .ok ⟨some '/', key, te⟩)
    (hnl : (substr s tagStart te).count '\n' = 0)
    (hck : checkKey ⟨some '/', key, te⟩ = .ok ())
    (hlead : isSpace (substr s 0 tagStart) = true)
    (htrail : isSpace (substr s te (indexNextLine s)) = true) :
    parseLine st s = .error (.mismatchedClose key f.start.s) := by
  have hpt : processTag s st (indexNextLine s) 0 tagStart =
      .error (.mismatchedClose key f.start.s) := by
    simp only [processTag, hcut, bindE_ok, hnl, hck]
    simp only [computeTrailing, applySpecial]
    simp [hst, hlead, htrail, htt, hkey, bindE_ok]
    rfl
  have hfuel : s.length + 2 = (s.length + 1) + 1 := rfl
  simp only [parseLine, hfind, hfuel, parseTagsLoop, hpt, bindE_error]

theorem parseLine_close_unopened {st : PState} {s key : Str} {tagStart te : Nat}
    {b : Frame}
    (hst : st.stack = [b])
    (hfind : strIndex (s.take (indexNextLine s)) st.sd = some tagStart)
    (hcut : cutTag s tagStart st.sd st.ed = .ok ⟨some '/', key, te⟩)
    (hnl : (substr s tagStart te).count '\n' = 0)
    (hck : checkKey ⟨some '/', key, te⟩ = .ok ())
    (hlead : isSpace (substr s 0 tagStart) = true)
    (htrail : isSpace (substr s te (indexNextLine s)) = true) :
    parseLine st s = .error (.closeWithoutOpening key) := by
  have hpt : processTag s st (indexNextLine s) 0 tagStart =
      .error (.closeWithoutOpening key) := by
    simp only [processTag, hcut, bindE_ok, hnl, hck]
    simp only [computeTrailing, applySpecial]
    simp [hst, hlead, htrail, bindE_ok]
    rfl
  have hfuel : s.length + 2 = (s.length + 1) + 1 := rfl
  simp only [parseLine, hfind, hfuel, parseTagsLoop, hpt, bindE_error]

theorem parseLines_error_step (fuel : Nat) (st : PState) (s : Str) (e : ParseErr)
    (hne : s ≠ []) (hline : parseLine st (dedent st s) = .error e) :
    parseLines (fuel + 1) st s = .error e := by
  rw [parseLines]
  rw [if_neg hne]
  show (parseLine st (dedent st s)) >>= _ = _
  rw [hline]
  rfl

theorem dedentFrames_no_block : ∀ (fr : List Frame) (s : Str),
    (∀ f ∈ fr, f.start.tt ≠ .blockTag) → dedentFrames fr s = s := by
  intro fr
  induction fr with
  | nil => intro s _; rfl
  | cons f rest ih =>
    intro s h
    rw [dedentFrames]
    rw [if_neg (h f (by simp))]
    exact ih s (fun x hx => h x (by simp [hx]))

theorem framesMatch_no_block : ∀ (fr : List Frame) (ns : List Str),
    framesMatch fr ns → ∀ f ∈ fr, f.start.tt ≠ .blockTag := by
  intro fr
  induction fr with
  | nil => intro ns h; cases ns <;> simp [framesMatch] at h
  | cons f rest ih =>
    intro ns h x hx
    cases ns with
    | nil =>
      cases rest with
      | nil =>
        simp only [framesMatch] at h
        rcases List.mem_singleton.mp hx with rfl
        exact h.1
      | cons g rest2 => simp [framesMatch] at h
    | cons n ns2 =>
      simp only [framesMatch] at h
      rcases List.mem_cons.mp hx with rfl | hm
      · rcases h.1 with h1 | h1 <;> simp [h1]
      · exact ih ns2 h.2.2.2 x hm

theorem goodName_spec {name : Str} (h : goodName name = true) :
    name ≠ [] ∧ ∀ c ∈ name, c ≠ '}' ∧ c ≠ '\n' ∧ isSpaceChar c = false := by
  unfold goodName at h
  rw [Bool.and_eq_true] at h
  constructor
  · intro hnil
    rw [hnil] at h
    simp at h
  · intro c hc
    have := List.all_eq_true.mp h.2 c hc
    simp only [Bool.and_eq_true, bne_iff_ne, ne_eq, Bool.not_eq_true'] at this
    exact ⟨this.1.1, this.1.2, this.2⟩

theorem findIdx?_none_of_all {p : Char → Bool} : ∀ {l : Str} (i : Nat),
    (∀ c ∈ l, p c = false) → l.findIdx? p i = none := by
  intro l
  induction l with
  | nil => intro _ _; rfl
  | cons c t ih =>
    intro i h
    rw [List.findIdx?_cons]
    rw [h c (by simp)]
    simp only [Bool.false_eq_true, if_false]
    exact ih (i + 1) (fun x hx => h x (by simp [hx]))

theorem tok_line_facts {sig : Char} {name rest : Str}
    (hs : sig ∈ specialChars) (h1 : sig ≠ '!') (h2 : sig ≠ '=') (h3 : sig ≠ '{')
    (h4 : sig ≠ '}') (h5 : sig ≠ '\n')
    (hgood : goodName name = true) :
    indexNextLine ('{' :: '{' :: sig :: name ++ '}' :: '}' :: '\n' :: rest) =
      name.length + 6 ∧
    strIndex (('{' :: '{' :: sig :: name ++ '}' :: '}' :: '\n' :: rest).take
      (name.length + 6)) ['{', '{'] = some 0 ∧
    cutTag ('{' :: '{' :: sig :: name ++ '}' :: '}' :: '\n' :: rest) 0 ['{', '{'] ['}', '}'] =
      .ok ⟨some sig, name, name.length + 5⟩ ∧
    (substr ('{' :: '{' :: sig :: name ++ '}' :: '}' :: '\n' :: rest) 0
      (name.length + 5)).count '\n' = 0 ∧
    checkKey ⟨some sig, name, name.length + 5⟩ = .ok () ∧
    isSpace (substr ('{' :: '{' :: sig :: name ++ '}' :: '}' :: '\n' :: rest)
      (name.length + 5) (name.length + 6)) = true ∧
    ('{' :: '{' :: sig :: name ++ '}' :: '}' :: '\n' :: rest).drop (name.length + 6) = rest := by
  obtain ⟨hname, hch⟩ := goodName_spec hgood
  have hregroup : '{' :: '{' :: sig :: name ++ '}' :: '}' :: '\n' :: rest =
      ('{' :: '{' :: sig :: (name ++ ['}', '}', '\n'])) ++ rest := by
    simp
  have hregroup2 : '{' :: '{' :: sig :: name ++ '}' :: '}' :: '\n' :: rest =
      ('{' :: '{' :: sig :: (name ++ ['}', '}'])) ++ '\n' :: rest := by
    simp
  have hlen1 : ('{' :: '{' :: sig :: (name ++ ['}', '}', '\n'])).length = name.length + 6 := by
    simp
  have hlen2 : ('{' :: '{' :: sig :: (name ++ ['}', '}'])).length = name.length + 5 := by
    simp
  have hinl : indexNextLine ('{' :: '{' :: sig :: name ++ '}' :: '}' :: '\n' :: rest) =
      name.length + 6 := by
    rw [hregroup2, indexNextLine_line]
    · simp
    · intro c hc
      rcases List.mem_cons.mp hc with rfl | hc2
      · decide
      rcases List.mem_cons.mp hc2 with rfl | hc3
      · decide
      rcases List.mem_cons.mp hc3 with rfl | hc4
      · exact h5
      rcases List.mem_append.mp hc4 with hm | hm
      · exact (hch c hm).2.1
      rcases List.mem_cons.mp hm with rfl | hm2
      · decide
      rcases List.mem_cons.mp hm2 with rfl | hm3
      · decide
      simp at hm3
  have htake6 : ('{' :: '{' :: sig :: name ++ '}' :: '}' :: '\n' :: rest).take
      (name.length + 6) = '{' :: '{' :: sig :: (name ++ ['}', '}', '\n']) := by
    rw [hregroup, ← hlen1, List.take_left]
  have htake5 : ('{' :: '{' :: sig :: name ++ '}' :: '}' :: '\n' :: rest).take
      (name.length + 5) = '{' :: '{' :: sig :: (name ++ ['}', '}']) := by
    rw [hregroup2, ← hlen2, List.take_left]
  refine ⟨hinl, ?_, ?_, ?_, ?_, ?_, ?_⟩
  · rw [htake6]
    exact strIndex_prefix_zero (by simp [List.isPrefixOf])
  · exact cutTag_tok_line hs h1 h2 h3 h4 h5 hname hch
  · show ((('{' :: '{' :: sig :: name ++ '}' :: '}' :: '\n' :: rest).take
      (name.length + 5)).drop 0).count '\n' = 0
    rw [htake5, List.drop_zero]
    simp only [List.count_cons, List.count_append]
    have hc0 : name.count '\n' = 0 := by
      rw [List.count_eq_zero]
      intro hmem
      exact (hch '\n' hmem).2.1 rfl
    rw [hc0]
    simp [h5, Ne.symm h5]
  · unfold checkKey
    rw [if_pos ⟨by simp [h1], by simp [h2]⟩]
    dsimp only
    rw [if_neg hname]
    unfold indexFunc
    rw [findIdx?_none_of_all 0 (fun c hc => (hch c hc).2.2)]
  · show isSpace ((('{' :: '{' :: sig :: name ++ '}' :: '}' :: '\n' :: rest).take
      (name.length + 6)).drop (name.length + 5)) = true
    rw [htake6]
    have hshape : '{' :: '{' :: sig :: (name ++ ['}', '}', '\n']) =
        ('{' :: '{' :: sig :: (name ++ ['}', '}'])) ++ ['\n'] := by
      simp
    rw [hshape, ← hlen2, List.drop_left]
    decide
  · rw [hregroup, ← hlen1, List.drop_left]

theorem balancedAux_opn (ns : List Str) (sig : Char) (n : Str) (ts : List Tok) :
    balancedAux ns (.opn sig n :: ts) = balancedAux (n :: ns) ts := by
  cases ns <;> rfl

theorem balancedAux_cls_nil (n : Str) (ts : List Tok) :
    balancedAux [] (.cls n :: ts) = false := rfl

theorem balancedAux_cls_cons (m : Str) (ns : List Str) (n : Str) (ts : List Tok) :
    balancedAux (m :: ns) (.cls n :: ts) =
      if n = m then balancedAux ns ts else false := rfl

theorem balancedAux_cons_nil (n : Str) (ns : List Str) :
    balancedAux (n :: ns) [] = false := rfl

theorem framesMatch_nil_inv {fr : List Frame} (h : framesMatch fr []) :
    ∃ b, fr = [b] ∧ b.start.tt ≠ .blockTag ∧ b.start.tt ≠ .parentTag := by
  match fr with
  | [] => simp [framesMatch] at h
  | [b] => exact ⟨b, rfl, h⟩
  | f :: g :: rest => simp [framesMatch] at h

theorem framesMatch_ne_nil {fr : List Frame} {ns : List Str} (h : framesMatch fr ns) :
    fr ≠ [] := by
  intro hnil
  rw [hnil] at h
  cases ns <;> simp [framesMatch] at h

theorem framesMatch_cons_inv {fr : List Frame} {n : Str} {ns : List Str}
    (h : framesMatch fr (n :: ns)) :
    ∃ f fs, fr = f :: fs ∧
      (f.start.tt = .sectionTag ∨ f.start.tt = .invertedSection) ∧
      f.start.s = n ∧ f.start.indent = [] ∧ framesMatch fs ns := by
  match fr with
  | [] => simp [framesMatch] at h
  | f :: fs =>
    simp only [framesMatch] at h
    exact ⟨f, fs, rfl, h.1, h.2.1, h.2.2.1, h.2.2.2⟩

theorem framesMatch_set_children {g : Frame} {rest : List Frame} {ns : List Str}
    (ch : List Tag) (h : framesMatch (g :: rest) ns) :
    framesMatch ({ g with children := ch } :: rest) ns := by
  cases ns with
  | nil =>
    obtain ⟨b, hb, h1, h2⟩ := framesMatch_nil_inv h
    cases hb
    simp only [framesMatch]
    exact ⟨h1, h2⟩
  | cons n ns2 =>
    obtain ⟨f, fs, hfs, h1, h2, h3, h4⟩ := framesMatch_cons_inv h
    cases hfs
    simp only [framesMatch]
    exact ⟨h1, h2, h3, h4⟩

theorem renderTok_length (t : Tok) : (renderTok t).length = (tokName t).length + 6 := by
  simp [renderTok]

theorem framesMatch_dedent {st : PState} {ns : List Str}
    (h : framesMatch st.stack ns) (s : Str) : dedent st s = s := by
  unfold dedent
  apply dedentFrames_no_block
  intro f hf
  exact framesMatch_no_block st.stack ns h f (List.mem_reverse.mp hf)

theorem parseToks : ∀ (ts : List Tok) (ns : List Str) (st : PState) (fuel : Nat),
    (∀ t ∈ ts, goodTok t = true) →
    st.sd = ['{', '{'] → st.ed = ['}', '}'] →
    framesMatch st.stack ns →
    (renderToks ts).length + 1 ≤ fuel →
    (balancedAux ns ts = true → ∃ tags, parseLines fuel st (renderToks ts) = .ok tags) ∧
    (balancedAux ns ts = false → ∃ e, parseLines fuel st (renderToks ts) = .error e) := by
  intro ts
  induction ts with
  | nil =>
    intro ns st fuel hgood hsd hed hfm hfuel
    obtain ⟨k, rfl⟩ : ∃ k, fuel = k + 1 := ⟨fuel - 1, by omega⟩
    rw [show renderToks [] = [] from rfl]
    rw [parseLines]
    rw [if_pos rfl]
    cases ns with
    | nil =>
      obtain ⟨b, hb, _, _⟩ := framesMatch_nil_inv hfm
      rw [hb]
      refine ⟨fun _ => ⟨b.children, rfl⟩, fun hfalse => ?_⟩
      rw [show balancedAux [] [] = true from rfl] at hfalse
      cases hfalse
    | cons n ns2 =>
      obtain ⟨f, fs, hfs, _, _, _, hfm2⟩ := framesMatch_cons_inv hfm
      obtain ⟨g, rest, rfl⟩ : ∃ g rest, fs = g :: rest := by
        cases fs with
        | nil => exact absurd hfm2 (by simp [framesMatch])
        | cons g r => exact ⟨g, r, rfl⟩
      rw [hfs]
      refine ⟨fun htrue => ?_, fun _ => ⟨.unclosedAtEof f.start.s, rfl⟩⟩
      rw [balancedAux_cons_nil] at htrue
      cases htrue
  | cons t ts ih =>
    intro ns st fuel hgood hsd hed hfm hfuel
    have hgt := hgood t (by simp)
    have hgrest : ∀ x ∈ ts, goodTok x = true := fun x hx => hgood x (by simp [hx])
    obtain ⟨k, rfl⟩ : ∃ k, fuel = k + 1 := ⟨fuel - 1, by omega⟩
    have hkfuel : (renderToks ts).length + 1 ≤ k := by
      rw [show renderToks (t :: ts) = renderTok t ++ renderToks ts from rfl] at hfuel
      rw [List.length_append, renderTok_length] at hfuel
      omega
    have hne : renderTok t ++ renderToks ts ≠ [] := by
      cases t <;> simp [renderTok]
    have hded : dedent st (renderTok t ++ renderToks ts) =
        renderTok t ++ renderToks ts := framesMatch_dedent hfm _
    rw [show renderToks (t :: ts) = renderTok t ++ renderToks ts from rfl]
    cases t with
    | opn sig n =>
      have hsig : sig = '#' ∨ sig = '^' := by
        unfold goodTok at hgt
        rw [Bool.and_eq_true, Bool.or_eq_true] at hgt
        rcases hgt.1 with h | h
        · exact Or.inl (by simpa using h)
        · exact Or.inr (by simpa using h)
      have hgn : goodName n = true := by
        unfold goodTok at hgt
        rw [Bool.and_eq_true] at hgt
        exact hgt.2
      have hform : renderTok (Tok.opn sig n) ++ renderToks ts =
          '{' :: '{' :: sig :: n ++ '}' :: '}' :: '\n' :: renderToks ts := by
        simp [renderTok, tokSigil, tokName]
      rw [hform] at hded hne ⊢
      rcases hsig with rfl | rfl
      · obtain ⟨hinl, hfind, hcut, hnl, hck, htrail, hdrop⟩ :=
          @tok_line_facts '#' n (renderToks ts)
            (by decide) (by decide) (by decide) (by decide) (by decide) (by decide) hgn
        have hfind' : strIndex (('{' :: '{' :: '#' :: n ++ '}' :: '}' :: '\n' ::
            renderToks ts).take (indexNextLine ('{' :: '{' :: '#' :: n ++ '}' :: '}' ::
            '\n' :: renderToks ts))) st.sd = some 0 := by
          rw [hsd, hinl]; exact hfind
        have hcut' : cutTag ('{' :: '{' :: '#' :: n ++ '}' :: '}' :: '\n' ::
            renderToks ts) 0 st.sd st.ed = .ok ⟨some '#', n, n.length + 5⟩ := by
          rw [hsd, hed]; exact hcut
        have hlead' : isSpace (substr ('{' :: '{' :: '#' :: n ++ '}' :: '}' :: '\n' ::
            renderToks ts) 0 0) = true := by
          rw [substr_self_nil]; rfl
        have htrail' : isSpace (substr ('{' :: '{' :: '#' :: n ++ '}' :: '}' :: '\n' ::
            renderToks ts) (n.length + 5) (indexNextLine ('{' :: '{' :: '#' :: n ++
            '}' :: '}' :: '\n' :: renderToks ts))) = true := by
          rw [hinl]; exact htrail
        have hline := parseLine_standalone_section hfind' hcut' hnl hck hlead' htrail'
        rw [hinl] at hline
        have hstep := parseLines_step k st
          { newScope st (tagOf .sectionTag n) with
            lineno := (newScope st (tagOf .sectionTag n)).lineno + 1 }
          ('{' :: '{' :: '#' :: n ++ '}' :: '}' :: '\n' :: renderToks ts)
          (renderToks ts) (newScope st (tagOf .sectionTag n)) (n.length + 6)
          hne (by rw [hded]; exact hline) rfl (by rw [hded]; exact hdrop)
        rw [hstep]
        rw [balancedAux_opn]
        refine ih (n :: ns) _ k hgrest (by simp [newScope, hsd]) (by simp [newScope, hed])
          ?_ hkfuel
        simp only [newScope, framesMatch]
        exact ⟨Or.inl rfl, rfl, rfl, hfm⟩
      · obtain ⟨hinl, hfind, hcut, hnl, hck, htrail, hdrop⟩ :=
          @tok_line_facts '^' n (renderToks ts)
            (by decide) (by decide) (by decide) (by decide) (by decide) (by decide) hgn
        have hfind' : strIndex (('{' :: '{' :: '^' :: n ++ '}' :: '}' :: '\n' ::
            renderToks ts).take (indexNextLine ('{' :: '{' :: '^' :: n ++ '}' :: '}' ::
            '\n' :: renderToks ts))) st.sd = some 0 := by
          rw [hsd, hinl]; exact hfind
        have hcut' : cutTag ('{' :: '{' :: '^' :: n ++ '}' :: '}' :: '\n' ::
            renderToks ts) 0 st.sd st.ed = .ok ⟨some '^', n, n.length + 5⟩ := by
          rw [hsd, hed]; exact hcut
        have hlead' : isSpace (substr ('{' :: '{' :: '^' :: n ++ '}' :: '}' :: '\n' ::
            renderToks ts) 0 0) = true := by
          rw [substr_self_nil]; rfl
        have htrail' : isSpace (substr ('{' :: '{' :: '^' :: n ++ '}' :: '}' :: '\n' ::
            renderToks ts) (n.length + 5) (indexNextLine ('{' :: '{' :: '^' :: n ++
            '}' :: '}' :: '\n' :: renderToks ts))) = true := by
          rw [hinl]; exact htrail
        have hline := parseLine_standalone_inverted hfind' hcut' hnl hck hlead' htrail'
        rw [hinl] at hline
        have hstep := parseLines_step k st
          { newScope st (tagOf .invertedSection n) with
            lineno := (newScope st (tagOf .invertedSection n)).lineno + 1 }
          ('{' :: '{' :: '^' :: n ++ '}' :: '}' :: '\n' :: renderToks ts)
          (renderToks ts) (newScope st (tagOf .invertedSection n)) (n.length + 6)
          hne (by rw [hded]; exact hline) rfl (by rw [hded]; exact hdrop)
        rw [hstep]
        rw [balancedAux_opn]
        refine ih (n :: ns) _ k hgrest (by simp [newScope, hsd]) (by simp [newScope, hed])
          ?_ hkfuel
        simp only [newScope, framesMatch]
        exact ⟨Or.inr rfl, rfl, rfl, hfm⟩
    | cls n =>
      have hgn : goodName n = true := hgt
      have hform : renderTok (Tok.cls n) ++ renderToks ts =
          '{' :: '{' :: '/' :: n ++ '}' :: '}' :: '\n' :: renderToks ts := by
        simp [renderTok, tokSigil, tokName]
      rw [hform] at hded hne ⊢
      obtain ⟨hinl, hfind, hcut, hnl, hck, htrail, hdrop⟩ :=
        @tok_line_facts '/' n (renderToks ts)
          (by decide) (by decide) (by decide) (by decide) (by decide) (by decide) hgn
      have hfind' : strIndex (('{' :: '{' :: '/' :: n ++ '}' :: '}' :: '\n' ::
          renderToks ts).take (indexNextLine ('{' :: '{' :: '/' :: n ++ '}' :: '}' ::
          '\n' :: renderToks ts))) st.sd = some 0 := by
        rw [hsd, hinl]; exact hfind
      have hcut' : cutTag ('{' :: '{' :: '/' :: n ++ '}' :: '}' :: '\n' ::
          renderToks ts) 0 st.sd st.ed = .ok ⟨some '/', n, n.length + 5⟩ := by
        rw [hsd, hed]; exact hcut
      have hlead' : isSpace (substr ('{' :: '{' :: '/' :: n ++ '}' :: '}' :: '\n' ::
          renderToks ts) 0 0) = true := by
        rw [substr_self_nil]; rfl
      have htrail' : isSpace (substr ('{' :: '{' :: '/' :: n ++ '}' :: '}' :: '\n' ::
          renderToks ts) (n.length + 5) (indexNextLine ('{' :: '{' :: '/' :: n ++
          '}' :: '}' :: '\n' :: renderToks ts))) = true := by
        rw [hinl]; exact htrail
      cases ns with
      | nil =>
        obtain ⟨b, hb, _, _⟩ := framesMatch_nil_inv hfm
        have hline := parseLine_close_unopened hb hfind' hcut' hnl hck hlead' htrail'
        have hstep := parseLines_error_step k st
          ('{' :: '{' :: '/' :: n ++ '}' :: '}' :: '\n' :: renderToks ts)
          (.closeWithoutOpening n) hne (by rw [hded]; exact hline)
        rw [hstep]
        refine ⟨fun htrue => ?_, fun _ => ⟨_, rfl⟩⟩
        rw [balancedAux_cls_nil] at htrue
        cases htrue
      | cons m ns2 =>
        obtain ⟨f, fs, hffs, htt0, hfnm, hind, hfm2⟩ := framesMatch_cons_inv hfm
        obtain ⟨g, rest, rfl⟩ : ∃ g rest, fs = g :: rest := by
          cases fs with
          | nil => exact absurd hfm2 (by simp [framesMatch])
          | cons g r => exact ⟨g, r, rfl⟩
        have htt : f.start.tt ≠ TagType.parentTag := by
          rcases htt0 with h | h <;> simp [h]
        by_cases hnm : n = m
        · have hkey : n = f.start.s := by rw [hfnm]; exact hnm
          have hline := parseLine_standalone_close hffs htt hkey hfind' hcut' hnl hck
            hlead' htrail'
          rw [hinl] at hline
          have hclose : (closeScope st).stack =
              { g with children := g.children ++ [{ f.start with body := f.children }] } ::
                rest := by
            unfold closeScope
            rw [hffs]
          have hstep := parseLines_step k st
            { closeScope st with lineno := (closeScope st).lineno + 1 }
            ('{' :: '{' :: '/' :: n ++ '}' :: '}' :: '\n' :: renderToks ts)
            (renderToks ts) (closeScope st) (n.length + 6)
            hne (by rw [hded]; exact hline) rfl (by rw [hded]; exact hdrop)
          rw [hstep]
          rw [balancedAux_cls_cons, if_pos hnm]
          refine ih ns2 _ k hgrest (by simp [closeScope_sd, hsd])
            (by simp [closeScope_ed, hed]) ?_ hkfuel
          show framesMatch (closeScope st).stack ns2
          rw [hclose]
          exact framesMatch_set_children _ hfm2
        · have hkey : n ≠ f.start.s := by rw [hfnm]; exact hnm
          have hline := parseLine_close_mismatch hffs htt hkey hfind' hcut' hnl hck
            hlead' htrail'
          have hstep := parseLines_error_step k st
            ('{' :: '{' :: '/' :: n ++ '}' :: '}' :: '\n' :: renderToks ts)
            (.mismatchedClose n f.start.s) hne (by rw [hded]; exact hline)
          rw [hstep]
          refine ⟨fun htrue => ?_, fun _ => ⟨_, rfl⟩⟩
          rw [balancedAux_cls_cons, if_neg hnm] at htrue
          cases htrue

/-- **Counterexample to C4 as stated.** The template `"\x7b\x7b"` contains no
scope tag at all — no section, inverted-section, block, parent or close sigil
occurs anywhere in it — yet `parse` returns an error (the lexical error
`unclosedTag`). Hence `parse` failing is not equivalent to the presence of an
unmatched or mismatched scope tag. -/
theorem c4_balanced_scopes_counterexample :
    parse (ofString "\x7b\x7b") = .error .unclosedTag ∧
      ∀ c ∈ ofString "\x7b\x7b", c ≠ '#' ∧ c ≠ '^' ∧ c ≠ '$' ∧ c ≠ '<' ∧ c ≠ '/' :=
  ⟨by decide, by decide⟩

/-- C4 (amended): the balanced-scope law holds for scope errors, over
templates made of well-formed scope-tag lines: for every stream of section or
inverted-section open tokens and close tokens with well-formed names, rendered
one standalone tag per line, `parse` succeeds if and only if the stream is
balanced (each close matches the innermost open name, and no scope is left
open at the end). In general `parse` can also fail for purely lexical reasons
(e.g. an unclosed tag), so the original iff holds only once lexical
well-formedness is assumed. -/
theorem c4_balanced_scopes (ts : List Tok) (h : ∀ t ∈ ts, goodTok t = true) :
    (∃ tags, parse (renderToks ts) = .ok tags) ↔ balanced ts = true := by
  have hfm : framesMatch initState.stack [] := by
    simp only [initState, framesMatch]
    exact ⟨by decide, by decide⟩
  have hres := parseToks ts [] initState ((renderToks ts).length + 1) h rfl rfl hfm
    (le_refl _)
  constructor
  · rintro ⟨tags, hok⟩
    by_contra hfalse
    have hbf : balancedAux [] ts = false := by
      have hne : balancedAux [] ts ≠ true := hfalse
      exact Bool.eq_false_iff.mpr hne
    obtain ⟨e, herr⟩ := hres.2 hbf
    rw [show parse (renderToks ts) =
      parseLines ((renderToks ts).length + 1) initState (renderToks ts) from rfl] at hok
    rw [herr] at hok
    cases hok
  · intro htrue
    obtain ⟨tags, hok⟩ := hres.1 htrue
    exact ⟨tags, hok⟩

theorem c4_balanced_scopes_wit :
    ((∃ tags, parse (renderToks [Tok.opn '#' (ofString "a"), Tok.cls (ofString "a")]) =
        .ok tags) ↔
      balanced [Tok.opn '#' (ofString "a"), Tok.cls (ofString "a")] = true) ∧
    ((∃ tags, parse (renderToks [Tok.opn '#' (ofString "a"), Tok.cls (ofString "b")]) =
        .ok tags) ↔
      balanced [Tok.opn '#' (ofString "a"), Tok.cls (ofString "b")] = true) :=
  ⟨c4_balanced_scopes [Tok.opn '#' (ofString "a"), Tok.cls (ofString "a")] (by decide),
    c4_balanced_scopes [Tok.opn '#' (ofString "a"), Tok.cls (ofString "b")] (by decide)⟩

/-! ## The partial gatherers of `compileGo` and `compileJS` -/

/-- `walkTags` from the source: all tags of the list in pre-order
(each tag before its body). -/
def walkTags : List Tag → List Tag
  | [] => []
  | t :: ts => walkOne t ++ walkTags ts
where
  /-- One tag followed by its body's pre-order walk. -/
  walkOne : Tag → List Tag
  | ⟨tt, s, ind, body⟩ => ⟨tt, s, ind, body⟩ :: walkTags body

/-- `slices.EqualFunc(a, b, tagsEqual)` decides equality of tag lists. -/
theorem tagListEqual_iff (a b : List Tag) :
    tagsEqual.tagListEqual a b = true ↔ a = b :=
  tagListEqual_iff_of (fun t _ u => tagsEqual_iff t u) b

/-- `indent` from the source: prefix every line of `s` with `ind`
(the loop body, fueled; one fuel unit per line). -/
def indentLoop (ind : Str) : Nat → Str → Str
  | 0, _ => []
  | fuel + 1, s =>
    match s.findIdx? (fun c => c == '\n') with
    | none => ind ++ s
    | some e =>
      let eol := e + 1
      let line := s.take eol
      if eol = s.length then ind ++ line
      else ind ++ line ++ indentLoop ind fuel (s.drop eol)

/-- `indent` from the source: the empty indent returns `s` unchanged. -/
def indentSource (s ind : Str) : Str :=
  if ind = [] then s else indentLoop ind (s.length + 1) s

/-- The state of `compileGo`'s `gatherPartials` closure: the distinct parsed
partial trees in first-encounter order, the name-keyed function table (most
recent first, mapping to the index in `partials`), and the ghost trace of
loader invocations in order. -/
structure GatherStateGo where
  partials : List (List Tag)
  funcNames : List (Str × Nat)
  loads : List Str
  deriving DecidableEq, Repr

/-- The state of `compileJS`'s `gatherPartials` closure: as for Go, but the
function table is keyed by the pair of partial name and indentation
(`partialKey`). `sourceCache` is declared in the source but never written, so
every cache lookup misses and it carries no state. -/
structure GatherStateJS where
  partials : List (List Tag)
  funcNames : List ((Str × Str) × Nat)
  loads : List Str
  deriving DecidableEq, Repr

/-- `partialFuncNames[t.s] != ""` in `compileGo`: the name has an entry. -/
def lookupGo (m : List (Str × Nat)) (k : Str) : Option Nat :=
  (m.find? (fun p => p.1 == k)).map (·.2)

/-- `partialFuncNames[k] != ""` in `compileJS`: the key has an entry. -/
def lookupJS (m : List ((Str × Str) × Nat)) (k : Str × Str) : Option Nat :=
  (m.find? (fun p => p.1 == k)).map (·.2)

/-- `slices.IndexFunc(partials, ...)`: index of the first tree equal to `pt`. -/
def idxOfEquiv (partials : List (List Tag)) (pt : List Tag) : Option Nat :=
  partials.findIdx? (fun p => tagsEqual.tagListEqual pt p)

/-- The loop of `compileGo`'s `gatherPartials` over the pre-order worklist:
a Partial or Parent tag whose name has no entry yet is loaded, parsed,
deduplicated against `partials`, recorded under its name, and its own tags
are walked before the rest (the source recurses before continuing the loop). -/
def gatherGoLoop (load : Str → Str) :
    Nat → GatherStateGo → List Tag → Except ParseErr GatherStateGo
  | 0, _, _ => .error .outOfFuel
  | _ + 1, st, [] => .ok st
  | fuel + 1, st, t :: rest =>
    if t.tt = .partialTag ∨ t.tt = .parentTag then
      match lookupGo st.funcNames t.s with
      | some _ => gatherGoLoop load fuel st rest
      | none =>
        match parse (load t.s) with
        | .error e => .error e
        | .ok partialTags =>
          match idxOfEquiv st.partials partialTags with
          | some i =>
            gatherGoLoop load fuel
              ⟨st.partials, (t.s, i) :: st.funcNames, st.loads ++ [t.s]⟩
              (walkTags partialTags ++ rest)
          | none =>
            gatherGoLoop load fuel
              ⟨st.partials ++ [partialTags], (t.s, st.partials.length) :: st.funcNames,
                st.loads ++ [t.s]⟩
              (walkTags partialTags ++ rest)
    else gatherGoLoop load fuel st rest

/-- The loop of `compileJS`'s `gatherPartials`: as for Go, but keyed by the
(name, indent) pair, with the loaded source re-indented before parsing, and —
because `sourceCache` is never written — the loader invoked on every miss of
the (name, indent) table, even for an already-loaded name. -/
def gatherJSLoop (load : Str → Str) :
    Nat → GatherStateJS → List Tag → Except ParseErr GatherStateJS
  | 0, _, _ => .error .outOfFuel
  | _ + 1, st, [] => .ok st
  | fuel + 1, st, t :: rest =>
    if t.tt = .partialTag ∨ t.tt = .parentTag then
      match lookupJS st.funcNames (t.s, t.indent) with
      | some _ => gatherJSLoop load fuel st rest
      | none =>
        match parse (indentSource (load t.s) t.indent) with
        | .error e => .error e
        | .ok partialTags =>
          match idxOfEquiv st.partials partialTags with
          | some i =>
            gatherJSLoop load fuel
              ⟨st.partials, ((t.s, t.indent), i) :: st.funcNames, st.loads ++ [t.s]⟩
              (walkTags partialTags ++ rest)
          | none =>
            gatherJSLoop load fuel
              ⟨st.partials ++ [partialTags],
                ((t.s, t.indent), st.partials.length) :: st.funcNames,
                st.loads ++ [t.s]⟩
              (walkTags partialTags ++ rest)
    else gatherJSLoop load fuel st rest

/-- `compileGo`'s partial resolution pass, started on the template's tags. -/
def gatherGo (load : Str → Str) (tags : List Tag) (fuel : Nat) :
    Except ParseErr GatherStateGo :=
  gatherGoLoop load fuel ⟨[], [], []⟩ (walkTags tags)

/-- `compileJS`'s partial resolution pass, started on the template's tags. -/
def gatherJS (load : Str → Str) (tags : List Tag) (fuel : Nat) :
    Except ParseErr GatherStateJS :=
  gatherJSLoop load fuel ⟨[], [], []⟩ (walkTags tags)


theorem findIdx?_spec {α : Type} {p : α → Bool} {l : List α} {i : Nat}
    (h : l.findIdx? p = some i) :
    ∃ hi : i < l.length, p (l.get ⟨i, hi⟩) = true := by
  rw [List.findIdx?_eq_some_iff_findIdx_eq] at h
  obtain ⟨hlen, hfi⟩ := h
  exact ⟨hlen, ((List.findIdx_eq hlen).mp hfi).1⟩

theorem lookupGo_none {m : List (Str × Nat)} {k : Str} (h : lookupGo m k = none) :
    k ∉ m.map Prod.fst := by
  unfold lookupGo at h
  rw [Option.map_eq_none', List.find?_eq_none] at h
  intro hm
  obtain ⟨kv, hkv, hfst⟩ := List.mem_map.mp hm
  have := h kv hkv
  rw [hfst] at this
  simp at this

theorem lookupJS_none {m : List ((Str × Str) × Nat)} {k : Str × Str}
    (h : lookupJS m k = none) : k ∉ m.map Prod.fst := by
  unfold lookupJS at h
  rw [Option.map_eq_none', List.find?_eq_none] at h
  intro hm
  obtain ⟨kv, hkv, hfst⟩ := List.mem_map.mp hm
  have := h kv hkv
  rw [hfst] at this
  simp at this

theorem idxOfEquiv_some {partials : List (List Tag)} {pt : List Tag} {i : Nat}
    (h : idxOfEquiv partials pt = some i) : partials[i]? = some pt := by
  unfold idxOfEquiv at h
  obtain ⟨hi, hsat⟩ := findIdx?_spec h
  rw [tagListEqual_iff] at hsat
  rw [List.getElem?_eq_getElem hi]
  rw [hsat]
  rfl

theorem idxOfEquiv_none {partials : List (List Tag)} {pt : List Tag}
    (h : idxOfEquiv partials pt = none) : pt ∉ partials := by
  unfold idxOfEquiv at h
  rw [List.findIdx?_eq_none_iff] at h
  intro hm
  have := h pt hm
  rw [(tagListEqual_iff pt pt).mpr rfl] at this
  cases this

/-- Invariant of the Go gatherer: the loader trace has no repeats, the
function table's keys are exactly the loaded names (latest first), the
deduplicated tree list has no repeats, and every table entry maps its name
to the index of that name's parsed tree. -/
def InvGo (load : Str → Str) (st : GatherStateGo) : Prop :=
  st.loads.Nodup ∧
  st.funcNames.map Prod.fst = st.loads.reverse ∧
  st.partials.Nodup ∧
  ∀ kv ∈ st.funcNames, ∃ tr, st.partials[kv.2]? = some tr ∧ parse (load kv.1) = .ok tr

/-- Invariant of the JS gatherer: the (name, indent) keys have no repeats,
the loader trace lists exactly the keys' names (in load order), the tree
list has no repeats, and every table entry maps its key to the index of the
tree parsed from the re-indented load of its name. -/
def InvJS (load : Str → Str) (st : GatherStateJS) : Prop :=
  (st.funcNames.map Prod.fst).Nodup ∧
  st.funcNames.map (fun kv => kv.1.1) = st.loads.reverse ∧
  st.partials.Nodup ∧
  ∀ kv ∈ st.funcNames, ∃ tr, st.partials[kv.2]? = some tr ∧
    parse (indentSource (load kv.1.1) kv.1.2) = .ok tr

theorem gatherGoLoop_inv (load : Str → Str) : ∀ (fuel : Nat) (ws : List Tag)
    (st st' : GatherStateGo), InvGo load st →
    gatherGoLoop load fuel st ws = .ok st' → InvGo load st' := by
  intro fuel
  induction fuel with
  | zero => intro ws st st' _ h; cases h
  | succ k ih =>
    intro ws st st' hinv h
    cases ws with
    | nil =>
      rw [gatherGoLoop] at h
      cases h
      exact hinv
    | cons t rest =>
      rw [gatherGoLoop] at h
      by_cases htt : t.tt = .partialTag ∨ t.tt = .parentTag
      · rw [if_pos htt] at h
        cases hlk : lookupGo st.funcNames t.s with
        | some i =>
          rw [hlk] at h
          exact ih rest st st' hinv h
        | none =>
          rw [hlk] at h
          dsimp only at h
          cases hp : parse (load t.s) with
          | error e => rw [hp] at h; cases h
          | ok pt =>
            rw [hp] at h
            dsimp only at h
            have hnotmem : t.s ∉ st.funcNames.map Prod.fst := lookupGo_none hlk
            have hnotloads : t.s ∉ st.loads := by
              intro hm
              exact hnotmem (by rw [hinv.2.1]; exact List.mem_reverse.mpr hm)
            have hloads' : (st.loads ++ [t.s]).Nodup := by
              rw [List.nodup_append]
              exact ⟨hinv.1, List.nodup_singleton _,
                by simpa [List.disjoint_singleton] using hnotloads⟩
            cases hidx : idxOfEquiv st.partials pt with
            | some i =>
              rw [hidx] at h
              dsimp only at h
              refine ih _ _ _ ?_ h
              refine ⟨hloads', ?_, hinv.2.2.1, ?_⟩
              · simp only [List.map_cons, hinv.2.1, List.reverse_append,
                  List.reverse_singleton]
                rfl
              · intro kv hkv
                rcases List.mem_cons.mp hkv with rfl | hm
                · exact ⟨pt, idxOfEquiv_some hidx, hp⟩
                · exact hinv.2.2.2 kv hm
            | none =>
              rw [hidx] at h
              dsimp only at h
              refine ih _ _ _ ?_ h
              have hptnot : pt ∉ st.partials := idxOfEquiv_none hidx
              refine ⟨hloads', ?_, ?_, ?_⟩
              · simp only [List.map_cons, hinv.2.1, List.reverse_append,
                  List.reverse_singleton]
                rfl
              · rw [List.nodup_append]
                exact ⟨hinv.2.2.1, List.nodup_singleton _,
                  by simpa [List.disjoint_singleton] using hptnot⟩
              · intro kv hkv
                rcases List.mem_cons.mp hkv with rfl | hm
                · refine ⟨pt, ?_, hp⟩
                  rw [List.getElem?_append_right (le_refl _)]
                  simp
                · obtain ⟨tr, htr, hpar⟩ := hinv.2.2.2 kv hm
                  refine ⟨tr, ?_, hpar⟩
                  have hlt : kv.2 < st.partials.length := by
                    by_contra hge
                    rw [List.getElem?_eq_none (by omega)] at htr
                    cases htr
                  rw [List.getElem?_append_left hlt]
                  exact htr
      · rw [if_neg htt] at h
        exact ih rest st st' hinv h

theorem gatherJSLoop_inv (load : Str → Str) : ∀ (fuel : Nat) (ws : List Tag)
    (st st' : GatherStateJS), InvJS load st →
    gatherJSLoop load fuel st ws = .ok st' → InvJS load st' := by
  intro fuel
  induction fuel with
  | zero => intro ws st st' _ h; cases h
  | succ k ih =>
    intro ws st st' hinv h
    cases ws with
    | nil =>
      rw [gatherJSLoop] at h
      cases h
      exact hinv
    | cons t rest =>
      rw [gatherJSLoop] at h
      by_cases htt : t.tt = .partialTag ∨ t.tt = .parentTag
      · rw [if_pos htt] at h
        cases hlk : lookupJS st.funcNames (t.s, t.indent) with
        | some i =>
          rw [hlk] at h
          exact ih rest st st' hinv h
        | none =>
          rw [hlk] at h
          dsimp only at h
          cases hp : parse (indentSource (load t.s) t.indent) with
          | error e => rw [hp] at h; cases h
          | ok pt =>
            rw [hp] at h
            dsimp only at h
            have hnotmem : (t.s, t.indent) ∉ st.funcNames.map Prod.fst :=
              lookupJS_none hlk
            have hkeys' : ((t.s, t.indent) :: st.funcNames.map Prod.fst).Nodup := by
              rw [List.nodup_cons]
              exact ⟨hnotmem, hinv.1⟩
            have hnames' : ∀ (i : Nat),
                (((t.s, t.indent), i) :: st.funcNames).map (fun kv => kv.1.1) =
                  (st.loads ++ [t.s]).reverse := by
              intro i
              simp only [List.map_cons, hinv.2.1, List.reverse_append,
                List.reverse_singleton]
              rfl
            cases hidx : idxOfEquiv st.partials pt with
            | some i =>
              rw [hidx] at h
              dsimp only at h
              refine ih _ _ _ ?_ h
              refine ⟨hkeys', hnames' i, hinv.2.2.1, ?_⟩
              intro kv hkv
              rcases List.mem_cons.mp hkv with rfl | hm
              · exact ⟨pt, idxOfEquiv_some hidx, hp⟩
              · exact hinv.2.2.2 kv hm
            | none =>
              rw [hidx] at h
              dsimp only at h
              refine ih _ _ _ ?_ h
              have hptnot : pt ∉ st.partials := idxOfEquiv_none hidx
              refine ⟨hkeys', hnames' st.partials.length, ?_, ?_⟩
              · rw [List.nodup_append]
                exact ⟨hinv.2.2.1, List.nodup_singleton _,
                  by simpa [List.disjoint_singleton] using hptnot⟩
              · intro kv hkv
                rcases List.mem_cons.mp hkv with rfl | hm
                · refine ⟨pt, ?_, hp⟩
                  rw [List.getElem?_append_right (le_refl _)]
                  simp
                · obtain ⟨tr, htr, hpar⟩ := hinv.2.2.2 kv hm
                  refine ⟨tr, ?_, hpar⟩
                  have hlt : kv.2 < st.partials.length := by
                    by_contra hge
                    rw [List.getElem?_eq_none (by omega)] at htr
                    cases htr
                  rw [List.getElem?_append_left hlt]
                  exact htr
      · rw [if_neg htt] at h
        exact ih rest st st' hinv h

/-- The parse tree of the C7 counterexample template: two standalone partial
tags naming the same partial `p` at different indentation. -/
def c7Tags : List Tag :=
  [⟨.partialTag, ['p'], [], []⟩, ⟨.partialTag, ['p'], [' ', ' '], []⟩]

/-- Parser state after line 1 of the C7 counterexample (line number pending). -/
def c7StateMid1 : PState :=
  ⟨[⟨⟨.literal, [], [], []⟩, 0, false, [⟨.partialTag, ['p'], [], []⟩]⟩],
   ['{', '{'], ['}', '}'], 1⟩

/-- Parser state entering line 2 of the C7 counterexample. -/
def c7State1 : PState :=
  ⟨[⟨⟨.literal, [], [], []⟩, 0, false, [⟨.partialTag, ['p'], [], []⟩]⟩],
   ['{', '{'], ['}', '}'], 2⟩

/-- Parser state after line 2 of the C7 counterexample (line number pending). -/
def c7StateMid2 : PState :=
  ⟨[⟨⟨.literal, [], [], []⟩, 0, false, c7Tags⟩], ['{', '{'], ['}', '}'], 2⟩

/-- Parser state entering the (empty) rest of the C7 counterexample. -/
def c7State2 : PState :=
  ⟨[⟨⟨.literal, [], [], []⟩, 0, false, c7Tags⟩], ['{', '{'], ['}', '}'], 3⟩

set_option maxHeartbeats 1600000 in
/-- **Counterexample to C7 as stated.** The template
`"\x7b\x7b>p\x7d\x7d\n  \x7b\x7b>p\x7d\x7d\n"` references exactly one distinct
partial name, `p`, from two call sites at different indentation. The JS
backend's resolver keys its function table by the (name, indent) pair, and its
`sourceCache` is never written, so the loader is invoked twice for the single
distinct name `p` — its invocation trace `[p, p]` has a repeat — refuting
"exactly once per distinct partial name". -/
theorem c7_loader_once_counterexample :
    parse (ofString "\x7b\x7b>p\x7d\x7d\n  \x7b\x7b>p\x7d\x7d\n") = .ok c7Tags ∧
      (∀ t ∈ walkTags c7Tags, t.s = ofString "p") ∧
      gatherJS (fun _ => []) c7Tags 10 =
        .ok ⟨[[], [⟨.indentPoint, [], [], []⟩, ⟨.literal, [' ', ' '], [], []⟩]],
          [((['p'], [' ', ' ']), 1), ((['p'], []), 0)], [['p'], ['p']]⟩ ∧
      ¬ ([['p'], ['p']] : List Str).Nodup := by
  refine ⟨?_, by decide, by decide, by decide⟩
  have h0 : parse (ofString "\x7b\x7b>p\x7d\x7d\n  \x7b\x7b>p\x7d\x7d\n") =
      parseLines 17 initState (ofString "\x7b\x7b>p\x7d\x7d\n  \x7b\x7b>p\x7d\x7d\n") := rfl
  have h1 : parseLines 17 initState (ofString "\x7b\x7b>p\x7d\x7d\n  \x7b\x7b>p\x7d\x7d\n") =
      parseLines 16 c7State1 (ofString "  \x7b\x7b>p\x7d\x7d\n") :=
    parseLines_step 16 initState c7State1 _ (ofString "  \x7b\x7b>p\x7d\x7d\n")
      c7StateMid1 7 (by decide) (by decide) (by decide) (by decide)
  have h2 : parseLines 16 c7State1 (ofString "  \x7b\x7b>p\x7d\x7d\n") =
      parseLines 15 c7State2 [] :=
    parseLines_step 15 c7State1 c7State2 _ [] c7StateMid2 9
      (by decide) (by decide) (by decide) (by decide)
  have h3 : parseLines 15 c7State2 [] = .ok c7Tags := by decide
  rw [h0, h1, h2, h3]

/-- C7 (amended): loader invocation discipline of the partial resolvers. The
Go backend's resolver keys its function table by partial name: over any run
that succeeds, the loader invocation trace has no repeated name, and the
names in the function table are exactly the loaded names. The JS backend's
resolver keys its table by the (name, indent) pair and its `sourceCache` is
never populated, so the loader is invoked exactly once per distinct
(name, indent) pair — which can invoke the loader several times for one
distinct name (see the counterexample); its table keys have no repeats and
list exactly the loaded names in order. -/
theorem c7_loader_invocations :
    (∀ (load : Str → Str) (tags : List Tag) (fuel : Nat) (st : GatherStateGo),
      gatherGo load tags fuel = .ok st →
      st.loads.Nodup ∧ st.funcNames.map Prod.fst = st.loads.reverse ∧
        ∀ kv ∈ st.funcNames, ∃ tr, st.partials[kv.2]? = some tr ∧
          parse (load kv.1) = .ok tr) ∧
    (∀ (load : Str → Str) (tags : List Tag) (fuel : Nat) (st : GatherStateJS),
      gatherJS load tags fuel = .ok st →
      (st.funcNames.map Prod.fst).Nodup ∧
        st.funcNames.map (fun kv => kv.1.1) = st.loads.reverse ∧
        ∀ kv ∈ st.funcNames, ∃ tr, st.partials[kv.2]? = some tr ∧
          parse (indentSource (load kv.1.1) kv.1.2) = .ok tr) := by
  constructor
  · intro load tags fuel st h
    have hinv0 : InvGo load ⟨[], [], []⟩ := by
      refine ⟨List.nodup_nil, rfl, List.nodup_nil, ?_⟩
      intro kv hkv
      cases hkv
    have := gatherGoLoop_inv load fuel (walkTags tags) _ st hinv0 h
    exact ⟨this.1, this.2.1, this.2.2.2⟩
  · intro load tags fuel st h
    have hinv0 : InvJS load ⟨[], [], []⟩ := by
      refine ⟨List.nodup_nil, rfl, List.nodup_nil, ?_⟩
      intro kv hkv
      cases hkv
    have := gatherJSLoop_inv load fuel (walkTags tags) _ st hinv0 h
    exact ⟨this.1, this.2.1, this.2.2.2⟩

theorem c7_loader_invocations_wit :
    (([['p']] : List Str).Nodup ∧
      ([(['p'], 0)] : List (Str × Nat)).map Prod.fst = ([['p']] : List Str).reverse ∧
      ∀ kv ∈ ([(['p'], 0)] : List (Str × Nat)),
        ∃ tr, (GatherStateGo.mk [[]] [(['p'], 0)] [['p']]).partials[kv.2]? = some tr ∧
          parse ((fun _ => []) kv.1) = .ok tr) ∧
    ((([((['p'], [' ', ' ']), 1), ((['p'], []), 0)] :
        List ((Str × Str) × Nat)).map Prod.fst).Nodup ∧
      ([((['p'], [' ', ' ']), 1), ((['p'], []), 0)] :
        List ((Str × Str) × Nat)).map (fun kv => kv.1.1) =
        ([['p'], ['p']] : List Str).reverse ∧
      ∀ kv ∈ ([((['p'], [' ', ' ']), 1), ((['p'], []), 0)] : List ((Str × Str) × Nat)),
        ∃ tr, (GatherStateJS.mk
            [[], [⟨.indentPoint, [], [], []⟩, ⟨.literal, [' ', ' '], [], []⟩]]
            [((['p'], [' ', ' ']), 1), ((['p'], []), 0)]
            [['p'], ['p']]).partials[kv.2]? = some tr ∧
          parse (indentSource ((fun _ => []) kv.1.1) kv.1.2) = .ok tr) := by
  constructor
  · have := c7_loader_invocations.1 (fun _ => []) c7Tags 10
      ⟨[[]], [(['p'], 0)], [['p']]⟩ (by decide)
    exact this
  · have := c7_loader_invocations.2 (fun _ => []) c7Tags 10
      ⟨[[], [⟨.indentPoint, [], [], []⟩, ⟨.literal, [' ', ' '], [], []⟩]],
        [((['p'], [' ', ' ']), 1), ((['p'], []), 0)], [['p'], ['p']]⟩ (by decide)
    exact this

/-- C3: partial deduplication via structural equality, in both backends.
Whenever two resolver keys (partial names for Go, (name, indent) pairs for
JS) resolve to parsed trees that `tagsEqual` deems structurally equal, the
two function-table entries carry the same index into the deduplicated tree
list — the generated identifiers (`_T_p<i>` for Go, `p<i>` for JS) coincide —
and that tree occurs exactly once in the list of emitted partial bodies (it
is a member of a duplicate-free list). -/
theorem c3_partial_dedup :
    (∀ (load : Str → Str) (tags : List Tag) (fuel : Nat) (st : GatherStateGo)
      (n1 n2 : Str) (i1 i2 : Nat) (t1 t2 : List Tag),
      gatherGo load tags fuel = .ok st →
      (n1, i1) ∈ st.funcNames → (n2, i2) ∈ st.funcNames →
      parse (load n1) = .ok t1 → parse (load n2) = .ok t2 →
      tagsEqual.tagListEqual t1 t2 = true →
      i1 = i2 ∧ st.partials.Nodup ∧ t1 ∈ st.partials) ∧
    (∀ (load : Str → Str) (tags : List Tag) (fuel : Nat) (st : GatherStateJS)
      (k1 k2 : Str × Str) (i1 i2 : Nat) (t1 t2 : List Tag),
      gatherJS load tags fuel = .ok st →
      (k1, i1) ∈ st.funcNames → (k2, i2) ∈ st.funcNames →
      parse (indentSource (load k1.1) k1.2) = .ok t1 →
      parse (indentSource (load k2.1) k2.2) = .ok t2 →
      tagsEqual.tagListEqual t1 t2 = true →
      i1 = i2 ∧ st.partials.Nodup ∧ t1 ∈ st.partials) := by
  constructor
  · intro load tags fuel st n1 n2 i1 i2 t1 t2 hgather hm1 hm2 hp1 hp2 heq
    have hinv0 : InvGo load ⟨[], [], []⟩ := by
      refine ⟨List.nodup_nil, rfl, List.nodup_nil, ?_⟩
      intro kv hkv
      cases hkv
    have hinv := gatherGoLoop_inv load fuel (walkTags tags) _ st hinv0 hgather
    obtain ⟨tr1, htr1, hpar1⟩ := hinv.2.2.2 (n1, i1) hm1
    obtain ⟨tr2, htr2, hpar2⟩ := hinv.2.2.2 (n2, i2) hm2
    rw [hp1] at hpar1
    rw [hp2] at hpar2
    cases hpar1
    cases hpar2
    rw [tagListEqual_iff] at heq
    subst heq
    have hlt1 : i1 < st.partials.length := by
      by_contra hge
      rw [List.getElem?_eq_none (by omega)] at htr1
      cases htr1
    constructor
    · exact List.getElem?_inj hlt1 hinv.2.2.1 (by rw [htr1, htr2])
    · refine ⟨hinv.2.2.1, ?_⟩
      have := List.getElem?_eq_getElem hlt1
      rw [this] at htr1
      cases htr1
      exact List.getElem_mem hlt1
  · intro load tags fuel st k1 k2 i1 i2 t1 t2 hgather hm1 hm2 hp1 hp2 heq
    have hinv0 : InvJS load ⟨[], [], []⟩ := by
      refine ⟨List.nodup_nil, rfl, List.nodup_nil, ?_⟩
      intro kv hkv
      cases hkv
    have hinv := gatherJSLoop_inv load fuel (walkTags tags) _ st hinv0 hgather
    obtain ⟨tr1, htr1, hpar1⟩ := hinv.2.2.2 (k1, i1) hm1
    obtain ⟨tr2, htr2, hpar2⟩ := hinv.2.2.2 (k2, i2) hm2
    rw [hp1] at hpar1
    rw [hp2] at hpar2
    cases hpar1
    cases hpar2
    rw [tagListEqual_iff] at heq
    subst heq
    have hlt1 : i1 < st.partials.length := by
      by_contra hge
      rw [List.getElem?_eq_none (by omega)] at htr1
      cases htr1
    constructor
    · exact List.getElem?_inj hlt1 hinv.2.2.1 (by rw [htr1, htr2])
    · refine ⟨hinv.2.2.1, ?_⟩
      have := List.getElem?_eq_getElem hlt1
      rw [this] at htr1
      cases htr1
      exact List.getElem_mem hlt1

theorem c3_partial_dedup_wit :
    (0 : Nat) = 0 ∧
      (GatherStateGo.mk [[]] [(ofString "b", 0), (ofString "a", 0)]
        [ofString "a", ofString "b"]).partials.Nodup ∧
      ([] : List Tag) ∈ (GatherStateGo.mk [[]] [(ofString "b", 0), (ofString "a", 0)]
        [ofString "a", ofString "b"]).partials :=
  c3_partial_dedup.1 (fun _ => []) [⟨.partialTag, ['a'], [], []⟩, ⟨.partialTag, ['b'], [], []⟩]
    10 ⟨[[]], [(ofString "b", 0), (ofString "a", 0)], [ofString "a", ofString "b"]⟩
    (ofString "a") (ofString "b") 0 0 [] []
    (by decide) (by decide) (by decide) (by decide) (by decide) (by decide)

theorem gatherGoLoop_mono (load : Str → Str) : ∀ (fuel : Nat) (ws : List Tag)
    (st st' : GatherStateGo), gatherGoLoop load fuel st ws = .ok st' →
    gatherGoLoop load (fuel + 1) st ws = .ok st' := by
  intro fuel
  induction fuel with
  | zero => intro ws st st' h; cases h
  | succ k ih =>
    intro ws st st' h
    cases ws with
    | nil =>
      rw [gatherGoLoop] at h ⊢
      exact h
    | cons t rest =>
      rw [gatherGoLoop] at h ⊢
      by_cases htt : t.tt = .partialTag ∨ t.tt = .parentTag
      · rw [if_pos htt] at h ⊢
        cases hlk : lookupGo st.funcNames t.s with
        | some i =>
          rw [hlk] at h
          dsimp only
          exact ih rest st st' h
        | none =>
          rw [hlk] at h
          dsimp only at h ⊢
          cases hp : parse (load t.s) with
          | error e => rw [hp] at h; cases h
          | ok pt =>
            rw [hp] at h
            dsimp only at h ⊢
            cases hidx : idxOfEquiv st.partials pt with
            | some i =>
              rw [hidx] at h
              dsimp only at h ⊢
              exact ih _ _ _ h
            | none =>
              rw [hidx] at h
              dsimp only at h ⊢
              exact ih _ _ _ h
      · rw [if_neg htt] at h ⊢
        exact ih rest st st' h

theorem gatherJSLoop_mono (load : Str → Str) : ∀ (fuel : Nat) (ws : List Tag)
    (st st' : GatherStateJS), gatherJSLoop load fuel st ws = .ok st' →
    gatherJSLoop load (fuel + 1) st ws = .ok st' := by
  intro fuel
  induction fuel with
  | zero => intro ws st st' h; cases h
  | succ k ih =>
    intro ws st st' h
    cases ws with
    | nil =>
      rw [gatherJSLoop] at h ⊢
      exact h
    | cons t rest =>
      rw [gatherJSLoop] at h ⊢
      by_cases htt : t.tt = .partialTag ∨ t.tt = .parentTag
      · rw [if_pos htt] at h ⊢
        cases hlk : lookupJS st.funcNames (t.s, t.indent) with
        | some i =>
          rw [hlk] at h
          dsimp only
          exact ih rest st st' h
        | none =>
          rw [hlk] at h
          dsimp only at h ⊢
          cases hp : parse (indentSource (load t.s) t.indent) with
          | error e => rw [hp] at h; cases h
          | ok pt =>
            rw [hp] at h
            dsimp only at h ⊢
            cases hidx : idxOfEquiv st.partials pt with
            | some i =>
              rw [hidx] at h
              dsimp only at h ⊢
              exact ih _ _ _ h
            | none =>
              rw [hidx] at h
              dsimp only at h ⊢
              exact ih _ _ _ h
      · rw [if_neg htt] at h ⊢
        exact ih rest st st' h

theorem gatherGoLoop_le (load : Str → Str) {fuel fuel' : Nat} (hle : fuel ≤ fuel') :
    ∀ {ws : List Tag} {st st' : GatherStateGo},
    gatherGoLoop load fuel st ws = .ok st' → gatherGoLoop load fuel' st ws = .ok st' := by
  induction fuel' with
  | zero =>
    intro ws st st' h
    have : fuel = 0 := by omega
    rw [this] at h
    cases h
  | succ k ih =>
    intro ws st st' h
    rcases Nat.lt_or_ge fuel (k + 1) with hlt | hge
    · exact gatherGoLoop_mono load k ws st st' (ih (by omega) h)
    · have : fuel = k + 1 := by omega
      rw [this] at h
      exact h

theorem gatherJSLoop_le (load : Str → Str) {fuel fuel' : Nat} (hle : fuel ≤ fuel') :
    ∀ {ws : List Tag} {st st' : GatherStateJS},
    gatherJSLoop load fuel st ws = .ok st' → gatherJSLoop load fuel' st ws = .ok st' := by
  induction fuel' with
  | zero =>
    intro ws st st' h
    have : fuel = 0 := by omega
    rw [this] at h
    cases h
  | succ k ih =>
    intro ws st st' h
    rcases Nat.lt_or_ge fuel (k + 1) with hlt | hge
    · exact gatherJSLoop_mono load k ws st st' (ih (by omega) h)
    · have : fuel = k + 1 := by omega
      rw [this] at h
      exact h

/-- The data of `compileGo`'s output: the main template's parse tree together
with the final resolver state (deduplicated partial trees in emission order
and the name-to-identifier table). The emitted bytes are a fixed function of
this data: `compileGo` writes a fixed preamble, the main function compiled
from `tags`, and one function `_T_p<i>` per entry of `partials`, resolving
each call site through `funcNames`. -/
def compileGoModel (load : Str → Str) (s : Str) (fuel : Nat) :
    Except ParseErr (List Tag × GatherStateGo) :=
  match parse s with
  | .error e => .error e
  | .ok tags =>
    match gatherGo load tags fuel with
    | .error e => .error e
    | .ok st => .ok (tags, st)

/-- The data of `compileJS`'s output, as for `compileGoModel`. -/
def compileJSModel (load : Str → Str) (s : Str) (fuel : Nat) :
    Except ParseErr (List Tag × GatherStateJS) :=
  match parse s with
  | .error e => .error e
  | .ok tags =>
    match gatherJS load tags fuel with
    | .error e => .error e
    | .ok st => .ok (tags, st)

/-- C2: determinism of both backends. Any two successful compiler runs on the
same template source with the same loader produce the same output data — the
same parse tree, the same deduplicated partial list in the same order, and
the same identifier table (identifiers are assigned by the stable
order-of-first-encounter rule of the resolver worklist, never by map
iteration) — regardless of the loop fuel each run was given; and the output
depends only on the loader's pointwise behavior. The emitted bytes are a
fixed function of this data, so byte-identical data means byte-identical
generated code, identifier names included. -/
theorem c2_determinism :
    (∀ (load : Str → Str) (s : Str) (fuel1 fuel2 : Nat)
      (r1 r2 : List Tag × GatherStateGo),
      compileGoModel load s fuel1 = .ok r1 → compileGoModel load s fuel2 = .ok r2 →
      r1 = r2) ∧
    (∀ (load : Str → Str) (s : Str) (fuel1 fuel2 : Nat)
      (r1 r2 : List Tag × GatherStateJS),
      compileJSModel load s fuel1 = .ok r1 → compileJSModel load s fuel2 = .ok r2 →
      r1 = r2) ∧
    (∀ (load1 load2 : Str → Str) (s : Str) (fuel : Nat),
      (∀ n, load1 n = load2 n) →
      compileGoModel load1 s fuel = compileGoModel load2 s fuel ∧
        compileJSModel load1 s fuel = compileJSModel load2 s fuel) := by
  refine ⟨?_, ?_, ?_⟩
  · intro load s fuel1 fuel2 r1 r2 h1 h2
    unfold compileGoModel at h1 h2
    cases hp : parse s with
    | error e => rw [hp] at h1; cases h1
    | ok tags =>
      rw [hp] at h1 h2
      dsimp only at h1 h2
      cases hg1 : gatherGo load tags fuel1 with
      | error e => rw [hg1] at h1; cases h1
      | ok st1 =>
        rw [hg1] at h1
        cases hg2 : gatherGo load tags fuel2 with
        | error e => rw [hg2] at h2; cases h2
        | ok st2 =>
          rw [hg2] at h2
          cases h1
          cases h2
          rcases Nat.le_total fuel1 fuel2 with hle | hle
          · have heq := gatherGoLoop_le load hle hg1
            have hg2x : gatherGoLoop load fuel2 (⟨[], [], []⟩ : GatherStateGo) (walkTags tags) = .ok st2 := hg2
            rw [heq] at hg2x
            cases hg2x
            rfl
          · have heq := gatherGoLoop_le load hle hg2
            have hg1x : gatherGoLoop load fuel1 (⟨[], [], []⟩ : GatherStateGo) (walkTags tags) = .ok st1 := hg1
            rw [heq] at hg1x
            cases hg1x
            rfl
  · intro load s fuel1 fuel2 r1 r2 h1 h2
    unfold compileJSModel at h1 h2
    cases hp : parse s with
    | error e => rw [hp] at h1; cases h1
    | ok tags =>
      rw [hp] at h1 h2
      dsimp only at h1 h2
      cases hg1 : gatherJS load tags fuel1 with
      | error e => rw [hg1] at h1; cases h1
      | ok st1 =>
        rw [hg1] at h1
        cases hg2 : gatherJS load tags fuel2 with
        | error e => rw [hg2] at h2; cases h2
        | ok st2 =>
          rw [hg2] at h2
          cases h1
          cases h2
          rcases Nat.le_total fuel1 fuel2 with hle | hle
          · have heq := gatherJSLoop_le load hle hg1
            have hg2x : gatherJSLoop load fuel2 (⟨[], [], []⟩ : GatherStateJS) (walkTags tags) = .ok st2 := hg2
            rw [heq] at hg2x
            cases hg2x
            rfl
          · have heq := gatherJSLoop_le load hle hg2
            have hg1x : gatherJSLoop load fuel1 (⟨[], [], []⟩ : GatherStateJS) (walkTags tags) = .ok st1 := hg1
            rw [heq] at hg1x
            cases hg1x
            rfl
  · intro load1 load2 s fuel hext
    have : load1 = load2 := funext hext
    rw [this]
    exact ⟨rfl, rfl⟩

/-- A compiler-output datum used to instantiate C2. -/
def c2Result : List Tag × GatherStateGo :=
  ([⟨.indentPoint, [], [], []⟩, ⟨.partialTag, ['a'], [], []⟩, ⟨.partialTag, ['b'], [], []⟩],
    GatherStateGo.mk [[]] [(ofString "b", 0), (ofString "a", 0)]
      [ofString "a", ofString "b"])

set_option maxHeartbeats 1600000 in
theorem c2_determinism_wit :
    c2Result = c2Result ∧
    compileGoModel (fun _ => []) (ofString "\x7b\x7b>a\x7d\x7d\x7b\x7b>b\x7d\x7d") 7 =
      compileGoModel (fun n => if n = [] then [] else [])
        (ofString "\x7b\x7b>a\x7d\x7d\x7b\x7b>b\x7d\x7d") 7 := by
  constructor
  · exact c2_determinism.1 (fun _ => []) (ofString "\x7b\x7b>a\x7d\x7d\x7b\x7b>b\x7d\x7d")
      7 9 c2Result c2Result (by decide) (by decide)
  · exact (c2_determinism.2.2 (fun _ => []) (fun n => if n = [] then [] else [])
      (ofString "\x7b\x7b>a\x7d\x7d\x7b\x7b>b\x7d\x7d") 7 (fun n => by simp)).1

/-! ## The Go runtime support (`go/mustache`) and section semantics -/

/-- A runtime data value, modelling the `reflect.Value`s the generated Go
code passes to the support package after `resolve` (pointer and interface
dereferencing): the invalid/zero value, booleans, strings, integers, lists
(slices/arrays) and string-keyed maps. (Floats, unsigned integers and
structs are omitted from the model; `resolve` is the identity on it.) -/
inductive Val where
  | invalid
  | bool (b : Bool)
  | str (s : Str)
  | int (n : Int)
  | list (l : List Val)
  | map (m : List (Str × Val))
  deriving Repr

/-- `property` from the source: a map member by key, the invalid value
otherwise (absent keys included). -/
def property (v : Val) (k : Str) : Val :=
  match v with
  | .map m =>
    match m.find? (fun p => p.1 == k) with
    | some kv => kv.2
    | none => .invalid
  | _ => .invalid

/-- The context-stack search of `Lookup`: from the innermost entry outward
(the caller passes the stack reversed), the first defined property wins. -/
def searchStack : List Val → Str → Val
  | [], _ => .invalid
  | v :: rest, k =>
    match property v k with
    | .invalid => searchStack rest k
    | p => p

/-- `strings.Split(path, sep)` for a single character separator. -/
def splitOn (sep : Char) : Str → Str → List Str
  | [], acc => [acc.reverse]
  | c :: t, acc =>
    if c = sep then acc.reverse :: splitOn sep t [] else splitOn sep t (c :: acc)

/-- `Lookup` from the source: `.` is the innermost context; otherwise the
first dotted segment is searched down the context stack and the remaining
segments are followed as properties. -/
def lookupPath (stack : List Val) (path : Str) : Val :=
  if path = ['.'] then stack.getLast?.getD .invalid
  else
    match splitOn '.' path [] with
    | [] => .invalid
    | p0 :: rest => rest.foldl property (searchStack stack.reverse p0)

/-- `IsFalsyOrEmptyList` from the source: invalid, `false`, the empty
string, zero, or an empty list. -/
def isFalsyOrEmptyList : Val → Bool
  | .invalid => true
  | .bool b => !b
  | .str s => s.isEmpty
  | .int n => n == 0
  | .list l => l.isEmpty
  | .map _ => false

/-- `ForEach` from the source: nothing for a falsy value, the elements of a
list, and any other value once. -/
def forEachVals (v : Val) : List Val :=
  if isFalsyOrEmptyList v then []
  else
    match v with
    | .list l => l
    | _ => [v]

/-- `ToString` on the modelled values: scalars as Go prints them; a list as
its space-separated elements in brackets (`fmt.Sprint` of a slice); a map as
`fmt.Sprint` prints it, except that the model keeps the entry order of the
association list where Go orders keys. -/
def toStr : Val → Str
  | .invalid => []
  | .bool true => ofString "true"
  | .bool false => ofString "false"
  | .str s => s
  | .int n => ofString (toString n)
  | .list l => '[' :: joinSpace (toStrList l) ++ [']']
  | .map m => ofString "map[" ++ joinSpace (toStrMap m) ++ [']']
where
  /-- The printed elements of a list value. -/
  toStrList : List Val → List Str
  | [] => []
  | v :: rest => toStr v :: toStrList rest
  /-- The printed `key:value` entries of a map value. -/
  toStrMap : List (Str × Val) → List Str
  | [] => []
  | (k, v) :: rest => (k ++ ':' :: toStr v) :: toStrMap rest
  /-- Space-separated concatenation. -/
  joinSpace : List Str → Str
  | [] => []
  | [s] => s
  | s :: rest => s ++ ' ' :: joinSpace rest

/-- `html.EscapeString` from the Go standard library, as the generated code
applies it to escaped interpolations. -/
def escapeHTML (s : Str) : Str :=
  s.flatMap (fun c =>
    if c = '&' then ofString "&amp;"
    else if c = '\'' then ofString "&#39;"
    else if c = '<' then ofString "&lt;"
    else if c = '>' then ofString "&gt;"
    else if c = '"' then ofString "&#34;"
    else [c])

mutual

/-- The runtime behavior of the code `compileTagGo` generates for a tag
list, fueled: a literal writes its text; interpolations write the (escaped)
`ToString` of `Lookup`; a section runs its body once per `ForEach` element
with the element appended to the context stack; an inverted section runs its
body when `IsFalsyOrEmptyList` holds; other tags (partials, blocks, parents,
indent points) contribute nothing in the main template's body. -/
def render : Nat → List Val → List Tag → Option Str
  | 0, _, _ => none
  | _ + 1, _, [] => some []
  | fuel + 1, stack, ⟨tt, s, _, body⟩ :: ts =>
    let head : Option Str :=
      if tt = .literal then some s
      else if tt = .variableTag then some (escapeHTML (toStr (lookupPath stack s)))
      else if tt = .rawVariable then some (toStr (lookupPath stack s))
      else if tt = .sectionTag then
        renderEach fuel stack (forEachVals (lookupPath stack s)) body
      else if tt = .invertedSection then
        if isFalsyOrEmptyList (lookupPath stack s) then render fuel stack body
        else some []
      else some []
    match head, render fuel stack ts with
    | some h, some r => some (h ++ r)
    | _, _ => none

/-- The generated section loop: the body once per element, in list order,
with the element pushed as the innermost context. -/
def renderEach : Nat → List Val → List Val → List Tag → Option Str
  | 0, _, _, _ => none
  | _ + 1, _, [], _ => some []
  | fuel + 1, stack, e :: es, body =>
    match render fuel (stack ++ [e]) body, renderEach fuel stack es body with
    | some a, some b => some (a ++ b)
    | _, _ => none

end

theorem searchStack_invalid : ∀ (l : List Val) (k : Str),
    (∀ v ∈ l, property v k = .invalid) → searchStack l k = .invalid := by
  intro l
  induction l with
  | nil => intro k _; rfl
  | cons v rest ih =>
    intro k h
    rw [searchStack]
    rw [h v (by simp)]
    exact ih k (fun x hx => h x (by simp [hx]))

/-- C6: section and inverted-section semantics of the generated Go code over
the support runtime. Absent (invalid), `false`, empty-string and empty-list
values are all falsy; a path none of whose context frames defines its first
segment resolves to the invalid value; a Section over a falsy value renders
nothing; an InvertedSection over a falsy value renders exactly its body; a
Section over a non-empty list renders its body once per element, in list
order, with that element pushed as the innermost context. -/
theorem c6_section_semantics :
    (isFalsyOrEmptyList .invalid = true ∧ isFalsyOrEmptyList (.bool false) = true ∧
      isFalsyOrEmptyList (.str []) = true ∧ isFalsyOrEmptyList (.list []) = true) ∧
    (∀ (stack : List Val) (k : Str),
      (∀ v ∈ stack, property v k = .invalid) → k ≠ ['.'] →
      splitOn '.' k [] = [k] → lookupPath stack k = .invalid) ∧
    (∀ (fuel : Nat) (stack : List Val) (p ind : Str) (body : List Tag),
      isFalsyOrEmptyList (lookupPath stack p) = true →
      render (fuel + 2) stack [⟨.sectionTag, p, ind, body⟩] = some []) ∧
    (∀ (fuel : Nat) (stack : List Val) (p ind : Str) (body : List Tag) (out : Str),
      isFalsyOrEmptyList (lookupPath stack p) = true →
      render fuel stack body = some out →
      render (fuel + 1) stack [⟨.invertedSection, p, ind, body⟩] = some out) ∧
    (∀ (fuel : Nat) (stack : List Val) (p ind : Str) (body : List Tag)
      (l : List Val) (out : Str),
      lookupPath stack p = .list l → l ≠ [] →
      renderEach (fuel + 1) stack l body = some out →
      render (fuel + 2) stack [⟨.sectionTag, p, ind, body⟩] = some out) ∧
    (∀ (fuel : Nat) (stack : List Val) (body : List Tag),
      renderEach (fuel + 1) stack [] body = some []) ∧
    (∀ (fuel : Nat) (stack : List Val) (e : Val) (es : List Val) (body : List Tag)
      (a b : Str),
      render fuel (stack ++ [e]) body = some a →
      renderEach fuel stack es body = some b →
      renderEach (fuel + 1) stack (e :: es) body = some (a ++ b)) := by
  refine ⟨⟨rfl, rfl, rfl, rfl⟩, ?_, ?_, ?_, ?_, ?_, ?_⟩
  · intro stack k h hdot hsplit
    unfold lookupPath
    rw [if_neg hdot, hsplit]
    dsimp only
    rw [List.foldl_nil]
    exact searchStack_invalid stack.reverse k
      (fun v hv => h v (List.mem_reverse.mp hv))
  · intro fuel stack p ind body hfalsy
    have hfe : forEachVals (lookupPath stack p) = [] := by
      unfold forEachVals
      rw [hfalsy]
      rfl
    rw [render]
    rw [hfe]
    rw [renderEach, render]
    simp
  · intro fuel stack p ind body out hfalsy hbody
    cases fuel with
    | zero => cases hbody
    | succ g =>
      rw [render]
      rw [if_neg (by decide), if_neg (by decide), if_neg (by decide),
        if_neg (by decide), if_pos rfl, hfalsy]
      rw [if_pos rfl]
      rw [hbody, render]
      simp
  · intro fuel stack p ind body l out hlook hne heach
    have hfe : forEachVals (lookupPath stack p) = l := by
      unfold forEachVals
      rw [hlook]
      have : isFalsyOrEmptyList (.list l) = false := by
        unfold isFalsyOrEmptyList
        simpa using hne
      rw [this]
      rfl
    rw [render]
    rw [hfe, heach, render]
    simp
  · intro fuel stack body
    rw [renderEach]
  · intro fuel stack e es body a b ha hb
    rw [renderEach]
    rw [ha, hb]

theorem c6_section_semantics_wit :
    lookupPath [Val.map [(ofString "y", Val.int 1)]] (ofString "x") = .invalid ∧
    render 2 [Val.map [(ofString "b", Val.bool false)]] [⟨.sectionTag, ofString "b", [],
      [⟨.literal, ofString "X", [], []⟩]⟩] = some [] ∧
    render 3 [Val.map [(ofString "b", Val.bool false)]] [⟨.invertedSection, ofString "b",
      [], [⟨.literal, ofString "B", [], []⟩]⟩] = some (ofString "B") ∧
    render 5 [Val.map [(ofString "l", Val.list [Val.int 1, Val.int 2])]]
      [⟨.sectionTag, ofString "l", [], [⟨.variableTag, ofString ".", [], []⟩]⟩] =
      some (ofString "12") := by
  refine ⟨?_, ?_, ?_, ?_⟩
  · refine c6_section_semantics.2.1 [Val.map [(ofString "y", Val.int 1)]] (ofString "x")
      ?_ (by decide) (by decide)
    intro v hv
    rcases List.mem_singleton.mp hv with rfl
    rfl
  · exact c6_section_semantics.2.2.1 0 [Val.map [(ofString "b", Val.bool false)]]
      (ofString "b") [] [⟨.literal, ofString "X", [], []⟩] (by decide)
  · exact c6_section_semantics.2.2.2.1 2 [Val.map [(ofString "b", Val.bool false)]]
      (ofString "b") [] [⟨.literal, ofString "B", [], []⟩] (ofString "B") (by decide)
      (by decide)
  · exact c6_section_semantics.2.2.2.2.1 3
      [Val.map [(ofString "l", Val.list [Val.int 1, Val.int 2])]] (ofString "l") []
      [⟨.variableTag, ofString ".", [], []⟩] [Val.int 1, Val.int 2] (ofString "12")
      (by rfl) (by simp) (by decide)
